import Mathlib

/-!
Verification of the crawl-and-extract core of the `aiparser` repository.

The development shallowly embeds the Python sources:

* `src/scraper/html_processor.py` — `HtmlProcessor.minimize_html` and the
  selector-based accessors (`extract_text`, `extract_multiple_texts`,
  `extract_attribute`, `extract_multiple_attributes`);
* `src/scraper/product_extractor.py` — `ProductExtractor`;
* `src/scraper/zyte_client.py` — `ZyteClient` (Redis-backed caching fetcher);
* `src/scraper/agent.py` — `ScraperAgent` (breadth-first crawl loop).

The Python code manipulates HTML through BeautifulSoup with the lxml parser.
That stack is embedded here as an executable HTML fragment tokenizer, a
stack-based tree builder, a serializer, and a small CSS-selector engine,
modelling the behaviours the sources rely on: structural elements with
lowercased tag and attribute names, first-occurrence-wins duplicate
attributes, void elements without children, entity escaping of text and
attribute values on output, stray end tags ignored, unclosed elements closed
at end of input.  Known deliberate simplifications, none of which any claim
depends on: the `<html><body>` wrapper that lxml adds around fragments is not
modelled, doctypes are treated like bogus comments, raw-text parsing of
`script`/`style` content is not special-cased, and BeautifulSoup's
alphabetical attribute ordering on output is replaced by preservation of
parse order.  Strings are processed as `List Char` (`String.data`).
-/

namespace AiParser

set_option maxRecDepth 100000

/-! ## Character utilities -/

/-- ASCII whitespace, modelling both the Python regex class `\s`
(`[ \t\n\r\f\v]`) and the characters stripped by `str.strip()` on the
ASCII inputs considered here. -/
def isWs (c : Char) : Bool :=
  c = ' ' || c = '\t' || c = '\n' || c = '\r' || c = '\x0b' || c = '\x0c'

/-- Lowercase a character list (ASCII, as lxml lowercases markup names). -/
def lowerL (s : List Char) : List Char := s.map Char.toLower

/-- Drop leading ASCII whitespace. -/
def dropWsL (s : List Char) : List Char := s.dropWhile (fun c => isWs c)

/-- Python `str.strip()`: drop leading and trailing whitespace. -/
def stripL (s : List Char) : List Char := (dropWsL (dropWsL s.reverse).reverse)

/-! ## Entity escaping, as BeautifulSoup's minimal output formatter -/

/-- Escaping of one character inside a text node (`&`, `<`, `>`). -/
def escTextChar (c : Char) : List Char :=
  if c = '&' then ['&', 'a', 'm', 'p', ';']
  else if c = '<' then ['&', 'l', 't', ';']
  else if c = '>' then ['&', 'g', 't', ';']
  else [c]

/-- Escaping of one character inside a double-quoted attribute value
(`&`, `<`, `>`, `"`). -/
def escAttrChar (c : Char) : List Char :=
  if c = '"' then ['&', 'q', 'u', 'o', 't', ';'] else escTextChar c

/-- Escape the body of a text node for serialization. -/
def escText : List Char → List Char
  | [] => []
  | c :: cs => escTextChar c ++ escText cs

/-- Escape an attribute value for serialization. -/
def escAttr : List Char → List Char
  | [] => []
  | c :: cs => escAttrChar c ++ escAttr cs

/-- Recognize a named entity body right after `&`: the decoded character
and the number of characters consumed. -/
def entHead : List Char → Option (Char × Nat)
  | 'a' :: 'm' :: 'p' :: ';' :: _ => some ('&', 4)
  | 'l' :: 't' :: ';' :: _ => some ('<', 3)
  | 'g' :: 't' :: ';' :: _ => some ('>', 3)
  | 'q' :: 'u' :: 'o' :: 't' :: ';' :: _ => some ('"', 5)
  | _ => none

/-- Entity decoding performed by the parser on text and attribute values
(the four entities the serializer can produce; a bare `&` stays).  `fuel ≥`
input length suffices. -/
def unescapeF : Nat → List Char → List Char
  | 0, s => s
  | _, [] => []
  | fuel + 1, c :: cs =>
    if c = '&' then
      match entHead cs with
      | some (d, k) => d :: unescapeF fuel (cs.drop k)
      | none => c :: unescapeF fuel cs
    else c :: unescapeF fuel cs

/-- Entity decoding (fuel instantiated adequately). -/
def unescape (s : List Char) : List Char := unescapeF s.length s

/-! ## Markup tokens -/

/-- One attribute: lowercased name and decoded value. -/
abbrev Attr := List Char × List Char

/-- Tokens of the HTML fragment scanner. -/
inductive Tok where
  | text (s : List Char)
  | comment (s : List Char)
  | startTag (name : List Char) (attrs : List Attr) (selfClose : Bool)
  | endTag (name : List Char)
deriving Repr, DecidableEq

/-- Characters allowed inside a tag name: scanning stops at whitespace,
`>`, `<` and `/`. -/
def isNameChar (c : Char) : Bool :=
  !(isWs c || c = '>' || c = '<' || c = '/')

/-- True when the list starts a markup construct: `<` followed by a letter,
`/`, `!` or `?` (HTML5 tag-open dispatch); any other `<` is text. -/
def isTagStart : List Char → Bool
  | c :: c2 :: _ => c = '<' && (c2.isAlpha || c2 = '/' || c2 = '!' || c2 = '?')
  | _ => false

/-- Scan a run of text characters, stopping at the start of a tag. -/
def scanText : List Char → List Char × List Char
  | [] => ([], [])
  | c :: cs =>
    if isTagStart (c :: cs) then ([], c :: cs)
    else
      let (t, r) := scanText cs
      (c :: t, r)

/-- Scan a comment body after `<!--`, up to and including `-->`
(to end of input when unterminated). -/
def scanComment : List Char → List Char × List Char
  | '-' :: '-' :: '>' :: cs => ([], cs)
  | [] => ([], [])
  | c :: cs =>
    let (t, r) := scanComment cs
    (c :: t, r)

/-- Scan a bogus comment (after `<!` or `<?`), up to and including `>`. -/
def scanBogus (s : List Char) : List Char × List Char :=
  let (v, r) := s.span (fun c => !(c = '>'))
  (v, r.tail)

/-- Scan an attribute name; stops at whitespace, `=`, `>`, `<`, and at a
`/` that is immediately followed by `>`. -/
def scanAttrName : List Char → List Char × List Char
  | [] => ([], [])
  | c :: cs =>
    if isWs c || c = '=' || c = '>' || c = '<' then ([], c :: cs)
    else if c = '/' && cs.head? = some '>' then ([], c :: cs)
    else
      let (n, r) := scanAttrName cs
      (c :: n, r)

/-- Scan a quoted attribute value after the opening quote `q`; the closing
quote is consumed, entities are decoded. -/
def scanQuoted (q : Char) (s : List Char) : List Char × List Char :=
  let (v, r) := s.span (fun c => !(c = q))
  (unescape v, r.tail)

/-- Scan an unquoted attribute value: up to whitespace or `>`. -/
def scanUnquoted (s : List Char) : List Char × List Char :=
  let (v, r) := s.span (fun c => !(isWs c || c = '>'))
  (unescape v, r)

/-- Record an attribute, keeping the first occurrence of a duplicate name
(lxml behaviour). -/
def addAttr (acc : List Attr) (n v : List Char) : List Attr :=
  if acc.any (fun a => a.1 = n) then acc else acc ++ [(n, v)]

/-- Scan the attribute section of a start tag.  Returns the attributes, the
self-closing flag and the rest of the input after `>`;  `none` when the input
ends inside the tag (the unterminated tag is dropped, as lxml drops trailing
broken markup).  `fuel` bounds the recursion; every step consumes at least
one character, so `fuel ≥` input length suffices.  `scanOneAttr` scans a
single attribute at the head of the input: the raw name, the decoded value
and the rest. -/
def scanOneAttr (s : List Char) : List Char × List Char × List Char :=
  let (n, r1) := scanAttrName s
  let r2 := dropWsL r1
  match r2 with
  | c2 :: r3 =>
    if c2 = '=' then
      let r4 := dropWsL r3
      match r4 with
      | c4 :: r5 =>
        if c4 = '"' then
          let (v, r6) := scanQuoted '"' r5
          (n, v, r6)
        else if c4 = '\x27' then
          let (v, r6) := scanQuoted '\x27' r5
          (n, v, r6)
        else
          let (v, r5x) := scanUnquoted (c4 :: r5)
          (n, v, r5x)
      | [] =>
        let (v, r5x) := scanUnquoted []
        (n, v, r5x)
    else (n, [], c2 :: r3)
  | [] => (n, [], [])

/-- Scan the attribute section of a start tag, one attribute per step. -/
def scanAttrs : Nat → List Attr → List Char → Option (List Attr × Bool × List Char)
  | 0, _, _ => none
  | _, _, [] => none
  | fuel + 1, acc, c :: cs =>
    if isWs c then scanAttrs fuel acc cs
    else if c = '>' then some (acc, false, cs)
    else if c = '/' && cs.head? = some '>' then some (acc, true, cs.tail)
    else if c = '=' then scanAttrs fuel acc cs
    else
      let (n, v, r) := scanOneAttr (c :: cs)
      scanAttrs fuel (addAttr acc (lowerL n) v) r

/-- One tokenizer step: the next token and the rest of the input, `none`
at end of input or on a truncated construct (dropped, as lxml drops
trailing broken markup). -/
def tokStep : List Char → Option (Tok × List Char)
  | [] => none
  | c :: cs =>
    if isTagStart (c :: cs) then
      match cs with
      | [] => none
      | c2 :: cs2 =>
        if c2 = '/' then
          let (nm, r1) := cs2.span (fun d => !(d = '>'))
          match r1 with
          | [] => none
          | _ :: r2 => some (Tok.endTag (lowerL nm), r2)
        else if c2 = '!' && ['-', '-'].isPrefixOf cs2 then
          let (cm, r1) := scanComment (cs2.drop 2)
          some (Tok.comment cm, r1)
        else if c2 = '!' || c2 = '?' then
          let (cm, r1) := scanBogus cs2
          some (Tok.comment cm, r1)
        else
          let (nm, r1) := cs.span isNameChar
          match scanAttrs (r1.length + 1) [] r1 with
          | none => none
          | some (attrs, sc, r2) => some (Tok.startTag (lowerL nm) attrs sc, r2)
    else
      let (t, r) := scanText (c :: cs)
      some (Tok.text (unescape t), r)

/-- Tokenize by iterating `tokStep`; `fuel` bounds the number of tokens. -/
def tokenizeF : Nat → List Char → List Tok
  | 0, _ => []
  | fuel + 1, s =>
    (tokStep s).elim [] (fun p => p.1 :: tokenizeF fuel p.2)

/-- Tokenize an HTML fragment (fuel instantiated adequately). -/
def tokenize (s : List Char) : List Tok := tokenizeF (s.length + 1) s

/-! ## Document trees -/

/-- Node of the parsed fragment forest. -/
inductive Node where
  | elem (name : List Char) (attrs : List Attr) (children : List Node)
  | text (s : List Char)
  | comment (s : List Char)
deriving Repr

/-- HTML void elements: childless, serialized self-closing. -/
def voidNames : List (List Char) :=
  ["area".data, "base".data, "br".data, "col".data, "embed".data, "hr".data,
   "img".data, "input".data, "link".data, "meta".data, "param".data,
   "source".data, "track".data, "wbr".data]

/-- An element in construction: name, attributes, reversed children so far. -/
structure Frame where
  name : List Char
  attrs : List Attr
  racc : List Node

/-- Tree-builder state: open-element stack (innermost first) and reversed
completed top-level nodes. -/
structure PState where
  stack : List Frame
  rtop : List Node

/-- Attach a finished node to the innermost open element (or to the top
level). -/
def addNode (st : PState) (n : Node) : PState :=
  match st.stack with
  | [] => ⟨[], n :: st.rtop⟩
  | f :: fs => ⟨⟨f.name, f.attrs, n :: f.racc⟩ :: fs, st.rtop⟩

/-- Prepend an optional pending node. -/
def consOpt : Option Node → List Node → List Node
  | none, l => l
  | some n, l => n :: l

/-- Close open frames up to and including the innermost one named `n`,
auto-closing the frames above it; `pending` is the node materialized from
the frame closed in the previous step. -/
def closeUpto (n : List Char) : List Frame → Option Node → List Node → PState
  | [], pending, rtop => ⟨[], consOpt pending rtop⟩
  | f :: fs, pending, rtop =>
    let node := Node.elem f.name f.attrs (consOpt pending f.racc).reverse
    if f.name = n then addNode ⟨fs, rtop⟩ node
    else closeUpto n fs (some node) rtop

/-- Process one token: text and comments attach in place; start tags of void
elements (or self-closing tags) attach childless; other start tags push a
frame; end tags close up to a matching open element and are ignored when
none exists (stray end tag). -/
def stepTok (st : PState) : Tok → PState
  | .text s => addNode st (.text s)
  | .comment s => addNode st (.comment s)
  | .startTag n attrs sc =>
    if sc || n ∈ voidNames then addNode st (.elem n attrs [])
    else ⟨⟨n, attrs, []⟩ :: st.stack, st.rtop⟩
  | .endTag n =>
    if st.stack.any (fun f => f.name = n) then closeUpto n st.stack none st.rtop
    else st

/-- Close every still-open frame at end of input. -/
def finalizeGo : List Frame → Option Node → List Node → List Node
  | [], pending, rtop => (consOpt pending rtop).reverse
  | f :: fs, pending, rtop =>
    finalizeGo fs (some (Node.elem f.name f.attrs (consOpt pending f.racc).reverse)) rtop

/-- Close every still-open element at end of input and return the forest. -/
def finalize (st : PState) : List Node := finalizeGo st.stack none st.rtop

/-- Build the document forest from a token stream. -/
def treeify (ts : List Tok) : List Node := finalize (ts.foldl stepTok ⟨[], []⟩)

/-- Parse an HTML fragment into a forest (BeautifulSoup(html, lxml) model). -/
def parseHtml (s : List Char) : List Node := treeify (tokenize s)

/-! ## Serialization (str(soup) model) -/

/-- Serialize one attribute as ` name="escaped value"`. -/
def renderAttr (a : Attr) : List Char :=
  ' ' :: a.1 ++ '=' :: '"' :: escAttr a.2 ++ ['"']

/-- Serialize attributes in order. -/
def renderAttrs : List Attr → List Char
  | [] => []
  | a :: as => renderAttr a ++ renderAttrs as

/-- Serialize one token. -/
def renderTok : Tok → List Char
  | .text s => escText s
  | .comment s => '<' :: '!' :: '-' :: '-' :: s ++ ['-', '-', '>']
  | .startTag n attrs sc =>
    '<' :: n ++ renderAttrs attrs ++ (if sc then ['/', '>'] else ['>'])
  | .endTag n => '<' :: '/' :: n ++ ['>']

/-- Serialize a token stream. -/
def renderToks : List Tok → List Char
  | [] => []
  | t :: ts => renderTok t ++ renderToks ts

mutual

/-- Token stream of one node: void elements serialize self-closing, other
elements as start tag, children, end tag. -/
def nodeToks : Node → List Tok
  | .text s => [.text s]
  | .comment s => [.comment s]
  | .elem n attrs ch =>
    if n ∈ voidNames then [.startTag n attrs true]
    else .startTag n attrs false :: nodesToks ch ++ [.endTag n]

/-- Token stream of a forest. -/
def nodesToks : List Node → List Tok
  | [] => []
  | n :: ns => nodeToks n ++ nodesToks ns

end

/-- Serialize a forest to markup. -/
def renderNodes (ns : List Node) : List Char := renderToks (nodesToks ns)

/-! ## HtmlProcessor.minimize_html -/

/-- Tag kinds removed structurally by `minimize_html` (the selector list in
`html_processor.py` lines 26-29). -/
def removedNames : List (List Char) :=
  ["svg".data, "style".data, "form".data, "button".data, "script".data,
   "select".data, "link".data, "pages-css".data, "noscript".data]

mutual

/-- First pass: decompose every element whose tag is in `removedNames`,
with its whole subtree. -/
def removeByName : Node → Option Node
  | .text s => some (.text s)
  | .comment s => some (.comment s)
  | .elem n attrs ch =>
    if n ∈ removedNames then none
    else some (.elem n attrs (removeByNameList ch))

/-- First pass over a forest. -/
def removeByNameList : List Node → List Node
  | [] => []
  | n :: ns =>
    match removeByName n with
    | none => removeByNameList ns
    | some m => m :: removeByNameList ns

end

mutual

/-- Second pass: extract every comment node. -/
def removeComments : Node → Option Node
  | .text s => some (.text s)
  | .comment _ => none
  | .elem n attrs ch => some (.elem n attrs (removeCommentsList ch))

/-- Second pass over a forest. -/
def removeCommentsList : List Node → List Node
  | [] => []
  | n :: ns =>
    match removeComments n with
    | none => removeCommentsList ns
    | some m => m :: removeCommentsList ns

end

/-- Attributes kept by the third pass (`allowed_attrs`). -/
def allowedAttrs : List (List Char) := ["src".data, "href".data, "title".data]

/-- First value of the named attribute, when present. -/
def lookupAttr (attrs : List Attr) (n : List Char) : Option (List Char) :=
  (attrs.find? (fun a => a.1 == n)).map (fun a => a.2)

mutual

/-- Third pass: skip `meta` elements entirely; for every other element strip
all attributes outside `allowedAttrs`, then decompose the element when its
(kept) `src` value starts with the four characters `data`. -/
def attrPassNode : Node → Option Node
  | .text s => some (.text s)
  | .comment s => some (.comment s)
  | .elem n attrs ch =>
    if n = "meta".data then some (.elem n attrs (attrPassList ch))
    else
      let attrs2 := attrs.filter (fun a => allowedAttrs.contains a.1)
      match lookupAttr attrs2 "src".data with
      | some v =>
        if "data".data.isPrefixOf v then none
        else some (.elem n attrs2 (attrPassList ch))
      | none => some (.elem n attrs2 (attrPassList ch))

/-- Third pass over a forest. -/
def attrPassList : List Node → List Node
  | [] => []
  | n :: ns =>
    match attrPassNode n with
    | none => attrPassList ns
    | some m => m :: attrPassList ns

end

/-- The three structural passes of `minimize_html`, in source order. -/
def minimizeNodes (ns : List Node) : List Node :=
  attrPassList (removeCommentsList (removeByNameList ns))

/-- Delete every occurrence of a character (model of `re.sub` with pattern
`\t+` or `\n+` and empty replacement). -/
def filterOut (c0 : Char) (s : List Char) : List Char :=
  s.filter (fun c => !(c = c0))

/-- Leftmost non-overlapping replacement of a literal pattern, the model of
`re.sub` with a literal pattern.  `fuel ≥` input length suffices when the
pattern is nonempty. -/
def replaceAllF (pat rep : List Char) : Nat → List Char → List Char
  | _, [] => []
  | 0, s => s
  | fuel + 1, c :: cs =>
    if pat.isPrefixOf (c :: cs) then rep ++ replaceAllF pat rep fuel ((c :: cs).drop pat.length)
    else c :: replaceAllF pat rep fuel cs

/-- Leftmost non-overlapping replacement of a literal pattern. -/
def replaceAllL (pat rep s : List Char) : List Char :=
  replaceAllF pat rep s.length s

/-- Model of `re.sub(r">\s+<", "><", s)`: whitespace runs strictly between
a tag end `>` and a tag start `<` are deleted; scanning resumes after the
consumed `<`. -/
def collapseF : Nat → List Char → List Char
  | _, [] => []
  | 0, s => s
  | fuel + 1, c :: cs =>
    if c = '>' then
      let w := cs.takeWhile isWs
      let r := cs.dropWhile isWs
      if !w.isEmpty && r.head? = some '<' then '>' :: '<' :: collapseF fuel r.tail
      else '>' :: collapseF fuel cs
    else c :: collapseF fuel cs

/-- Model of `re.sub(r">\s+<", "><", s)`. -/
def collapseL (s : List Char) : List Char := collapseF s.length s

/-- The string post-passes of `minimize_html`, in source order: delete tabs
and newlines, abbreviate `</span> </div> <span> <div>`, collapse whitespace
between tag boundaries, strip. -/
def postPasses (t : List Char) : List Char :=
  stripL (collapseL
    (replaceAllL "<div>".data "<d>".data
      (replaceAllL "<span>".data "<s>".data
        (replaceAllL "</div>".data "</d>".data
          (replaceAllL "</span>".data "</s>".data
            (filterOut '\n' (filterOut '\t' t)))))))

/-- `HtmlProcessor.minimize_html`: empty input returns empty; otherwise
parse, run the three structural passes, serialize, and run the string
post-passes. -/
def minimizeHtml (s : List Char) : List Char :=
  if s = [] then []
  else postPasses (renderNodes (minimizeNodes (parseHtml s)))

/-- String-level wrapper of `minimizeHtml`. -/
def minimize_html (s : String) : String := ⟨minimizeHtml s.data⟩

/-! ## CSS selectors (the soupsieve subset the sources use)

The selectors appearing in the sources combine tag names, `.class`, `#id`,
`[attr]` and `[attr='value']` conditions with descendant combinators and
comma groups. -/

/-- One simple condition of a compound selector. -/
inductive SCond where
  | classIs (c : List Char)
  | idIs (i : List Char)
  | attrHas (n : List Char)
  | attrEq (n v : List Char)
deriving Repr, DecidableEq

/-- A compound selector: optional tag name plus conditions. -/
structure Compound where
  tag : Option (List Char)
  conds : List SCond
deriving Repr, DecidableEq

/-- A descendant chain, outermost compound first. -/
abbrev Chain := List Compound

/-- Split a selector string on top-level commas (commas inside `[...]` do
not split). -/
def splitCommaGo : Bool → List Char → List Char → List (List Char)
  | _, acc, [] => [acc.reverse]
  | inBr, acc, c :: cs =>
    if c = ',' && !inBr then acc.reverse :: splitCommaGo false [] cs
    else splitCommaGo (if c = '[' then true else if c = ']' then false else inBr) (c :: acc) cs

/-- Split on top-level commas. -/
def splitComma (s : List Char) : List (List Char) := splitCommaGo false [] s

/-- Split into maximal whitespace-free words. -/
def wordsGo : List Char → List Char → List (List Char)
  | acc, [] => if acc.isEmpty then [] else [acc.reverse]
  | acc, c :: cs =>
    if isWs c then (if acc.isEmpty then wordsGo [] cs else acc.reverse :: wordsGo [] cs)
    else wordsGo (c :: acc) cs

/-- Split into maximal whitespace-free words. -/
def wordsL (s : List Char) : List (List Char) := wordsGo [] s

/-- Characters that end a tag-name or condition word in a selector. -/
def isSelDelim (c : Char) : Bool := c = '.' || c = '#' || c = '['

/-- Parse the bracketed body of an attribute condition: `name`,
`name='value'` or `name="value"`. -/
def parseAttrCond (inner : List Char) : SCond :=
  let (n, r) := inner.span (fun c => !(c = '='))
  match r with
  | '=' :: v =>
    let v2 :=
      if v.head? = some '"' || v.head? = some '\x27' then (v.drop 1).dropLast else v
    .attrEq n v2
  | _ => .attrHas n

/-- Parse the condition suffixes of a compound selector. -/
def parseConds : Nat → List Char → List SCond
  | 0, _ => []
  | _, [] => []
  | fuel + 1, '.' :: cs =>
    let (w, r) := cs.span (fun c => !(isSelDelim c))
    .classIs w :: parseConds fuel r
  | fuel + 1, '#' :: cs =>
    let (w, r) := cs.span (fun c => !(isSelDelim c))
    .idIs w :: parseConds fuel r
  | fuel + 1, '[' :: cs =>
    let (inner, r) := cs.span (fun c => !(c = ']'))
    parseAttrCond inner :: parseConds fuel r.tail
  | fuel + 1, _ :: cs => parseConds fuel cs

/-- Parse one compound selector. -/
def parseCompound (s : List Char) : Compound :=
  let (tag, r) := s.span (fun c => !(isSelDelim c))
  ⟨if tag.isEmpty then none else some tag, parseConds r.length r⟩

/-- Parse a selector string into comma-separated descendant chains. -/
def parseSelector (s : List Char) : List Chain :=
  (splitComma s).map (fun part => (wordsL part).map parseCompound)

/-- Identity of one element for matching: name and attributes. -/
abbrev ETag := List Char × List Attr

/-- Does one condition hold of an element's attributes?  Class attributes
are whitespace-separated token lists. -/
def condMatches (attrs : List Attr) : SCond → Bool
  | .classIs c =>
    match lookupAttr attrs "class".data with
    | some v => (wordsL v).contains c
    | none => false
  | .idIs i => lookupAttr attrs "id".data == some i
  | .attrHas n => (lookupAttr attrs n).isSome
  | .attrEq n v => lookupAttr attrs n == some v

/-- Does a compound selector match an element? -/
def compMatches (name : List Char) (attrs : List Attr) (c : Compound) : Bool :=
  (match c.tag with
   | none => true
   | some t => t == name) && c.conds.all (condMatches attrs)

/-- Match the remaining compounds (innermost first) against the ancestor
list (nearest first), in order, skipping ancestors freely. -/
def ancMatches : List Compound → List ETag → Bool
  | [], _ => true
  | _ :: _, [] => false
  | c :: cs, a :: as => (compMatches a.1 a.2 c && ancMatches cs as) || ancMatches (c :: cs) as

/-- Does a descendant chain match an element with the given ancestors
(nearest first)? -/
def chainMatches (chain : Chain) (anc : List ETag) (name : List Char) (attrs : List Attr) : Bool :=
  match chain.reverse with
  | [] => false
  | c :: cs => compMatches name attrs c && ancMatches cs anc

mutual

/-- Elements matching any chain, in document (preorder) order. -/
def selectNode (sels : List Chain) (anc : List ETag) : Node → List Node
  | .text _ => []
  | .comment _ => []
  | .elem n attrs ch =>
    (if sels.any (fun c => chainMatches c anc n attrs) then [Node.elem n attrs ch] else [])
      ++ selectList sels ((n, attrs) :: anc) ch

/-- Matching elements of a forest, in document order. -/
def selectList (sels : List Chain) (anc : List ETag) : List Node → List Node
  | [] => []
  | n :: ns => selectNode sels anc n ++ selectList sels anc ns

end

/-- `soup.select(sel)` over a parsed forest. -/
def selectForest (sel : List Char) (ns : List Node) : List Node :=
  selectList (parseSelector sel) [] ns

mutual

/-- Concatenated text of all text descendants (`get_text()`). -/
def textOf : Node → List Char
  | .text s => s
  | .comment _ => []
  | .elem _ _ ch => textsOf ch

/-- Concatenated text of a forest. -/
def textsOf : List Node → List Char
  | [] => []
  | n :: ns => textOf n ++ textsOf ns

end

/-- Attributes of an element node (empty for text and comments). -/
def nodeAttrs : Node → List Attr
  | .elem _ attrs _ => attrs
  | _ => []

/-- `HtmlProcessor.extract_text`: text of the first match, stripped;
absent when nothing matches. -/
def extract_text (html sel : List Char) : Option (List Char) :=
  match selectForest sel (parseHtml html) with
  | [] => none
  | e :: _ => some (stripL (textOf e))

/-- `HtmlProcessor.extract_multiple_texts`: stripped text of every match. -/
def extract_multiple_texts (html sel : List Char) : List (List Char) :=
  (selectForest sel (parseHtml html)).map (fun e => stripL (textOf e))

/-- `HtmlProcessor.extract_attribute`: the attribute of the first match;
absent when nothing matches or the first match lacks the attribute. -/
def extract_attribute (html sel attrName : List Char) : Option (List Char) :=
  match selectForest sel (parseHtml html) with
  | [] => none
  | e :: _ => lookupAttr (nodeAttrs e) attrName

/-- `HtmlProcessor.extract_multiple_attributes`: the attribute values of
every match carrying the attribute. -/
def extract_multiple_attributes (html sel attrName : List Char) : List (List Char) :=
  (selectForest sel (parseHtml html)).filterMap (fun e => lookupAttr (nodeAttrs e) attrName)

/-! ## URL utilities (the `urllib.parse` behaviour the sources rely on) -/

/-- Characters allowed in a URL scheme after the first letter. -/
def isSchemeChar (c : Char) : Bool := c.isAlphanum || c = '+' || c = '-' || c = '.'

/-- The scheme of a URL, empty when absent. -/
def schemeOf (u : List Char) : List Char :=
  let (sch, r) := u.span (fun c => !(c = ':'))
  match r with
  | ':' :: _ =>
    match sch with
    | [] => []
    | c :: _ => if c.isAlpha && sch.all isSchemeChar then sch else []
  | _ => []

/-- Strip a leading `scheme:` when present. -/
def urlRest (u : List Char) : List Char :=
  if (schemeOf u).isEmpty then u else (u.span (fun c => !(c = ':'))).2.tail

/-- Characters ending the network-location component. -/
def isNetlocEnd (c : Char) : Bool := c = '/' || c = '?' || c = '#'

/-- `urlparse(u).netloc`: present only after `//`. -/
def netlocOf (u : List Char) : List Char :=
  match urlRest u with
  | '/' :: '/' :: r => r.takeWhile (fun c => !(isNetlocEnd c))
  | _ => []

/-- `urlparse(u).path` (query and fragment stripped; the rarely-used
`;parameters` component is not split off). -/
def pathOf (u : List Char) : List Char :=
  let r := urlRest u
  let r2 :=
    match r with
    | '/' :: '/' :: rest => rest.dropWhile (fun c => !(isNetlocEnd c))
    | _ => r
  r2.takeWhile (fun c => !(c = '?' || c = '#'))

/-- Scheme-and-authority part of a URL, used as the base of absolute-path
joins. -/
def originOf (u : List Char) : List Char :=
  (if (schemeOf u).isEmpty then [] else schemeOf u ++ [':']) ++ '/' :: '/' :: netlocOf u

/-- Base directory of a URL for relative joins: origin plus path up to and
including the last `/` (just `/` when the path has none). -/
def dirOf (u : List Char) : List Char :=
  let p := pathOf u
  let d := (p.reverse.dropWhile (fun c => !(c = '/'))).reverse
  originOf u ++ (if d.isEmpty then ['/'] else d)

/-- `urllib.parse.urljoin`, modelling the cases the sources exercise:
absolute URLs pass through, `//`-relative URLs take the base scheme,
`/`-rooted paths join the origin, other relative paths join the base
directory.  Dot-segment normalization and query/fragment-only references
are not modelled. -/
def urljoinM (base rel : List Char) : List Char :=
  if rel.isEmpty then base
  else if !(schemeOf rel).isEmpty then rel
  else
    match rel with
    | '/' :: '/' :: _ => (if (schemeOf base).isEmpty then [] else schemeOf base ++ [':']) ++ rel
    | '/' :: _ => originOf base ++ rel
    | _ => dirOf base ++ rel

/-- Python `str.title()` on ASCII input: a letter is uppercased when not
preceded by a letter, lowercased otherwise. -/
def titleGo : Bool → List Char → List Char
  | _, [] => []
  | prev, c :: cs =>
    if c.isAlpha then (if prev then c.toLower else c.toUpper) :: titleGo true cs
    else c :: titleGo false cs

/-- Python `str.title()`. -/
def titleL (s : List Char) : List Char := titleGo false s

/-- Split on `/`, keeping empty pieces (Python `str.split`). -/
def splitSlashGo : List Char → List Char → List (List Char)
  | acc, [] => [acc.reverse]
  | acc, c :: cs => if c = '/' then acc.reverse :: splitSlashGo [] cs else splitSlashGo (c :: acc) cs

/-- Split on `/`. -/
def splitSlash (s : List Char) : List (List Char) := splitSlashGo [] s

/-! ## The Product record (`models.py`) -/

/-- `Product` dataclass.  `specifications` is an insertion-ordered mapping
(model of the Python dict). -/
structure Product where
  url : String
  name : String
  description : Option String := none
  price : Option String := none
  currency : Option String := none
  images : List String := []
  specifications : List (String × String) := []
  availability : Option String := none
  brand : Option String := none
  category : Option String := none
  raw_html : Option String := none
deriving Repr, DecidableEq

/-- Dict assignment `d[k] = v`: overwrite in place or append. -/
def dictSet (d : List (String × String)) (k v : String) : List (String × String) :=
  match d with
  | [] => [(k, v)]
  | e :: es => if e.1 == k then (k, v) :: es else e :: dictSet es k v

/-! ## ProductExtractor (`product_extractor.py`) -/

/-- The per-field selector configuration of `ProductExtractor`. -/
structure Selectors where
  name : List Char
  price : List Char
  currency : List Char
  description : List Char
  images : List Char
  brand : List Char
  availability : List Char

/-- The default selectors of `ProductExtractor.__init__`. -/
def defaultSelectors : Selectors where
  name := "h1".data
  price := ".price, .product-price, span[itemprop=\x27price\x27]".data
  currency := "meta[itemprop=\x27priceCurrency\x27]".data
  description := "div[itemprop=\x27description\x27], .product-description, #product-description".data
  images := "img.product-image, img[itemprop=\x27image\x27]".data
  brand := "meta[itemprop=\x27brand\x27], .brand".data
  availability := ".availability, [itemprop=\x27availability\x27]".data

/-- The fixed selector list tried by `_extract_specifications`. -/
def specSelectors : List (List Char) :=
  [".specifications tr".data, ".product-specs tr".data, "table.specs tr".data,
   "dl.product-specs dt, dl.product-specs dd".data]

/-- Children of an element node. -/
def nodeChildren : Node → List Node
  | .elem _ _ ch => ch
  | _ => []

/-- Python `str.rstrip(":")`. -/
def rstripColon (s : List Char) : List Char :=
  (s.reverse.dropWhile (fun c => c = ':')).reverse

/-- Process one table row: take its `th, td` descendants; with at least two
cells, record first cell (stripped, trailing colon removed) → second cell
(stripped), skipping pairs with an empty key or value. -/
def addRowPair (d : List (String × String)) (row : Node) : List (String × String) :=
  let cells := selectList (parseSelector "th, td".data) [] (nodeChildren row)
  match cells with
  | c0 :: c1 :: _ =>
    let key := rstripColon (stripL (textOf c0))
    let val := stripL (textOf c1)
    if !key.isEmpty && !val.isEmpty then dictSet d ⟨key⟩ ⟨val⟩ else d
  | _ => d

/-- Process a definition list: consume term/definition elements two at a
time, dropping a trailing odd element. -/
def dlPairs (d : List (String × String)) : List Node → List (String × String)
  | a :: b :: rest =>
    let key := rstripColon (stripL (textOf a))
    let val := stripL (textOf b)
    dlPairs (if !key.isEmpty && !val.isEmpty then dictSet d ⟨key⟩ ⟨val⟩ else d) rest
  | _ => d

/-- Substring test (Python `in` on strings). -/
def isInfixL (pat : List Char) : List Char → Bool
  | [] => pat.isEmpty
  | c :: cs => pat.isPrefixOf (c :: cs) || isInfixL pat cs

/-- The selector loop of `_extract_specifications`: table-shaped selectors
(containing `tr`) read two-or-more-cell rows, definition-list selectors
(containing `dt`) read pairs; the loop stops after the first selector
leaving the mapping nonempty. -/
def extractSpecsGo (forest : List Node) : List (String × String) → List (List Char) → List (String × String)
  | d, [] => d
  | d, sel :: rest =>
    let elements := selectList (parseSelector sel) [] forest
    let d2 :=
      if !elements.isEmpty && isInfixL "tr".data sel then elements.foldl addRowPair d
      else if !elements.isEmpty && isInfixL "dt".data sel then dlPairs d elements
      else d
    if !d2.isEmpty then d2 else extractSpecsGo forest d2 rest

/-- `ProductExtractor._extract_specifications` applied to an HTML string,
returning the resulting `specifications` mapping (initially empty). -/
def extract_specifications (html : List Char) : List (String × String) :=
  extractSpecsGo (parseHtml html) [] specSelectors

/-- The fixed breadcrumb selector list of `_extract_category`. -/
def breadcrumbSelectors : List (List Char) :=
  [".breadcrumbs li".data, ".breadcrumb li".data,
   "nav[aria-label=\x27breadcrumb\x27] li".data,
   "[itemtype=\x27http://schema.org/BreadcrumbList\x27] li".data]

/-- URL fallback of `_extract_category`: non-empty path segments; with more
than one, the second-to-last with `-` and `_` replaced by spaces,
title-cased. -/
def categoryFromPath (url : List Char) : Option (List Char) :=
  let segs := (splitSlash (pathOf url)).filter (fun s => !s.isEmpty)
  match segs.reverse with
  | _ :: s2 :: _ =>
    some (titleL (s2.map (fun c => if c = '-' then ' ' else if c = '_' then ' ' else c)))
  | _ => none

/-- Breadcrumb loop of `_extract_category`: the first selector yielding
more than one text returns the second-to-last text; otherwise fall back to
the URL path. -/
def extractCategoryGo (url html : List Char) : List (List Char) → Option (List Char)
  | [] => categoryFromPath url
  | sel :: rest =>
    let bs := extract_multiple_texts html sel
    match bs.reverse with
    | _ :: b2 :: _ => some b2
    | _ => extractCategoryGo url html rest

/-- `ProductExtractor._extract_category`. -/
def extract_category (url html : List Char) : Option (List Char) :=
  extractCategoryGo url html breadcrumbSelectors

/-- `ProductExtractor.extract_from_html`: minimize, then populate every
field through the selector accessors.  Python truthiness is modelled where
the source uses it: an empty extracted name falls back to the sentinel, an
empty currency attribute is not assigned. -/
def extract_from_html (sels : Selectors) (url html : List Char) : Product :=
  let m := minimizeHtml html
  let nameT :=
    match extract_text m sels.name with
    | some v => if v.isEmpty then "Unknown Product".data else v
    | none => "Unknown Product".data
  let currency :=
    match extract_attribute m sels.currency "content".data with
    | some v => if v.isEmpty then none else some (⟨v⟩ : String)
    | none => none
  { url := ⟨url⟩
    name := ⟨nameT⟩
    description := (extract_text m sels.description).map (fun v => (⟨v⟩ : String))
    price := (extract_text m sels.price).map (fun v => (⟨v⟩ : String))
    currency := currency
    images := (extract_multiple_attributes m sels.images "src".data).map
      (fun v => (⟨urljoinM url v⟩ : String))
    specifications := extract_specifications m
    availability := (extract_text m sels.availability).map (fun v => (⟨v⟩ : String))
    brand := (extract_text m sels.brand).map (fun v => (⟨v⟩ : String))
    category := (extract_category url m).map (fun v => (⟨v⟩ : String))
    raw_html := some ⟨m⟩ }

/-! ## ZyteClient (`zyte_client.py`)

The Redis store is modelled as a reliable in-memory map (a connection
failure at construction time disables `use_cache` in the source, giving the
`useCache = false` states).  The cache key — the MD5 hash of
`f"{url}:{browser}"` under the `zyte:html:` namespace — is modelled as the
pair `(url, browser)` itself: the source relies only on the key being a
deterministic, injective function of that pair.  Every stored entry carries
an ISO timestamp, which is always a truthy string, so `_get_from_cache`'s
`timestamp_str and html_content` guard reduces to the content being
nonempty.  The outcome of one `requests.post` call is an explicit
`NetResult` argument. -/

/-- JSON body of a successful Zyte response, restricted to the fields the
client reads; a missing field models a response without that key. -/
structure RespBody where
  browserHtml : Option (List Char)
  httpResponseBody : Option (List Char)

/-- Outcome of one `requests.post` call: timeout (`requests.Timeout`),
transport error (`requests.RequestException`), any other raised exception,
or an HTTP response with a status code and an optional parsed JSON body
(`none` models a body that is not valid JSON). -/
inductive NetResult where
  | timeout
  | reqError
  | otherError
  | response (status : Nat) (body : Option RespBody)

/-- Client state: the `use_cache` flag and the cache contents. -/
structure ZState where
  useCache : Bool
  cache : List ((List Char × Bool) × List Char)
deriving Repr

/-- Association-list lookup for the cache. -/
def cacheLookup (c : List ((List Char × Bool) × List Char)) (k : List Char × Bool) :
    Option (List Char) :=
  match c with
  | [] => none
  | e :: es => if e.1 == k then some e.2 else cacheLookup es k

/-- Association-list update for the cache (`setex` overwrites). -/
def cacheInsert (c : List ((List Char × Bool) × List Char)) (k : List Char × Bool)
    (v : List Char) : List ((List Char × Bool) × List Char) :=
  match c with
  | [] => [(k, v)]
  | e :: es => if e.1 == k then (k, v) :: es else e :: cacheInsert es k v

/-- `ZyteClient._get_from_cache`: nothing when caching is disabled; a hit
requires a stored entry with truthy (nonempty) content. -/
def getFromCache (st : ZState) (url : List Char) (browser : Bool) : Option (List Char) :=
  if !st.useCache then none
  else
    match cacheLookup st.cache (url, browser) with
    | some c => if c.isEmpty then none else some c
    | none => none

/-- `ZyteClient._save_to_cache`: no write when caching is disabled or the
content is empty (falsy). -/
def saveToCache (st : ZState) (url : List Char) (browser : Bool) (content : List Char) : ZState :=
  if !st.useCache || content.isEmpty then st
  else ⟨st.useCache, cacheInsert st.cache (url, browser) content⟩

/-- Result of one `get_html` call: the returned value, the state after the
call, and the number of live API requests issued (0 or 1). -/
structure FetchOut where
  result : Option (List Char)
  state : ZState
  requests : Nat
deriving Repr

/-- The live-request path of `get_html` (`zyte_client.py` lines 191-269):
one API request; on HTTP 200 with valid JSON and a truthy content field for
the requested mode, minimize, save to cache and return; every failure shape
returns `None`. -/
def liveFetch (st : ZState) (url : List Char) (browser : Bool) (net : NetResult) : FetchOut :=
  match net with
  | .timeout => ⟨none, st, 1⟩
  | .reqError => ⟨none, st, 1⟩
  | .otherError => ⟨none, st, 1⟩
  | .response status body =>
    if status = 200 then
      match body with
      | none => ⟨none, st, 1⟩
      | some b =>
        match (if browser then b.browserHtml else b.httpResponseBody) with
        | some h =>
          if h.isEmpty then ⟨none, st, 1⟩
          else
            let processed := minimizeHtml h
            ⟨some processed, saveToCache st url browser processed, 1⟩
        | none => ⟨none, st, 1⟩
    else ⟨none, st, 1⟩

/-- `ZyteClient.get_html`: serve from the cache unless `force_refresh`,
otherwise issue the live request.  The `headers` and `timeout` arguments
shape the request only; the response is the `net` argument. -/
def get_html (st : ZState) (url : List Char) (_headers : Option (List (List Char × List Char)))
    (browser : Bool) (_timeout : Nat) (forceRefresh : Bool) (net : NetResult) : FetchOut :=
  match forceRefresh, getFromCache st url browser with
  | false, some c => ⟨some c, st, 0⟩
  | _, _ => liveFetch st url browser net

/-- Link extraction of `ZyteClient.find_links` from fetched content: anchors
matching `a[href]` with truthy `href`, resolved against the page URL, in
document order. -/
def linksFromHtml (url html : List Char) : List (List Char) :=
  (selectForest "a[href]".data (parseHtml html)).filterMap (fun e =>
    match lookupAttr (nodeAttrs e) "href".data with
    | some h => if h.isEmpty then none else some (urljoinM url h)
    | none => none)

/-! ## ScraperAgent (`agent.py`)

The crawl, `scrape_website`, is driven by an environment giving the result
of `ZyteClient.get_html` for each URL and render mode — the composite of
cache and network behaviour, deterministic across the run.  `find_links`
fetches with `browser=False` and extracts anchors, exactly as the source
(which refetches despite its comment).  The `while` loop of
`scrape_website` runs while the frontier is nonempty and
`len(visited) < max_pages`; since iterations that skip an already-visited
URL leave `visited` unchanged and every other iteration grows `visited` by
exactly one, the loop is modelled with a `gas` counter equal to the
remaining page budget `max_pages - len(visited)`, consumed once per
visit. -/

/-- Crawl environment: the fetch oracle `(url, browser) ↦ get_html` result. -/
structure CrawlEnv where
  fetch : List Char → Bool → Option (List Char)

/-- `ZyteClient.find_links` under the environment: non-browser fetch, then
anchor extraction; empty on fetch failure. -/
def findLinksEnv (env : CrawlEnv) (url : List Char) : List (List Char) :=
  match env.fetch url false with
  | none => []
  | some h => linksFromHtml url h

/-- `ScraperAgent._get_domain`: `urlparse(url).netloc`. -/
def getDomain (url : List Char) : List Char := netlocOf url

/-- The URL patterns of `product_url_patterns`, searched case-insensitively
(`/product[s]?/` unfolded into its two alternatives). -/
def urlPatternHit (url : List Char) : Bool :=
  let u := lowerL url
  isInfixL "/product/".data u || isInfixL "/products/".data u ||
  isInfixL "/item/".data u || isInfixL "/p/".data u ||
  isInfixL "/pd/".data u || isInfixL "/detail/".data u

/-- One or the other quote character, the regex class made of double and
single quote. -/
def isQuote (c : Char) : Bool := c = '"' || c = '\x27'

/-- The rest of the input after a literal, when the literal is a prefix. -/
def afterLit? (lit s : List Char) : Option (List Char) :=
  if lit.isPrefixOf s then some (s.drop lit.length) else none

/-- Match `lit1["\']lit2["\']` at the current position. -/
def matchA (lit1 lit2 s : List Char) : Bool :=
  match afterLit? lit1 s with
  | some (q :: r) =>
    isQuote q &&
      (match afterLit? lit2 r with
       | some (q2 :: _) => isQuote q2
       | _ => false)
  | _ => false

/-- Find a literal within a newline-free region (regex `.*lit` with `.` not
matching newline); returns the rest after the literal. -/
def searchNoNL (mid : List Char) : List Char → Option (List Char)
  | [] => if mid.isEmpty then some [] else none
  | c :: cs =>
    if mid.isPrefixOf (c :: cs) then some ((c :: cs).drop mid.length)
    else if c = '\n' then none
    else searchNoNL mid cs

/-- Is some quote character reachable without crossing a newline
(regex `.*["\']`)? -/
def quoteAfterNoNL : List Char → Bool
  | [] => false
  | c :: cs => isQuote c || (!(c = '\n') && quoteAfterNoNL cs)

/-- Match `lit["\'].*mid.*["\']` at the current position. -/
def matchB (lit mid s : List Char) : Bool :=
  match afterLit? lit s with
  | some (q :: r) =>
    isQuote q &&
      (match searchNoNL mid r with
       | some r2 => quoteAfterNoNL r2
       | none => false)
  | _ => false

/-- Scan for a position matching `p` that lies after a `<` with no
intervening `>` (the regex shape `<[^>]*` before each indicator). -/
def scanInd (p : List Char → Bool) : Bool → List Char → Bool
  | _, [] => false
  | inTag, c :: cs =>
    (inTag && p (c :: cs)) ||
      scanInd p (if c = '<' then true else if c = '>' then false else inTag) cs

/-- The six product indicators of `_is_product_page`, searched
case-insensitively over the raw markup. -/
def isProductIndicator (html : List Char) : Bool :=
  let h := lowerL html
  scanInd (fun s => matchA "itemprop=".data "price".data s) false h ||
  scanInd (fun s => matchA "itemprop=".data "product".data s) false h ||
  scanInd (fun s => matchB "class=".data "product".data s) false h ||
  scanInd (fun s => matchA "id=".data "product".data s) false h ||
  scanInd (fun s => matchB "class=".data "add-to-cart".data s) false h ||
  scanInd (fun s => matchB "class=".data "buy-now".data s) false h

/-- `ScraperAgent._is_product_page`: URL pattern or markup indicator. -/
def is_product_page (url html : List Char) : Bool :=
  urlPatternHit url || isProductIndicator html

/-- Crawl configuration held by the agent. -/
structure AgentCfg where
  maxPages : Nat
  maxDepth : Nat
  useBrowser : Bool
  sels : Selectors

/-- Pop the first frontier entry whose URL is not yet visited, dropping the
already-visited entries before it (the `continue` branch of the loop). -/
def popNext (visited : List (List Char)) :
    List (List Char × Nat) → Option ((List Char × Nat) × List (List Char × Nat))
  | [] => none
  | (u, d) :: rest => if visited.contains u then popNext visited rest else some ((u, d), rest)

/-- The crawl loop body of `scrape_website`: visit the URL, fetch (skipping
link discovery and extraction on failure), extract a product when the page
classifies as one, and below `max_depth` enqueue the same-domain
not-yet-visited links at `depth + 1`.  `gas` is the remaining page
budget. -/
def crawlGo (env : CrawlEnv) (cfg : AgentCfg) (baseDomain : List Char) :
    Nat → List (List Char) → List (List Char × Nat) → List Product →
    List (List Char) × List Product
  | 0, visited, _, products => (visited, products)
  | gas + 1, visited, frontier, products =>
    match popNext visited frontier with
    | none => (visited, products)
    | some ((url, depth), rest) =>
      let visited2 := url :: visited
      match env.fetch url cfg.useBrowser with
      | none => crawlGo env cfg baseDomain gas visited2 rest products
      | some html =>
        let products2 :=
          if is_product_page url html then products ++ [extract_from_html cfg.sels url html]
          else products
        let newLinks :=
          if depth < cfg.maxDepth then
            ((findLinksEnv env url).filter
              (fun l => getDomain l == baseDomain && !(visited2.contains l))).map
              (fun l => (l, depth + 1))
          else []
        crawlGo env cfg baseDomain gas visited2 (rest ++ newLinks) products2

/-- `ScraperAgent.scrape_website`: frontier seeded with `(start_url, 0)`,
products accumulated in processing order.  `visited0` is the agent's
`visited_urls` at call time — the attribute is initialized empty in
`__init__` and never reset, so it carries over between calls; the final
visited set is returned alongside the products as the updated agent
state. -/
def scrape_website (env : CrawlEnv) (cfg : AgentCfg) (visited0 : List (List Char))
    (start : List Char) : List (List Char) × List Product :=
  crawlGo env cfg (getDomain start) (cfg.maxPages - visited0.length) visited0 [(start, 0)] []

/-! ## Claims about the caching fetcher (C1, C2) -/

/-- Two immediate `get_html` calls for the same URL and render mode, both
with `force_refresh=False`; the second starts from the state the first
leaves behind and sees the network outcome `net2`. -/
def twoFetches (st : ZState) (url : List Char) (hdrs : Option (List (List Char × List Char)))
    (browser : Bool) (tmo tmo2 : Nat) (net net2 : NetResult) : FetchOut × FetchOut :=
  let o1 := get_html st url hdrs browser tmo false net
  (o1, get_html o1.state url hdrs browser tmo2 false net2)

/-- The expected failure modes of one live request enumerated by the spec:
network timeout, transport error, non-200 status, body that is not valid
JSON, expected content field absent for the requested render mode. -/
def FailureNet (browser : Bool) (net : NetResult) : Prop :=
  net = .timeout ∨ net = .reqError ∨
  (∃ s b, net = .response s b ∧ s ≠ 200) ∨
  net = .response 200 none ∨
  (∃ b, net = .response 200 (some b) ∧
    (if browser then b.browserHtml else b.httpResponseBody) = none)

/-! ## Claim about crawl-state lifetime (C9) -/

/-- Environment of the C9 scenario: the seed is a product page; everything
else fails to fetch. -/
def c9Env : CrawlEnv :=
  ⟨fun u _ => if u == "https://a.com/product/x".data then some "<h1>W</h1>".data else none⟩

/-- Configuration of the C9 scenario: one-page budget, zero depth. -/
def c9Cfg : AgentCfg := ⟨1, 0, true, defaultSelectors⟩

/-- Seed URL of the C9 scenario. -/
def c9Start : List Char := "https://a.com/product/x".data

/-! ## Claim about specification extraction (C4) -/

/-- The URL of the C4 example page. -/
def c4Url : List Char := "https://shop.example.com/product/frame".data

/-- The C4 example page: a specification table with rows (Weight, 2kg) and
(Color, Red). -/
def c4Html : List Char :=
  ("<table class=\"specifications\"><tr><td>Weight</td><td>2kg</td></tr>" ++
   "<tr><td>Color</td><td>Red</td></tr></table>").data

/-- Example page carrying both a specification table and a definition list:
used to show the first matching pattern wins. -/
def c4BothHtml : List Char :=
  ("<table class=\"specifications\"><tr><td>Weight</td><td>2kg</td></tr></table>" ++
   "<dl class=\"product-specs\"><dt>Color</dt><dd>Red</dd></dl>").data

/-! ## Claim about the category fallback (C8) -/

/-- Category-from-URL fallback as the specification words it (the second
definition of the refinement comparison): split the URL path into non-empty
segments; when more than one segment exists, return the second-to-last
segment with `-` and `_` replaced by spaces, title-cased; otherwise
absent. -/
def categorySpecFromUrl (url : List Char) : Option (List Char) :=
  let segs := (splitSlash (pathOf url)).filter (fun s => !s.isEmpty)
  if segs.length > 1 then
    (segs[segs.length - 2]?).map (fun s =>
      titleL (s.map (fun c => if c = '-' then ' ' else if c = '_' then ' ' else c)))
  else none

/-! ## Claim about the crawl invariants (C3) -/

/-- One iteration of the crawl while-loop on the (visited, frontier) state,
mirroring the body of `scrape_website`: enabled only under the loop
condition `len(visited) < max_pages`, with the skipping of already-visited
entries folded into `popNext` (skips leave the state's visited set
unchanged).  On a fetch failure nothing is enqueued; on success the
same-domain not-yet-visited links are enqueued at `depth + 1` when
`depth < max_depth`. -/
inductive CrawlStep (env : CrawlEnv) (cfg : AgentCfg) (base : List Char) :
    List (List Char) × List (List Char × Nat) →
    List (List Char) × List (List Char × Nat) → Prop
  | fetchFail (v : List (List Char)) (f : List (List Char × Nat)) (url : List Char)
      (depth : Nat) (rest : List (List Char × Nat)) :
      v.length < cfg.maxPages →
      popNext v f = some ((url, depth), rest) →
      env.fetch url cfg.useBrowser = none →
      CrawlStep env cfg base (v, f) (url :: v, rest)
  | fetchOk (v : List (List Char)) (f : List (List Char × Nat)) (url : List Char)
      (depth : Nat) (rest : List (List Char × Nat)) (html : List Char) :
      v.length < cfg.maxPages →
      popNext v f = some ((url, depth), rest) →
      env.fetch url cfg.useBrowser = some html →
      CrawlStep env cfg base (v, f)
        (url :: v,
         rest ++ (if depth < cfg.maxDepth then
           ((findLinksEnv env url).filter
             (fun l => getDomain l == base && !((url :: v).contains l))).map
             (fun l => (l, depth + 1))
          else []))

/-- The invariant of claim C3 on a crawl state: the visited set is within
the page budget, and every frontier entry is within the depth limit and on
the seed's domain. -/
def CrawlInv (cfg : AgentCfg) (base : List Char)
    (s : List (List Char) × List (List Char × Nat)) : Prop :=
  s.1.length ≤ cfg.maxPages ∧ ∀ p ∈ s.2, p.2 ≤ cfg.maxDepth ∧ getDomain p.1 = base

/-- Environment of the C3 witness. -/
def c3Env : CrawlEnv := ⟨fun _ _ => none⟩

/-- Configuration of the C3 witness. -/
def c3Cfg : AgentCfg := ⟨2, 1, true, defaultSelectors⟩

/-- Seed of the C3 witness. -/
def c3Start : List Char := "https://a.com/x".data

/-! ## Claim about data-prefixed src removal (C10) -/

mutual

/-- All element nodes of a node's subtree, preorder, the node included. -/
def elemsOfNode : Node → List Node
  | .text _ => []
  | .comment _ => []
  | .elem n attrs ch => Node.elem n attrs ch :: elemsOfList ch

/-- All element nodes of a forest, preorder. -/
def elemsOfList : List Node → List Node
  | [] => []
  | n :: ns => elemsOfNode n ++ elemsOfList ns

end

/-- Name of an element node (empty for text and comments). -/
def nodeName : Node → List Char
  | .elem n _ _ => n
  | _ => []

/-- What the attribute pass guarantees of every surviving element: it is a
`meta` element, or its attributes are within the allowed set and its `src`
(when present) does not start with `data`. -/
def ElemOk (e : Node) : Prop :=
  nodeName e = "meta".data ∨
  ((∀ a ∈ nodeAttrs e, a.1 ∈ allowedAttrs) ∧
   ∀ v, lookupAttr (nodeAttrs e) "src".data = some v → ("data".data.isPrefixOf v) = false)

/-! ## Round-trip machinery: well-formed tokens

For claims C5, C6 and C7 the minimized output string must be related back
to its token stream: serializing a well-formed token stream and tokenizing
the result recovers the stream. -/

/-- A valid element name: characters survive name scanning (no whitespace,
`<`, `>`, `/`), are lowercase, and the first is a letter. -/
def ValidName (n : List Char) : Prop :=
  (∀ c ∈ n, isNameChar c = true ∧ c.toLower = c) ∧
  (match n with
   | c :: _ => c.isAlpha = true
   | [] => False)

/-- A valid attribute name: nonempty, no whitespace, `=`, `>`, `<`, and
lowercase (a `/` is permitted). -/
def ValidAttrName (k : List Char) : Prop :=
  k ≠ [] ∧ ∀ c ∈ k, isWs c = false ∧ c ≠ '=' ∧ c ≠ '>' ∧ c ≠ '<' ∧ c.toLower = c

/-- A well-formed token of the serialization pipeline: nonempty text, no
comments (the structural passes removed them), valid names, and duplicate-
free attribute names. -/
def TokWF : Tok → Prop
  | .text s => s ≠ []
  | .comment _ => False
  | .startTag n attrs _ => ValidName n ∧ (∀ a ∈ attrs, ValidAttrName a.1) ∧
      (attrs.map Prod.fst).Nodup
  | .endTag n => n ≠ [] ∧ ∀ c ∈ n, c ≠ '>' ∧ c ≠ '<' ∧ c.toLower = c

/-- Is the token a text node? -/
def isTextTok : Tok → Bool
  | .text _ => true
  | _ => false

/-- A well-formed token stream: well-formed tokens, no two adjacent
texts. -/
def ToksWF (ts : List Tok) : Prop :=
  (∀ t ∈ ts, TokWF t) ∧
  List.Chain' (fun a b => ¬(isTextTok a = true ∧ isTextTok b = true)) ts

/-! ## Token-level post-pass transforms -/

/-- Merge runs of adjacent text tokens (their serializations concatenate,
so merging preserves the rendered string). -/
def mergeTexts : List Tok → List Tok
  | [] => []
  | Tok.text a :: rest =>
    match mergeTexts rest with
    | Tok.text b :: r2 => Tok.text (a ++ b) :: r2
    | r2 => Tok.text a :: r2
  | t :: rest => t :: mergeTexts rest

/-- Drop empty text tokens (they serialize to nothing). -/
def dropEmptyTexts : List Tok → List Tok
  | [] => []
  | t :: rest =>
    if t = Tok.text [] then dropEmptyTexts rest
    else t :: dropEmptyTexts rest

/-- One filtered token: `\t`/`\n` removal acts on text bodies and attribute
values; names and markup structure never contain those characters. -/
def cleanTok (c0 : Char) : Tok → Tok
  | Tok.text s => Tok.text (filterOut c0 s)
  | Tok.comment s => Tok.comment (filterOut c0 s)
  | Tok.startTag n attrs sc =>
    Tok.startTag n (attrs.map (fun a => (a.1, filterOut c0 a.2))) sc
  | Tok.endTag n => Tok.endTag n

/-- Rename end tags named `p` to `q`. -/
def renameEnd (p q : List Char) : Tok → Tok
  | Tok.endTag n => if n = p then Tok.endTag q else Tok.endTag n
  | t => t

/-- Rename attribute-less, non-self-closing start tags named `p` to `q`. -/
def renameStart (p q : List Char) : Tok → Tok
  | Tok.startTag n attrs sc =>
    if n = p ∧ attrs = [] ∧ sc = false then Tok.startTag q attrs sc
    else Tok.startTag n attrs sc
  | t => t

/-- A nonempty all-whitespace text token. -/
def wsText : Tok → Bool
  | Tok.text s => !s.isEmpty && s.all isWs
  | _ => false

/-- Collapse pass after the first token: drop all-whitespace texts that
are followed by another token (their run sits between a tag end and a tag
start in the rendered string). -/
def collapseGo : List Tok → List Tok
  | [] => []
  | t :: ts =>
    if wsText t = true ∧ ts ≠ [] then collapseGo ts
    else t :: collapseGo ts

/-- Collapse pass: the first token is never dropped (no tag end precedes
it). -/
def collapseTok : List Tok → List Tok
  | [] => []
  | t :: ts => if wsText t then t :: collapseGo ts else collapseGo (t :: ts)

/-- Left-trim the leading text token; drop it when it empties. -/
def trimLead : List Tok → List Tok
  | Tok.text s :: ts =>
    if (dropWsL s).isEmpty then ts else Tok.text (dropWsL s) :: ts
  | ts => ts

/-- Right-trim the trailing text token; drop it when it empties. -/
def trimTrailGo : List Tok → List Tok
  | [] => []
  | [Tok.text s] =>
    if ((dropWsL s.reverse).reverse).isEmpty then []
    else [Tok.text ((dropWsL s.reverse).reverse)]
  | t :: ts => t :: trimTrailGo ts

/-- Token-level `str.strip()`: trailing trim then leading trim. -/
def stripTok (ts : List Tok) : List Tok := trimLead (trimTrailGo ts)

/-- Tab and newline cleaning with text normalization. -/
def cleanToks0 (ts : List Tok) : List Tok :=
  ((mergeTexts ts).map (cleanTok '\t')).map (cleanTok '\n')

/-- The whole post-pass pipeline at token level, in source order. -/
def postTok (ts : List Tok) : List Tok :=
  stripTok (collapseTok
    (((((dropEmptyTexts (cleanToks0 ts)).map
      (renameEnd "span".data "s".data)).map
        (renameEnd "div".data "d".data)).map
          (renameStart "span".data "s".data)).map
            (renameStart "div".data "d".data)))

/-- A token whose name parts are whitespace-free and which is not a
comment (the streams the post-passes run on contain none). -/
def TokNoWsNames : Tok → Prop
  | Tok.text _ => True
  | Tok.comment _ => False
  | Tok.startTag n attrs _ =>
    (∀ c ∈ n, isWs c = false) ∧ ∀ a ∈ attrs, ∀ c ∈ a.1, isWs c = false
  | Tok.endTag n => ∀ c ∈ n, isWs c = false

/-- Token property for the abbreviation passes: no comments, `<`-free name
material. -/
def TokNameOK : Tok → Prop
  | Tok.text _ => True
  | Tok.comment _ => False
  | Tok.startTag n attrs _ =>
    n ≠ [] ∧ (∀ c ∈ n, isNameChar c = true) ∧ ∀ a ∈ attrs, ∀ c ∈ a.1, c ≠ '<'
  | Tok.endTag n => ∀ c ∈ n, isNameChar c = true

/-- The tag-interior of a non-text token: everything between the opening
`<` and the closing `>`. -/
def tagFront : Tok → List Char
  | Tok.startTag n attrs sc => n ++ renderAttrs attrs ++ (if sc then ['/'] else [])
  | Tok.endTag n => '/' :: n
  | _ => []

/-- Tokens of a serialized minimized forest, before the cleaning maps:
nonempty texts, no comments, valid lowercase names. -/
def TokSrc : Tok → Prop
  | Tok.text s => s ≠ []
  | Tok.comment _ => False
  | Tok.startTag n attrs _ => ValidName n ∧ (∀ a ∈ attrs, ValidAttrName a.1) ∧
      (attrs.map Prod.fst).Nodup
  | Tok.endTag n => ValidName n

/-- As `TokSrc` but texts are unconstrained (the cleaning maps can empty
them). -/
def TokMid : Tok → Prop
  | Tok.text _ => True
  | Tok.comment _ => False
  | Tok.startTag n attrs _ => ValidName n ∧ (∀ a ∈ attrs, ValidAttrName a.1) ∧
      (attrs.map Prod.fst).Nodup
  | Tok.endTag n => ValidName n

/-- The inner token pipeline of `postTok`, before collapse and strip. -/
def postInner (ts : List Tok) : List Tok :=
  (((((dropEmptyTexts (cleanToks0 ts)).map
    (renameEnd "span".data "s".data)).map
      (renameEnd "div".data "d".data)).map
        (renameStart "span".data "s".data)).map
          (renameStart "div".data "d".data))

/-- What the tokenizer guarantees of every token it emits: texts are
nonempty and start-tag names and attributes are valid. -/
def TokTk : Tok → Prop
  | Tok.text s => s ≠ []
  | Tok.comment _ => True
  | Tok.startTag n attrs _ => ValidName n ∧ (∀ a ∈ attrs, ValidAttrName a.1) ∧
      (attrs.map Prod.fst).Nodup
  | Tok.endTag _ => True

mutual

/-- What the tree builder guarantees of every node: nonempty texts and
valid element names and attributes (comments may still be present). -/
def NodeA : Node → Prop
  | Node.text s => s ≠ []
  | Node.comment _ => True
  | Node.elem n attrs ch => ValidName n ∧ (∀ a ∈ attrs, ValidAttrName a.1) ∧
      (attrs.map Prod.fst).Nodup ∧ NodesA ch

/-- `NodeA` on every node of a forest. -/
def NodesA : List Node → Prop
  | [] => True
  | n :: ns => NodeA n ∧ NodesA ns

end

/-- The tree-builder state invariant: every open frame carries a valid name
and attributes and accumulated `NodeA` children; every finished top-level
node satisfies `NodeA`. -/
def StA (st : PState) : Prop :=
  (∀ f ∈ st.stack, ValidName f.name ∧ (∀ a ∈ f.attrs, ValidAttrName a.1) ∧
    (f.attrs.map Prod.fst).Nodup ∧ ∀ n ∈ f.racc, NodeA n) ∧
  ∀ n ∈ st.rtop, NodeA n

mutual

/-- After comment removal: `NodeA` and comment-free. -/
def NodeB : Node → Prop
  | Node.text s => s ≠ []
  | Node.comment _ => False
  | Node.elem n attrs ch => ValidName n ∧ (∀ a ∈ attrs, ValidAttrName a.1) ∧
      (attrs.map Prod.fst).Nodup ∧ NodesB ch

/-- `NodeB` on every node of a forest. -/
def NodesB : List Node → Prop
  | [] => True
  | n :: ns => NodeB n ∧ NodesB ns

end

/-- Per-element provenance: the name and attributes come from `Q`, and
void-named elements are childless. -/
def ElemP (Q : List Char → List Attr → Prop) (e : Node) : Prop :=
  ∀ n attrs ch, e = Node.elem n attrs ch → Q n attrs ∧ (n ∈ voidNames → ch = [])

/-- Tree-builder invariant for element provenance. -/
def StP (Q : List Char → List Attr → Prop) (st : PState) : Prop :=
  (∀ f ∈ st.stack, Q f.name f.attrs ∧ f.name ∉ voidNames ∧
    ∀ e ∈ elemsOfList f.racc, ElemP Q e) ∧
  ∀ e ∈ elemsOfList st.rtop, ElemP Q e

/-- The attribute a simple selector condition reads. -/
def condName : SCond → List Char
  | SCond.classIs _ => "class".data
  | SCond.idIs _ => "id".data
  | SCond.attrHas n => n
  | SCond.attrEq n _ => n

/-- The condition reads an attribute the minimizer strips. -/
def disallowedCond (c : SCond) : Bool := !(allowedAttrs.contains (condName c))

/-- The compound can match no surviving element: its tag is a non-`meta`
name and some condition reads a stripped attribute. -/
def blockedComp (c : Compound) : Bool :=
  (match c.tag with
   | some t => !(t == "meta".data)
   | none => false) && c.conds.any disallowedCond

/-- A reversed chain that can match nothing on a minimized page. -/
def blockedRev : List Compound → Bool
  | [] => true
  | inner :: outers =>
    blockedComp inner || outers.any (fun c => c.conds.any disallowedCond)

/-- A chain that can match nothing on a minimized page. -/
def blockedB (chain : Chain) : Bool := blockedRev chain.reverse


/-- Inserting a cache entry makes it the value found for its key. -/
theorem cacheLookup_insert (c : List ((List Char × Bool) × List Char))
    (k : List Char × Bool) (v : List Char) : cacheLookup (cacheInsert c k v) k = some v := by
  induction c with
  | nil => simp [cacheInsert, cacheLookup]
  | cons e es ih =>
    by_cases he : (e.1 == k) = true
    · simp [cacheInsert, cacheLookup, he]
    · simp [cacheInsert, cacheLookup, he, ih]

/-- After a save of nonempty content with caching enabled, the cache serves
that content for the same key. -/
theorem getFromCache_save (st : ZState) (url : List Char) (browser : Bool) (content : List Char)
    (hc : st.useCache = true) (hne : content.isEmpty = false) :
    getFromCache (saveToCache st url browser content) url browser = some content := by
  unfold saveToCache getFromCache
  simp [hc, hne, cacheLookup_insert]

/-- A cache hit with `force_refresh=False` is returned directly, with no
state change and no live request. -/
theorem get_html_hit (st : ZState) (url : List Char)
    (hdrs : Option (List (List Char × List Char))) (browser : Bool) (tmo : Nat)
    (net : NetResult) (c : List Char) (h : getFromCache st url browser = some c) :
    get_html st url hdrs browser tmo false net = ⟨some c, st, 0⟩ := by
  unfold get_html
  rw [h]

/-- A cache miss with `force_refresh=False` goes to the live request. -/
theorem get_html_miss (st : ZState) (url : List Char)
    (hdrs : Option (List (List Char × List Char))) (browser : Bool) (tmo : Nat)
    (net : NetResult) (h : getFromCache st url browser = none) :
    get_html st url hdrs browser tmo false net = liveFetch st url browser net := by
  unfold get_html
  rw [h]

/-- Claim C1 (corrected), counterexample: with caching enabled and an empty
cache, a failing remote API (HTTP 500) makes two immediate `get_html` calls
for the same URL and render mode issue two live requests, not at most
one — the failed first call stores nothing, so the second also goes to the
network. -/
theorem fetch_cache_roundtrip_counterexample :
    ((twoFetches ⟨true, []⟩ "https://example.com/p".data none true 30 30
        (.response 500 none) (.response 500 none)).1.requests +
      (twoFetches ⟨true, []⟩ "https://example.com/p".data none true 30 30
        (.response 500 none) (.response 500 none)).2.requests = 2) ∧
    ¬((twoFetches ⟨true, []⟩ "https://example.com/p".data none true 30 30
        (.response 500 none) (.response 500 none)).1.requests +
      (twoFetches ⟨true, []⟩ "https://example.com/p".data none true 30 30
        (.response 500 none) (.response 500 none)).2.requests ≤ 1) := by
  decide

/-- Claim C1 (corrected, amended): with caching enabled, when the first
call's live request succeeds — HTTP 200, valid JSON, content field for the
requested mode present and nonempty, and nonempty minimized content — two
immediate `get_html` calls for the same URL and render mode issue at most
one live request in total and return the same content: the second call is
served from the cache entry written by the first (or both from a
pre-existing entry). -/
theorem fetch_cache_roundtrip (st : ZState) (url : List Char)
    (hdrs : Option (List (List Char × List Char))) (browser : Bool) (tmo tmo2 : Nat)
    (net net2 : NetResult) (b : RespBody) (h : List Char)
    (hc : st.useCache = true)
    (hnet : net = .response 200 (some b))
    (hf : (if browser then b.browserHtml else b.httpResponseBody) = some h)
    (hne : h.isEmpty = false)
    (hmin : (minimizeHtml h).isEmpty = false) :
    (twoFetches st url hdrs browser tmo tmo2 net net2).1.requests +
      (twoFetches st url hdrs browser tmo tmo2 net net2).2.requests ≤ 1 ∧
    (twoFetches st url hdrs browser tmo tmo2 net net2).1.result =
      (twoFetches st url hdrs browser tmo tmo2 net net2).2.result ∧
    (twoFetches st url hdrs browser tmo tmo2 net net2).1.result ≠ none := by
  subst hnet
  unfold twoFetches
  cases hcache : getFromCache st url browser with
  | some c =>
    rw [get_html_hit st url hdrs browser tmo _ c hcache]
    dsimp only
    rw [get_html_hit st url hdrs browser tmo2 net2 c hcache]
    refine ⟨by simp, rfl, by simp⟩
  | none =>
    rw [get_html_miss st url hdrs browser tmo _ hcache]
    have hl : liveFetch st url browser (.response 200 (some b)) =
        ⟨some (minimizeHtml h), saveToCache st url browser (minimizeHtml h), 1⟩ := by
      unfold liveFetch
      simp [hf, hne]
    rw [hl]
    dsimp only
    rw [get_html_hit _ url hdrs browser tmo2 net2 _
      (getFromCache_save st url browser (minimizeHtml h) hc hmin)]
    refine ⟨by simp, rfl, by simp⟩

/-- Claim C1, witness of the amended theorem at a concrete input. -/
theorem fetch_cache_roundtrip_witness :
    (twoFetches ⟨true, []⟩ "u".data none true 30 30
        (.response 200 (some ⟨some "<p>hi</p>".data, none⟩)) (.response 500 none)).1.requests +
      (twoFetches ⟨true, []⟩ "u".data none true 30 30
        (.response 200 (some ⟨some "<p>hi</p>".data, none⟩)) (.response 500 none)).2.requests ≤ 1 ∧
    (twoFetches ⟨true, []⟩ "u".data none true 30 30
        (.response 200 (some ⟨some "<p>hi</p>".data, none⟩)) (.response 500 none)).1.result =
      (twoFetches ⟨true, []⟩ "u".data none true 30 30
        (.response 200 (some ⟨some "<p>hi</p>".data, none⟩)) (.response 500 none)).2.result ∧
    (twoFetches ⟨true, []⟩ "u".data none true 30 30
        (.response 200 (some ⟨some "<p>hi</p>".data, none⟩)) (.response 500 none)).1.result ≠ none :=
  fetch_cache_roundtrip ⟨true, []⟩ "u".data none true 30 30 _ (.response 500 none)
    ⟨some "<p>hi</p>".data, none⟩ "<p>hi</p>".data rfl rfl rfl (by decide) (by decide)

/-- Claim C2 (confirmed): for every state, URL, headers, render mode and
timeout, whenever the live request has one of the expected failure shapes —
non-200 status, invalid JSON body, expected content field absent, timeout,
transport error — `get_html` returns an absent result (`None`); with
`force_refresh` it does so unconditionally, without `force_refresh` whenever
the call is not served from the cache.  Totality of the embedding model
reflects that no exception escapes to the caller. -/
theorem get_html_failure_returns_none (st : ZState) (url : List Char)
    (hdrs : Option (List (List Char × List Char))) (browser : Bool) (tmo : Nat)
    (net : NetResult) (hfail : FailureNet browser net) :
    (get_html st url hdrs browser tmo true net).result = none ∧
    (getFromCache st url browser = none →
      (get_html st url hdrs browser tmo false net).result = none) := by
  have hlive : (liveFetch st url browser net).result = none := by
    rcases hfail with h | h | ⟨s, b, h, hs⟩ | h | ⟨b, h, hb⟩ <;> subst h <;>
      simp only [liveFetch]
    · simp [hs]
    · rfl
    · simp [hb]
  constructor
  · unfold get_html
    exact hlive
  · intro hmiss
    unfold get_html
    simp only [hmiss]
    exact hlive

/-- Claim C2, witness at a concrete input (HTTP 404 on a cache miss). -/
theorem get_html_failure_returns_none_witness :
    (get_html ⟨true, []⟩ "u".data none true 30 true (.response 404 none)).result = none ∧
    (getFromCache ⟨true, []⟩ "u".data true = none →
      (get_html ⟨true, []⟩ "u".data none true 30 false (.response 404 none)).result = none) :=
  get_html_failure_returns_none ⟨true, []⟩ "u".data none true 30 (.response 404 none)
    (Or.inr (Or.inr (Or.inl ⟨404, none, rfl, by decide⟩)))

/-- Claim C9 (corrected), counterexample: `visited_urls` lives on the agent
and is never reset by `scrape_website`, so two successive crawls on the same
agent are not independent — under the same environment, a first crawl with
`max_pages = 1` returns one product, and a second crawl starting from the
visited set the first left behind returns none. -/
theorem crawl_state_counterexample :
    (scrape_website c9Env c9Cfg (scrape_website c9Env c9Cfg [] c9Start).1 c9Start).2 = [] ∧
    (scrape_website c9Env c9Cfg [] c9Start).2 ≠ [] := by
  decide

/-- Claim C9 (corrected, amended): every invocation of `scrape_website`
does start the frontier afresh with only the seed at depth 0, but the
visited set carries over from the agent's previous runs; the page budget
counts the carried-over entries, so once the visited set has reached
`max_pages` a further crawl on the same agent visits nothing and returns no
products. -/
theorem crawl_state_persists (env : CrawlEnv) (cfg : AgentCfg)
    (visited0 : List (List Char)) (start : List Char)
    (hfull : cfg.maxPages ≤ visited0.length) :
    scrape_website env cfg visited0 start = (visited0, []) := by
  unfold scrape_website
  rw [Nat.sub_eq_zero_of_le hfull]
  rfl

/-- Claim C9, witness of the amended theorem at a concrete input. -/
theorem crawl_state_persists_witness :
    scrape_website c9Env c9Cfg ["https://a.com/product/x".data] c9Start
      = (["https://a.com/product/x".data], []) :=
  crawl_state_persists c9Env c9Cfg ["https://a.com/product/x".data] c9Start (by decide)

/-- Claim C4 (corrected), counterexample: on the example page,
`extract_from_html` (which minimizes first, stripping the `class`
attributes the default specification selectors require) produces an empty
specifications mapping, not the claimed two-entry mapping. -/
theorem spec_extraction_counterexample :
    (extract_from_html defaultSelectors c4Url c4Html).specifications = [] ∧
    (extract_from_html defaultSelectors c4Url c4Html).specifications
      ≠ [("Weight", "2kg"), ("Color", "Red")] := by
  decide

/-- Every entry `dictSet` leaves in the mapping has a nonempty key and
value, provided the existing entries do and so does the inserted pair. -/
theorem dictSet_nonempty (k v : String) (hk : k ≠ "") (hv : v ≠ "") :
    ∀ (d : List (String × String)), (∀ p ∈ d, p.1 ≠ "" ∧ p.2 ≠ "") →
      ∀ p ∈ dictSet d k v, p.1 ≠ "" ∧ p.2 ≠ ""
  | [], _, p, hp => by
    simp only [dictSet, List.mem_singleton] at hp
    subst hp
    exact ⟨hk, hv⟩
  | e :: es, hd, p, hp => by
    unfold dictSet at hp
    by_cases he : (e.1 == k) = true
    · rw [if_pos he] at hp
      rcases List.mem_cons.mp hp with h | h
      · subst h; exact ⟨hk, hv⟩
      · exact hd p (List.mem_cons_of_mem _ h)
    · rw [if_neg he] at hp
      rcases List.mem_cons.mp hp with h | h
      · subst h; exact hd p (List.mem_cons_self _ _)
      · exact dictSet_nonempty k v hk hv es (fun q hq => hd q (List.mem_cons_of_mem _ hq)) p h

/-- A `String` built from a nonempty character list is not the empty
string. -/
theorem string_mk_ne_empty (l : List Char) (h : l.isEmpty = false) : (⟨l⟩ : String) ≠ "" := by
  intro hcon
  cases l with
  | nil => simp at h
  | cons c cs => exact List.noConfusion (congrArg String.data hcon)

/-- `addRowPair` preserves nonemptiness of all entries: a pair is inserted
only under the nonempty-key-and-value guard. -/
theorem addRowPair_nonempty (d : List (String × String)) (row : Node)
    (hd : ∀ p ∈ d, p.1 ≠ "" ∧ p.2 ≠ "") :
    ∀ p ∈ addRowPair d row, p.1 ≠ "" ∧ p.2 ≠ "" := by
  unfold addRowPair
  dsimp only
  split
  · split
    · next hg =>
      simp only [Bool.and_eq_true, Bool.not_eq_true'] at hg
      exact dictSet_nonempty _ _ (string_mk_ne_empty _ hg.1) (string_mk_ne_empty _ hg.2) d hd
    · exact hd
  · exact hd

/-- List-fold version of `addRowPair_nonempty`. -/
theorem foldl_addRowPair_nonempty (rows : List Node) (d : List (String × String))
    (hd : ∀ p ∈ d, p.1 ≠ "" ∧ p.2 ≠ "") :
    ∀ p ∈ rows.foldl addRowPair d, p.1 ≠ "" ∧ p.2 ≠ "" := by
  induction rows generalizing d with
  | nil => exact hd
  | cons r rs ih => exact ih (addRowPair d r) (addRowPair_nonempty d r hd)

/-- `dlPairs` preserves nonemptiness of all entries. -/
theorem dlPairs_nonempty : ∀ (es : List Node) (d : List (String × String)),
    (∀ p ∈ d, p.1 ≠ "" ∧ p.2 ≠ "") → ∀ p ∈ dlPairs d es, p.1 ≠ "" ∧ p.2 ≠ ""
  | [], _, hd => hd
  | [_], _, hd => hd
  | a :: b :: rest, d, hd => by
    unfold dlPairs
    dsimp only
    by_cases hg : (!(rstripColon (stripL (textOf a))).isEmpty &&
        !(stripL (textOf b)).isEmpty) = true
    · rw [if_pos hg]
      refine dlPairs_nonempty rest _ ?_
      simp only [Bool.and_eq_true, Bool.not_eq_true'] at hg
      exact dictSet_nonempty _ _ (string_mk_ne_empty _ hg.1) (string_mk_ne_empty _ hg.2) d hd
    · rw [if_neg hg]
      exact dlPairs_nonempty rest d hd

/-- The selector loop preserves nonemptiness of all entries. -/
theorem extractSpecsGo_nonempty (sels : List (List Char)) (forest : List Node) :
    ∀ (d : List (String × String)), (∀ p ∈ d, p.1 ≠ "" ∧ p.2 ≠ "") →
      ∀ p ∈ extractSpecsGo forest d sels, p.1 ≠ "" ∧ p.2 ≠ "" := by
  induction sels with
  | nil => intro d hd; exact hd
  | cons sel rest ih =>
    intro d hd
    unfold extractSpecsGo
    dsimp only
    have hstep : ∀ q ∈ (if (!(selectList (parseSelector sel) [] forest).isEmpty &&
        isInfixL "tr".data sel) = true then
          List.foldl addRowPair d (selectList (parseSelector sel) [] forest)
        else if (!(selectList (parseSelector sel) [] forest).isEmpty &&
            isInfixL "dt".data sel) = true then
          dlPairs d (selectList (parseSelector sel) [] forest)
        else d), q.1 ≠ "" ∧ q.2 ≠ "" := by
      split
      · exact foldl_addRowPair_nonempty _ d hd
      · split
        · exact dlPairs_nonempty _ d hd
        · exact hd
    have main : ∀ d2 : List (String × String), (∀ q ∈ d2, q.1 ≠ "" ∧ q.2 ≠ "") →
        ∀ p ∈ (if (!d2.isEmpty) = true then d2 else extractSpecsGo forest d2 rest),
          p.1 ≠ "" ∧ p.2 ≠ "" := by
      intro d2 hq
      split
      · exact hq
      · exact ih d2 hq
    exact main _ hstep

/-- Claim C4 (corrected, amended): `_extract_specifications` tries the fixed
ordered pattern list — table rows with two or more cells (first cell the
key, trailing colon stripped; second the value), then definition-list pairs
two at a time — stopping at the first pattern that yields any pair and
skipping pairs with an empty key or value; applied directly to the raw
example HTML it produces exactly the claimed mapping, and the table pattern
takes precedence when both shapes are present.  Through
`extract(url, html)`, however, extraction runs on the minimized HTML, whose
stripped `class` attributes no default specification selector can match, so
the example page's extracted Product has empty specifications. -/
theorem spec_extraction_amended :
    extract_specifications c4Html = [("Weight", "2kg"), ("Color", "Red")] ∧
    extract_specifications c4BothHtml = [("Weight", "2kg")] ∧
    (extract_from_html defaultSelectors c4Url c4Html).specifications = [] ∧
    (∀ html : List Char, ∀ p ∈ extract_specifications html, p.1 ≠ "" ∧ p.2 ≠ "") := by
  refine ⟨by decide, by decide, by decide, ?_⟩
  intro html p hp
  exact extractSpecsGo_nonempty specSelectors (parseHtml html) [] (by simp) p hp

/-- Claim C4, witness: the universal part of the amended theorem applied at
the example page and its first extracted pair. -/
theorem spec_extraction_amended_witness :
    ("Weight", "2kg") ∈ extract_specifications c4Html ∧
    (("Weight" : String) ≠ "" ∧ ("2kg" : String) ≠ "") :=
  ⟨by decide, spec_extraction_amended.2.2.2 c4Html ("Weight", "2kg") (by decide)⟩

/-- The source's reversed-list second-to-last access agrees with the
index-based one of the specification. -/
theorem categoryFromPath_eq_spec (url : List Char) :
    categoryFromPath url = categorySpecFromUrl url := by
  unfold categoryFromPath categorySpecFromUrl
  dsimp only
  generalize (splitSlash (pathOf url)).filter (fun s => !s.isEmpty) = segs
  rcases hr : segs.reverse with _ | ⟨a, rest⟩
  · have hnil : segs = [] := by simpa using congrArg List.reverse hr
    subst hnil
    simp
  · rcases rest with _ | ⟨b, t⟩
    · have hone : segs = [a] := by simpa using congrArg List.reverse hr
      subst hone
      simp
    · have hs : segs = t.reverse ++ [b, a] := by simpa using congrArg List.reverse hr
      subst hs
      have hlen : (t.reverse ++ [b, a]).length = t.length + 2 := by simp
      rw [if_pos (by omega)]
      have hidx : (t.reverse ++ [b, a]).length - 2 = t.reverse.length := by simp
      rw [hidx, List.getElem?_append_right (Nat.le_refl _), Nat.sub_self]
      rfl

/-- When every breadcrumb selector yields at most one text, the category
loop falls through to the URL path. -/
theorem extractCategoryGo_short (url html : List Char) :
    ∀ sels : List (List Char), (∀ sel ∈ sels, (extract_multiple_texts html sel).length ≤ 1) →
      extractCategoryGo url html sels = categoryFromPath url
  | [], _ => rfl
  | sel :: rest, h => by
    unfold extractCategoryGo
    dsimp only
    rcases hb : extract_multiple_texts html sel with _ | ⟨x, xs⟩
    · simpa using extractCategoryGo_short url html rest
        (fun s hs => h s (List.mem_cons_of_mem _ hs))
    · rcases xs with _ | ⟨y, t⟩
      · simpa using extractCategoryGo_short url html rest
          (fun s hs => h s (List.mem_cons_of_mem _ hs))
      · have hlen := h sel (List.mem_cons_self _ _)
        rw [hb] at hlen
        simp at hlen

/-- Claim C8 (confirmed): when no breadcrumb selector yields more than one
text item, `_extract_category` returns the URL-path fallback — non-empty
path segments, second-to-last with separators as spaces, title-cased, absent
with at most one segment; and on the example URL with no breadcrumb markup
the extracted category is "Mini Drones". -/
theorem category_fallback (url html : List Char)
    (hnb : ∀ sel ∈ breadcrumbSelectors, (extract_multiple_texts html sel).length ≤ 1) :
    extract_category url html = categorySpecFromUrl url ∧
    (extract_from_html defaultSelectors "https://example.com/drones/mini-drones/x200".data
      "".data).category = some "Mini Drones" := by
  constructor
  · unfold extract_category
    rw [extractCategoryGo_short url html breadcrumbSelectors hnb, categoryFromPath_eq_spec]
  · decide

/-- Claim C8, witness at the example URL with no markup. -/
theorem category_fallback_witness :
    extract_category "https://example.com/drones/mini-drones/x200".data "".data
      = categorySpecFromUrl "https://example.com/drones/mini-drones/x200".data ∧
    (extract_from_html defaultSelectors "https://example.com/drones/mini-drones/x200".data
      "".data).category = some "Mini Drones" :=
  category_fallback "https://example.com/drones/mini-drones/x200".data "".data (by decide)

/-- `popNext` returns an entry of the frontier and a sublist of it. -/
theorem popNext_sub (v : List (List Char)) :
    ∀ (f : List (List Char × Nat)) (u : List Char) (d : Nat) (rest : List (List Char × Nat)),
      popNext v f = some ((u, d), rest) → (u, d) ∈ f ∧ ∀ p ∈ rest, p ∈ f
  | [], _, _, _, h => by simp [popNext] at h
  | (x, dx) :: fs, u, d, rest, h => by
    unfold popNext at h
    by_cases hc : (v.contains x) = true
    · rw [if_pos hc] at h
      obtain ⟨h1, h2⟩ := popNext_sub v fs u d rest h
      exact ⟨List.mem_cons_of_mem _ h1, fun p hp => List.mem_cons_of_mem _ (h2 p hp)⟩
    · rw [if_neg hc] at h
      injection h with h
      injection h with h1 h2
      injection h1 with h1a h1b
      subst h1a; subst h1b; subst h2
      exact ⟨List.mem_cons_self _ _, fun p hp => List.mem_cons_of_mem _ hp⟩

/-- One crawl step preserves the C3 invariant. -/
theorem crawlStep_inv (env : CrawlEnv) (cfg : AgentCfg) (base : List Char)
    (s s2 : List (List Char) × List (List Char × Nat))
    (hstep : CrawlStep env cfg base s s2) (hinv : CrawlInv cfg base s) :
    CrawlInv cfg base s2 := by
  rcases hstep with ⟨v, f, url, depth, rest, hlt, hpop, _⟩ |
    ⟨v, f, url, depth, rest, html, hlt, hpop, _⟩
  · obtain ⟨_, hsub⟩ := popNext_sub v f url depth rest hpop
    exact ⟨by simpa using hlt, fun p hp => hinv.2 p (hsub p hp)⟩
  · obtain ⟨hmem, hsub⟩ := popNext_sub v f url depth rest hpop
    refine ⟨by simpa using hlt, fun p hp => ?_⟩
    rcases List.mem_append.mp hp with hp | hp
    · exact hinv.2 p (hsub p hp)
    · by_cases hd : depth < cfg.maxDepth
      · rw [if_pos hd] at hp
        obtain ⟨l, hl, hpl⟩ := List.mem_map.mp hp
        obtain ⟨_, hfl⟩ := List.mem_filter.mp hl
        subst hpl
        have hdom : getDomain l = base := by
          have := (Bool.and_eq_true _ _).mp hfl
          exact beq_iff_eq.mp this.1
        exact ⟨by omega, hdom⟩
      · rw [if_neg hd] at hp
        simp at hp

/-- Claim C3 (confirmed): throughout every run of the crawl loop started on
a fresh state, `len(visited) ≤ max_pages` holds and every pair on the
frontier satisfies `depth ≤ max_depth` and `domain(url) = base_domain` (the
seed's domain) — an invariant of every reachable loop state; moreover the
crawl function itself, started from any carried-over visited set within the
budget, visits at most `max_pages` distinct URLs. -/
theorem crawl_invariants (env : CrawlEnv) (cfg : AgentCfg) (start : List Char) :
    (∀ v f, Relation.ReflTransGen (CrawlStep env cfg (getDomain start))
        ([], [(start, 0)]) (v, f) →
      v.length ≤ cfg.maxPages ∧
        ∀ p ∈ f, p.2 ≤ cfg.maxDepth ∧ getDomain p.1 = getDomain start) ∧
    (∀ visited0 : List (List Char), visited0.length ≤ cfg.maxPages →
      (scrape_website env cfg visited0 start).1.length ≤ cfg.maxPages) := by
  constructor
  · have main : ∀ s, Relation.ReflTransGen (CrawlStep env cfg (getDomain start))
        ([], [(start, 0)]) s → CrawlInv cfg (getDomain start) s := by
      intro s h
      induction h with
      | refl =>
        refine ⟨by simp, fun p hp => ?_⟩
        rcases List.mem_singleton.mp hp with h
        subst h
        exact ⟨Nat.zero_le _, rfl⟩
      | tail _ hstep ih => exact crawlStep_inv env cfg (getDomain start) _ _ hstep ih
    intro v f h
    exact main (v, f) h
  · have bound : ∀ gas (v : List (List Char)) f p,
        (crawlGo env cfg (getDomain start) gas v f p).1.length ≤ v.length + gas := by
      intro gas
      induction gas with
      | zero => intro v f p; simp [crawlGo]
      | succ g ih =>
        intro v f p
        unfold crawlGo
        cases hpop : popNext v f with
        | none => simp
        | some x =>
          rcases x with ⟨⟨url, depth⟩, rest⟩
          dsimp only
          cases hf : env.fetch url cfg.useBrowser with
          | none =>
            have hlen : (url :: v).length = v.length + 1 := by simp
            refine Nat.le_trans (ih _ _ _) ?_
            omega
          | some html =>
            have hlen : (url :: v).length = v.length + 1 := by simp
            refine Nat.le_trans (ih _ _ _) ?_
            omega
    intro visited0 h0
    unfold scrape_website
    have := bound (cfg.maxPages - visited0.length) visited0 [(start, 0)] []
    omega

/-- Claim C3, witness: the invariant at the initial reachable state and the
final bound for a concrete crawl. -/
theorem crawl_invariants_witness :
    (([] : List (List Char)).length ≤ c3Cfg.maxPages ∧
      ∀ p ∈ [(c3Start, 0)], p.2 ≤ c3Cfg.maxDepth ∧ getDomain p.1 = getDomain c3Start) ∧
    (scrape_website c3Env c3Cfg [] c3Start).1.length ≤ c3Cfg.maxPages :=
  ⟨(crawl_invariants c3Env c3Cfg c3Start).1 [] [(c3Start, 0)] Relation.ReflTransGen.refl,
   (crawl_invariants c3Env c3Cfg c3Start).2 [] (by decide)⟩

mutual

/-- Every element surviving `attrPassNode` satisfies `ElemOk`. -/
theorem attrPass_ok (n : Node) : ∀ m, attrPassNode n = some m → ∀ e ∈ elemsOfNode m, ElemOk e := by
  intro m hm e he
  cases n with
  | text s =>
    simp only [attrPassNode, Option.some.injEq] at hm
    subst hm
    simp [elemsOfNode] at he
  | comment s =>
    simp only [attrPassNode, Option.some.injEq] at hm
    subst hm
    simp [elemsOfNode] at he
  | elem nm attrs ch =>
    by_cases hmeta : nm = "meta".data
    · rw [attrPassNode, if_pos hmeta, Option.some.injEq] at hm
      subst hm
      rcases List.mem_cons.mp (by simpa [elemsOfNode] using he) with h | h
      · subst h
        exact Or.inl (by simpa [nodeName] using hmeta)
      · exact attrPassList_ok ch e h
    · rw [attrPassNode, if_neg hmeta] at hm
      dsimp only at hm
      have survived :
          m = Node.elem nm (attrs.filter (fun a => allowedAttrs.contains a.1))
            (attrPassList ch) →
          (∀ v, lookupAttr (attrs.filter (fun a => allowedAttrs.contains a.1)) "src".data
            = some v → ("data".data.isPrefixOf v) = false) → ElemOk e := by
        intro hmeq hsrc
        subst hmeq
        rcases List.mem_cons.mp he with h | h
        · subst h
          refine Or.inr ⟨fun a ha => ?_, fun v hv => ?_⟩
          · have ha2 : a ∈ attrs.filter (fun x => allowedAttrs.contains x.1) := ha
            have hmem := (List.mem_filter.mp ha2).2
            exact List.elem_iff.mp hmem
          · exact hsrc v hv
        · exact attrPassList_ok ch e h
      clear he
      split at hm
      · next v0 hl =>
        split at hm
        · exact Option.noConfusion hm
        · next hdata =>
          injection hm with hm
          refine survived hm.symm fun v hv => ?_
          rw [hl] at hv
          injection hv with hv
          subst hv
          exact Bool.eq_false_iff.mpr hdata
      · next hl =>
        injection hm with hm
        refine survived hm.symm fun v hv => ?_
        rw [hl] at hv
        exact Option.noConfusion hv

/-- Every element surviving `attrPassList` satisfies `ElemOk`. -/
theorem attrPassList_ok (ns : List Node) : ∀ e ∈ elemsOfList (attrPassList ns), ElemOk e := by
  intro e he
  cases ns with
  | nil => simp [attrPassList, elemsOfList] at he
  | cons n rest =>
    rw [attrPassList] at he
    rcases hn : attrPassNode n with _ | m
    · rw [hn] at he
      exact attrPassList_ok rest e he
    · rw [hn] at he
      rcases List.mem_append.mp (by simpa [elemsOfList] using he) with h | h
      · exact attrPass_ok n m hn e h
      · exact attrPassList_ok rest e h

end

/-- Claim C10 (confirmed): the third pass of `minimize_html` removes every
non-`meta` element whose `src` value starts with the four characters
`data` — not only genuine data URIs: concretely, elements with the ordinary
relative sources `data/image.png` and `database.png` are deleted from the
minimized output while `a.png` survives; and in general no element of the
minimized tree except a `meta` carries a `src` starting with `data`. -/
theorem data_src_removed :
    minimize_html "<p><img src=\"data/image.png\"/><img src=\"database.png\"/><img src=\"a.png\"/></p>"
      = "<p><img src=\"a.png\"/></p>" ∧
    (∀ html : List Char, ∀ e ∈ elemsOfList (minimizeNodes (parseHtml html)),
      nodeName e ≠ "meta".data → ∀ v, lookupAttr (nodeAttrs e) "src".data = some v →
        ("data".data.isPrefixOf v) = false) := by
  refine ⟨by decide, ?_⟩
  intro html e he hm v hv
  rcases attrPassList_ok (removeCommentsList (removeByNameList (parseHtml html))) e he with
    h | h
  · exact absurd h hm
  · exact h.2 v hv

/-- Claim C10, witness: the universal part applied to a concrete page whose
surviving image has an ordinary source. -/
theorem data_src_removed_witness :
    Node.elem "img".data [("src".data, "a.png".data)] []
        ∈ elemsOfList (minimizeNodes (parseHtml "<img src=\"a.png\"/>".data)) ∧
    ("data".data.isPrefixOf "a.png".data) = false :=
  ⟨List.mem_cons_self _ _,
   data_src_removed.2 "<img src=\"a.png\"/>".data
     (Node.elem "img".data [("src".data, "a.png".data)] [])
     (List.mem_cons_self _ _) (by decide) "a.png".data rfl⟩

/-- Characters of an escaped text avoid the markup delimiters. -/
theorem escTextChar_chars (c d : Char) (hd : d ∈ escTextChar c) : d ≠ '<' ∧ d ≠ '>' := by
  unfold escTextChar at hd
  by_cases h1 : c = '&'
  · rw [if_pos h1] at hd
    rcases (by simpa using hd : d = '&' ∨ d = 'a' ∨ d = 'm' ∨ d = 'p' ∨ d = ';') with
      h | h | h | h | h <;> subst h <;> exact ⟨by decide, by decide⟩
  · rw [if_neg h1] at hd
    by_cases h2 : c = '<'
    · rw [if_pos h2] at hd
      rcases (by simpa using hd : d = '&' ∨ d = 'l' ∨ d = 't' ∨ d = ';') with
        h | h | h | h <;> subst h <;> exact ⟨by decide, by decide⟩
    · rw [if_neg h2] at hd
      by_cases h3 : c = '>'
      · rw [if_pos h3] at hd
        rcases (by simpa using hd : d = '&' ∨ d = 'g' ∨ d = 't' ∨ d = ';') with
          h | h | h | h <;> subst h <;> exact ⟨by decide, by decide⟩
      · rw [if_neg h3] at hd
        have : d = c := by simpa using hd
        subst this
        exact ⟨h2, h3⟩

/-- Characters of an escaped attribute value avoid the markup delimiters
and the double quote. -/
theorem escAttrChar_chars (c d : Char) (hd : d ∈ escAttrChar c) :
    d ≠ '<' ∧ d ≠ '>' ∧ d ≠ '"' := by
  unfold escAttrChar at hd
  by_cases h1 : c = '"'
  · rw [if_pos h1] at hd
    rcases (by simpa using hd : d = '&' ∨ d = 'q' ∨ d = 'u' ∨ d = 'o' ∨ d = 't' ∨ d = ';') with
      h | h | h | h | h | h <;> subst h <;> exact ⟨by decide, by decide, by decide⟩
  · rw [if_neg h1] at hd
    obtain ⟨hlt, hgt⟩ := escTextChar_chars c d hd
    refine ⟨hlt, hgt, ?_⟩
    intro hq
    subst hq
    have : c = '"' := by
      unfold escTextChar at hd
      by_cases hc : c = '&'
      · rw [if_pos hc] at hd
        simp at hd
      · rw [if_neg hc] at hd
        by_cases hc2 : c = '<'
        · rw [if_pos hc2] at hd
          simp at hd
        · rw [if_neg hc2] at hd
          by_cases hc3 : c = '>'
          · rw [if_pos hc3] at hd
            simp at hd
          · rw [if_neg hc3] at hd
            exact ((by simpa using hd : '"' = c)).symm
    exact h1 this

/-- Membership in an escaped text comes from some character's escape. -/
theorem mem_escText (s : List Char) (d : Char) (hd : d ∈ escText s) :
    ∃ c ∈ s, d ∈ escTextChar c := by
  induction s with
  | nil => simp [escText] at hd
  | cons c cs ih =>
    rw [escText] at hd
    rcases List.mem_append.mp hd with h | h
    · exact ⟨c, List.mem_cons_self _ _, h⟩
    · obtain ⟨c2, hc2, hc3⟩ := ih h
      exact ⟨c2, List.mem_cons_of_mem _ hc2, hc3⟩

/-- Membership in an escaped attribute value comes from some character's
escape. -/
theorem mem_escAttr (s : List Char) (d : Char) (hd : d ∈ escAttr s) :
    ∃ c ∈ s, d ∈ escAttrChar c := by
  induction s with
  | nil => simp [escAttr] at hd
  | cons c cs ih =>
    rw [escAttr] at hd
    rcases List.mem_append.mp hd with h | h
    · exact ⟨c, List.mem_cons_self _ _, h⟩
    · obtain ⟨c2, hc2, hc3⟩ := ih h
      exact ⟨c2, List.mem_cons_of_mem _ hc2, hc3⟩

/-- Escaped texts contain no `<`. -/
theorem escText_no_lt (s : List Char) (d : Char) (hd : d ∈ escText s) : d ≠ '<' := by
  obtain ⟨c, _, h⟩ := mem_escText s d hd
  exact (escTextChar_chars c d h).1

/-- Escaped texts contain no `>`. -/
theorem escText_no_gt (s : List Char) (d : Char) (hd : d ∈ escText s) : d ≠ '>' := by
  obtain ⟨c, _, h⟩ := mem_escText s d hd
  exact (escTextChar_chars c d h).2

/-- Escaped attribute values contain no `<`, `>` or `"`. -/
theorem escAttr_chars (s : List Char) (d : Char) (hd : d ∈ escAttr s) :
    d ≠ '<' ∧ d ≠ '>' ∧ d ≠ '"' := by
  obtain ⟨c, _, h⟩ := mem_escAttr s d hd
  exact escAttrChar_chars c d h

/-- Unfolding equation of `unescapeF` on a cons cell. -/
theorem unescapeF_cons (f : Nat) (c : Char) (cs : List Char) :
    unescapeF (f + 1) (c :: cs) =
      if c = '&' then
        (match entHead cs with
         | some (d, k) => d :: unescapeF f (cs.drop k)
         | none => c :: unescapeF f cs)
      else c :: unescapeF f cs := rfl

/-- Decoding the escaped form of a text recovers the text (fuel form). -/
theorem unescapeF_escText (s : List Char) : ∀ f, (escText s).length ≤ f →
    unescapeF f (escText s) = s := by
  induction s with
  | nil =>
    intro f _
    cases f <;> rfl
  | cons c cs ih =>
    intro f hf
    rw [escText] at hf ⊢
    by_cases h1 : c = '&'
    · subst h1
      rw [show escTextChar '&' = ['&', 'a', 'm', 'p', ';'] from rfl] at hf ⊢
      simp only [List.length_append, List.length_cons] at hf
      cases f with
      | zero => omega
      | succ f2 =>
        show unescapeF (f2 + 1) ('&' :: 'a' :: 'm' :: 'p' :: ';' :: escText cs) = _
        rw [unescapeF_cons]
        simp only [reduceIte, entHead, List.drop_succ_cons, List.drop_zero]
        rw [ih f2 (by omega)]
    · by_cases h2 : c = '<'
      · subst h2
        rw [show escTextChar '<' = ['&', 'l', 't', ';'] from rfl] at hf ⊢
        simp only [List.length_append, List.length_cons] at hf
        cases f with
        | zero => omega
        | succ f2 =>
          show unescapeF (f2 + 1) ('&' :: 'l' :: 't' :: ';' :: escText cs) = _
          rw [unescapeF_cons]
          simp only [reduceIte, entHead, List.drop_succ_cons, List.drop_zero]
          rw [ih f2 (by omega)]
      · by_cases h3 : c = '>'
        · subst h3
          rw [show escTextChar '>' = ['&', 'g', 't', ';'] from rfl] at hf ⊢
          simp only [List.length_append, List.length_cons] at hf
          cases f with
          | zero => omega
          | succ f2 =>
            show unescapeF (f2 + 1) ('&' :: 'g' :: 't' :: ';' :: escText cs) = _
            rw [unescapeF_cons]
            simp only [reduceIte, entHead, List.drop_succ_cons, List.drop_zero]
            rw [ih f2 (by omega)]
        · have he : escTextChar c = [c] := by
            unfold escTextChar
            rw [if_neg h1, if_neg h2, if_neg h3]
          rw [he] at hf ⊢
          simp only [List.singleton_append, List.length_cons] at hf
          cases f with
          | zero => omega
          | succ f2 =>
            rw [List.singleton_append, unescapeF_cons, if_neg h1]
            rw [ih f2 (by omega)]

/-- Decoding the escaped form of an attribute value recovers it (fuel
form). -/
theorem unescapeF_escAttr (s : List Char) : ∀ f, (escAttr s).length ≤ f →
    unescapeF f (escAttr s) = s := by
  induction s with
  | nil =>
    intro f _
    cases f <;> rfl
  | cons c cs ih =>
    intro f hf
    rw [escAttr] at hf ⊢
    by_cases h0 : c = '"'
    · subst h0
      rw [show escAttrChar '"' = ['&', 'q', 'u', 'o', 't', ';'] from rfl] at hf ⊢
      simp only [List.length_append, List.length_cons] at hf
      cases f with
      | zero => omega
      | succ f2 =>
        show unescapeF (f2 + 1) ('&' :: 'q' :: 'u' :: 'o' :: 't' :: ';' :: escAttr cs) = _
        rw [unescapeF_cons]
        simp only [reduceIte, entHead, List.drop_succ_cons, List.drop_zero]
        rw [ih f2 (by omega)]
    · have hq : escAttrChar c = escTextChar c := by
        unfold escAttrChar
        rw [if_neg h0]
      rw [hq] at hf ⊢
      by_cases h1 : c = '&'
      · subst h1
        rw [show escTextChar '&' = ['&', 'a', 'm', 'p', ';'] from rfl] at hf ⊢
        simp only [List.length_append, List.length_cons] at hf
        cases f with
        | zero => omega
        | succ f2 =>
          show unescapeF (f2 + 1) ('&' :: 'a' :: 'm' :: 'p' :: ';' :: escAttr cs) = _
          rw [unescapeF_cons]
          simp only [reduceIte, entHead, List.drop_succ_cons, List.drop_zero]
          rw [ih f2 (by omega)]
      · by_cases h2 : c = '<'
        · subst h2
          rw [show escTextChar '<' = ['&', 'l', 't', ';'] from rfl] at hf ⊢
          simp only [List.length_append, List.length_cons] at hf
          cases f with
          | zero => omega
          | succ f2 =>
            show unescapeF (f2 + 1) ('&' :: 'l' :: 't' :: ';' :: escAttr cs) = _
            rw [unescapeF_cons]
            simp only [reduceIte, entHead, List.drop_succ_cons, List.drop_zero]
            rw [ih f2 (by omega)]
        · by_cases h3 : c = '>'
          · subst h3
            rw [show escTextChar '>' = ['&', 'g', 't', ';'] from rfl] at hf ⊢
            simp only [List.length_append, List.length_cons] at hf
            cases f with
            | zero => omega
            | succ f2 =>
              show unescapeF (f2 + 1) ('&' :: 'g' :: 't' :: ';' :: escAttr cs) = _
              rw [unescapeF_cons]
              simp only [reduceIte, entHead, List.drop_succ_cons, List.drop_zero]
              rw [ih f2 (by omega)]
          · have he : escTextChar c = [c] := by
              unfold escTextChar
              rw [if_neg h1, if_neg h2, if_neg h3]
            rw [he] at hf ⊢
            simp only [List.singleton_append, List.length_cons] at hf
            cases f with
            | zero => omega
            | succ f2 =>
              rw [List.singleton_append, unescapeF_cons, if_neg h1]
              rw [ih f2 (by omega)]

/-- Decoding the escaped form of a text recovers the text. -/
theorem unescape_escText (s : List Char) : unescape (escText s) = s :=
  unescapeF_escText s (escText s).length (Nat.le_refl _)

/-- Decoding the escaped form of an attribute value recovers it. -/
theorem unescape_escAttr (s : List Char) : unescape (escAttr s) = s :=
  unescapeF_escAttr s (escAttr s).length (Nat.le_refl _)

/-- `takeWhile`/`dropWhile` through an append whose first part satisfies
the predicate everywhere and whose second part starts failing it. -/
theorem takeWhile_append_all (p : Char → Bool) (a b : List Char)
    (ha : ∀ c ∈ a, p c = true) (hb : ∀ c, b.head? = some c → p c = false) :
    (a ++ b).takeWhile p = a ∧ (a ++ b).dropWhile p = b := by
  induction a with
  | nil =>
    simp only [List.nil_append]
    cases b with
    | nil => exact ⟨rfl, rfl⟩
    | cons c bs =>
      have := hb c rfl
      exact ⟨by simp [List.takeWhile_cons, this], by simp [List.dropWhile_cons, this]⟩
  | cons c as ih =>
    have hc := ha c (List.mem_cons_self _ _)
    obtain ⟨ht, hd⟩ := ih (fun d hd2 => ha d (List.mem_cons_of_mem _ hd2))
    constructor
    · simp [List.takeWhile_cons, hc, ht]
    · simp [List.dropWhile_cons, hc, hd]

/-- `span` through such an append. -/
theorem span_append_all (p : Char → Bool) (a b : List Char)
    (ha : ∀ c ∈ a, p c = true) (hb : ∀ c, b.head? = some c → p c = false) :
    (a ++ b).span p = (a, b) := by
  rw [List.span_eq_take_drop]
  obtain ⟨h1, h2⟩ := takeWhile_append_all p a b ha hb
  rw [h1, h2]

/-- A list not starting with `<` is not a tag start. -/
theorem isTagStart_ne_lt (c : Char) (x : List Char) (hc : c ≠ '<') :
    isTagStart (c :: x) = false := by
  cases x with
  | nil => rfl
  | cons c2 cs => simp [isTagStart, hc]

/-- Unfolding equation of `scanText` on a cons cell. -/
theorem scanText_cons (c : Char) (cs : List Char) :
    scanText (c :: cs) = if isTagStart (c :: cs) then ([], c :: cs)
      else (c :: (scanText cs).1, (scanText cs).2) := rfl

/-- Text scanning collects exactly a `<`-free chunk followed by a tag start
or the end of input. -/
theorem scanText_chunk (u rest : List Char) (hu : ∀ c ∈ u, c ≠ '<')
    (hrest : isTagStart rest = true ∨ rest = []) :
    scanText (u ++ rest) = (u, rest) := by
  induction u with
  | nil =>
    rcases hrest with h | h
    · cases rest with
      | nil => simp [isTagStart] at h
      | cons c cs =>
        rw [List.nil_append, scanText_cons, if_pos h]
    · subst h
      rfl
  | cons c u2 ih =>
    have hne := hu c (List.mem_cons_self _ _)
    rw [List.cons_append, scanText_cons,
      if_neg (by rw [isTagStart_ne_lt c _ hne]; exact Bool.false_ne_true),
      ih (fun d hd => hu d (List.mem_cons_of_mem _ hd))]

/-- Unfolding equation of `scanAttrName` on a cons cell. -/
theorem scanAttrName_cons (c : Char) (cs : List Char) :
    scanAttrName (c :: cs) =
      if isWs c || c = '=' || c = '>' || c = '<' then ([], c :: cs)
      else if c = '/' && cs.head? = some '>' then ([], c :: cs)
      else (c :: (scanAttrName cs).1, (scanAttrName cs).2) := rfl

/-- Attribute-name scanning collects a valid name and stops at the `=`
that follows it in serialized form. -/
theorem scanAttrName_chunk (k rest : List Char)
    (hk : ∀ c ∈ k, isWs c = false ∧ c ≠ '=' ∧ c ≠ '>' ∧ c ≠ '<' ∧ c.toLower = c)
    (hrest : rest.head? = some '=') :
    scanAttrName (k ++ rest) = (k, rest) := by
  induction k with
  | nil =>
    cases rest with
    | nil => exact Option.noConfusion hrest
    | cons c cs =>
      have hc : c = '=' := by
        injection hrest
      subst hc
      rw [List.nil_append, scanAttrName_cons, if_pos (by simp)]
  | cons c k2 ih =>
    obtain ⟨hw, he, hg, hl, _⟩ := hk c (List.mem_cons_self _ _)
    have hcond : (isWs c || decide (c = '=') || decide (c = '>') || decide (c = '<')) = false := by
      simp [hw, he, hg, hl]
    have hcond2 : (decide (c = '/') && ((k2 ++ rest).head? == some '>')) = false := by
      cases k2 with
      | nil =>
        cases rest with
        | nil => exact Option.noConfusion hrest
        | cons d ds =>
          have hd : d = '=' := by injection hrest
          subst hd
          simp
      | cons d k3 =>
        have := (hk d (List.mem_cons_of_mem _ (List.mem_cons_self _ _))).2.2.1
        simp [this]
    rw [List.cons_append, scanAttrName_cons, if_neg (by simp_all), if_neg (by simp_all),
      ih (fun d hd => hk d (List.mem_cons_of_mem _ hd))]

/-- Quoted-value scanning recovers the value and consumes the closing
quote. -/
theorem scanQuoted_chunk (v rest : List Char) :
    scanQuoted '"' (escAttr v ++ '"' :: rest) = (v, rest) := by
  unfold scanQuoted
  rw [span_append_all _ (escAttr v) ('"' :: rest)
    (fun c hc => by simp [(escAttr_chars v c hc).2.2])
    (fun c hc => by
      have h2 : c = '"' := by injection hc with h; exact h.symm
      subst h2
      simp)]
  dsimp only
  rw [unescape_escAttr]
  rfl

/-- Dropping leading whitespace off a list that starts with none. -/
theorem dropWsL_no_ws (s : List Char) (h : ∀ c, s.head? = some c → isWs c = false) :
    dropWsL s = s := by
  cases s with
  | nil => rfl
  | cons c cs =>
    unfold dropWsL
    rw [List.dropWhile_cons, if_neg (by simp [h c rfl])]

/-- Unfolding equation of `scanAttrs` on a cons cell. -/
theorem scanAttrs_cons (f : Nat) (acc : List Attr) (c : Char) (cs : List Char) :
    scanAttrs (f + 1) acc (c :: cs) =
      if isWs c then scanAttrs f acc cs
      else if c = '>' then some (acc, false, cs)
      else if c = '/' && cs.head? = some '>' then some (acc, true, cs.tail)
      else if c = '=' then scanAttrs f acc cs
      else scanAttrs f (addAttr acc (lowerL (scanOneAttr (c :: cs)).1)
        (scanOneAttr (c :: cs)).2.1) (scanOneAttr (c :: cs)).2.2 := rfl

/-- On a well-formed serialized attribute, `scanOneAttr` recovers the
name, the value and the rest of the input. -/
theorem scanOneAttr_chunk (k v rest : List Char)
    (hk : ∀ c ∈ k, isWs c = false ∧ c ≠ '=' ∧ c ≠ '>' ∧ c ≠ '<' ∧ c.toLower = c) :
    scanOneAttr (k ++ ('=' :: '"' :: (escAttr v ++ '"' :: rest))) = (k, v, rest) := by
  unfold scanOneAttr
  rw [scanAttrName_chunk k ('=' :: '"' :: (escAttr v ++ '"' :: rest)) hk rfl]
  dsimp only
  rw [dropWsL_no_ws ('=' :: '"' :: (escAttr v ++ '"' :: rest)) (fun c hc => by
    have h2 : c = '=' := by injection hc with h4; exact h4.symm
    subst h2
    rfl)]
  dsimp only
  rw [if_pos rfl]
  rw [dropWsL_no_ws ('"' :: (escAttr v ++ '"' :: rest)) (fun c hc => by
    have h2 : c = '"' := by injection hc with h4; exact h4.symm
    subst h2
    rfl)]
  dsimp only
  rw [if_pos rfl]
  rw [scanQuoted_chunk v rest]

/-- Lowercasing is the identity on a list of already-lowercase chars. -/
theorem lowerL_id (s : List Char) (h : ∀ c ∈ s, Char.toLower c = c) : lowerL s = s := by
  induction s with
  | nil => rfl
  | cons c cs ihs =>
    unfold lowerL at ihs ⊢
    rw [List.map_cons, h c (List.mem_cons_self _ _),
      ihs (fun d hd => h d (List.mem_cons_of_mem _ hd))]

/-- Adding a fresh attribute name appends it. -/
theorem addAttr_not_mem (acc : List Attr) (n v : List Char)
    (h : n ∉ acc.map Prod.fst) : addAttr acc n v = acc ++ [(n, v)] := by
  unfold addAttr
  have hany : (acc.any fun a => a.1 = n) = false := by
    cases hcase : acc.any fun a => a.1 = n with
    | false => rfl
    | true =>
      obtain ⟨a2, ha2, ha2eq⟩ := List.any_eq_true.mp hcase
      exact absurd (List.mem_map.mpr ⟨a2, ha2, of_decide_eq_true ha2eq⟩) h
  rw [hany]
  simp

/-- In well-formed serialized form, scanning the attribute section of a
start tag recovers the attributes, the self-closing flag and the rest. -/
theorem scanAttrs_chunk (attrs : List Attr) :
    ∀ (acc : List Attr) (sc : Bool) (rest : List Char) (f : Nat),
      (renderAttrs attrs ++ (if sc then '/' :: '>' :: rest else '>' :: rest)).length ≤ f →
      (∀ a ∈ attrs, ValidAttrName a.1) →
      ((acc ++ attrs).map Prod.fst).Nodup →
      scanAttrs f acc (renderAttrs attrs ++ (if sc then '/' :: '>' :: rest else '>' :: rest)) =
        some (acc ++ attrs, sc, rest) := by
  induction attrs with
  | nil =>
    intro acc sc rest f hf _ _
    rw [renderAttrs, List.nil_append] at hf ⊢
    cases sc with
    | false =>
      simp only [if_false, Bool.false_eq_true, List.length_cons, reduceIte] at hf ⊢
      cases f with
      | zero => omega
      | succ f2 =>
        rw [scanAttrs_cons, if_neg (by decide), if_pos rfl, List.append_nil]
    | true =>
      simp only [if_true, List.length_cons, reduceIte] at hf ⊢
      cases f with
      | zero => omega
      | succ f2 =>
        rw [scanAttrs_cons, if_neg (by decide), if_neg (by decide), if_pos (by simp),
          List.append_nil]
        rfl
  | cons a attrs2 ih =>
    intro acc sc rest f hf hwf hnodup
    obtain ⟨k, v⟩ := a
    obtain ⟨hkne, hkchars⟩ := hwf (k, v) (List.mem_cons_self _ _)
    rw [renderAttrs, renderAttr] at hf ⊢
    dsimp only at hf ⊢
    simp only [List.append_assoc, List.cons_append, List.singleton_append,
      List.nil_append] at hf ⊢
    cases f with
    | zero => simp at hf
    | succ f2 =>
      rw [scanAttrs_cons, if_pos (by decide)]
      rcases hk0 : k with _ | ⟨k0, k2⟩
      · exact absurd hk0 hkne
      subst hk0
      obtain ⟨hw0, he0, hg0, hl0, _⟩ := hkchars k0 (List.mem_cons_self _ _)
      rw [List.cons_append]
      cases f2 with
      | zero =>
        exfalso
        simp only [List.length_cons, List.length_append] at hf
        omega
      | succ f3 =>
        rw [scanAttrs_cons,
          if_neg (by rw [hw0]; exact Bool.false_ne_true),
          if_neg hg0,
          if_neg (by
            intro hcon
            have hhead := of_decide_eq_true ((Bool.and_eq_true _ _).mp hcon).2
            cases k2 with
            | nil =>
              rw [List.nil_append, List.head?_cons] at hhead
              have h3 : ('=' : Char) = '>' := by injection hhead
              exact absurd h3 (by decide)
            | cons d k3 =>
              have hd := (hkchars d (List.mem_cons_of_mem _ (List.mem_cons_self _ _))).2.2.1
              rw [List.cons_append, List.head?_cons] at hhead
              have h3 : d = '>' := by injection hhead
              exact hd h3),
          if_neg he0]
        rw [show k0 :: (k2 ++ ('=' :: '"' :: (escAttr v ++ '"' :: (renderAttrs attrs2 ++
          (if sc then '/' :: '>' :: rest else '>' :: rest))))) =
          (k0 :: k2) ++ ('=' :: '"' :: (escAttr v ++ '"' :: (renderAttrs attrs2 ++
          (if sc then '/' :: '>' :: rest else '>' :: rest)))) from rfl]
        rw [scanOneAttr_chunk (k0 :: k2) v (renderAttrs attrs2 ++
          (if sc then '/' :: '>' :: rest else '>' :: rest)) hkchars]
        dsimp only
        have hnd2 : (acc.map Prod.fst ++ ((k0 :: k2) :: attrs2.map Prod.fst)).Nodup := by
          simpa using hnodup
        have hk0notin : (k0 :: k2) ∉ acc.map Prod.fst :=
          fun hmem => (List.disjoint_of_nodup_append hnd2) hmem (List.mem_cons_self _ _)
        rw [lowerL_id (k0 :: k2) (fun c hc => (hkchars c hc).2.2.2.2),
          addAttr_not_mem acc (k0 :: k2) v hk0notin]
        rw [ih (acc ++ [(k0 :: k2, v)]) sc rest f3
          (by
            simp only [List.length_cons, List.length_append] at hf ⊢
            omega)
          (fun a2 ha2 => hwf a2 (List.mem_cons_of_mem _ ha2))
          (by simpa [List.append_assoc, List.singleton_append] using hnodup)]
        simp

/-- Escaping one character never yields the empty list. -/
theorem escTextChar_ne_nil (c : Char) : escTextChar c ≠ [] := by
  unfold escTextChar
  by_cases h1 : c = '&'
  · rw [if_pos h1]; exact List.cons_ne_nil _ _
  · rw [if_neg h1]
    by_cases h2 : c = '<'
    · rw [if_pos h2]; exact List.cons_ne_nil _ _
    · rw [if_neg h2]
      by_cases h3 : c = '>'
      · rw [if_pos h3]; exact List.cons_ne_nil _ _
      · rw [if_neg h3]; exact List.cons_ne_nil _ _

/-- Escaping a nonempty text yields a nonempty list. -/
theorem escText_ne_nil (s : List Char) (hs : s ≠ []) : escText s ≠ [] := by
  cases s with
  | nil => exact absurd rfl hs
  | cons c cs =>
    rw [escText]
    intro h
    exact escTextChar_ne_nil c (List.append_eq_nil.mp h).1

/-- Unfolding equation of the tokenizer loop. -/
theorem tokenizeF_succ (f : Nat) (s : List Char) :
    tokenizeF (f + 1) s = (tokStep s).elim [] (fun p => p.1 :: tokenizeF f p.2) := rfl

/-- The tokenizer step on a rendered text chunk followed by markup (or by
the end of the input). -/
theorem tokStep_text (s rest : List Char) (hs : s ≠ [])
    (hrest : isTagStart rest = true ∨ rest = []) :
    tokStep (escText s ++ rest) = some (Tok.text s, rest) := by
  rcases he : escText s with _ | ⟨e, es⟩
  · exact absurd he (escText_ne_nil s hs)
  rw [List.cons_append]
  simp only [tokStep]
  rw [if_neg (by
    rw [isTagStart_ne_lt e _ (escText_no_lt s e (he ▸ List.mem_cons_self e es))]
    exact Bool.false_ne_true)]
  rw [show e :: (es ++ rest) = escText s ++ rest from by rw [he, List.cons_append]]
  rw [scanText_chunk (escText s) rest (fun c hc => escText_no_lt s c hc) hrest]
  dsimp only
  rw [unescape_escText]

/-- The tokenizer step on a rendered end tag. -/
theorem tokStep_endTag (n rest : List Char) ( _hn : n ≠ [])
    (hchars : ∀ c ∈ n, c ≠ '>' ∧ c ≠ '<' ∧ c.toLower = c) :
    tokStep ('<' :: '/' :: (n ++ '>' :: rest)) = some (Tok.endTag n, rest) := by
  simp only [tokStep]
  rw [if_pos (show isTagStart ('<' :: '/' :: (n ++ '>' :: rest)) = true from rfl)]
  simp only [reduceIte]
  rw [span_append_all (fun d => !(d = '>')) n ('>' :: rest)
    (fun c hc => by simp [(hchars c hc).1])
    (fun c hc => by
      have h2 : c = '>' := by injection hc with h4; exact h4.symm
      subst h2
      simp)]
  dsimp only
  rw [lowerL_id n (fun c hc => (hchars c hc).2.2)]

/-- The serialized attribute section (or tag close) never starts with a
name character. -/
theorem renderRest_head (attrs : List Attr) (sc : Bool) (rest : List Char) :
    ∀ c, (renderAttrs attrs ++
        (if sc then '/' :: '>' :: rest else '>' :: rest)).head? = some c →
      isNameChar c = false := by
  intro c hc
  cases attrs with
  | nil =>
    rw [renderAttrs, List.nil_append] at hc
    cases sc with
    | false =>
      rw [if_neg Bool.false_ne_true, List.head?_cons] at hc
      have h2 : c = '>' := by injection hc with h4; exact h4.symm
      subst h2
      decide
    | true =>
      rw [if_pos rfl, List.head?_cons] at hc
      have h2 : c = '/' := by injection hc with h4; exact h4.symm
      subst h2
      decide
  | cons a attrs2 =>
    rw [renderAttrs, renderAttr] at hc
    simp only [List.cons_append, List.append_assoc, List.head?_cons] at hc
    have h2 : c = ' ' := by injection hc with h4; exact h4.symm
    subst h2
    decide

/-- The tokenizer step on a rendered start tag. -/
theorem tokStep_startTag (n : List Char) (attrs : List Attr) (sc : Bool) (rest : List Char)
    (hn : ValidName n) (hattrs : ∀ a ∈ attrs, ValidAttrName a.1)
    (hnodup : (attrs.map Prod.fst).Nodup) :
    tokStep ('<' :: (n ++ (renderAttrs attrs ++
        (if sc then '/' :: '>' :: rest else '>' :: rest)))) =
      some (Tok.startTag n attrs sc, rest) := by
  obtain ⟨hchars, hhead⟩ := hn
  rcases hnn : n with _ | ⟨n0, n2⟩
  · rw [hnn] at hhead
    exact hhead.elim
  subst hnn
  have halpha : n0.isAlpha = true := hhead
  rw [List.cons_append]
  simp only [tokStep]
  rw [if_pos (by simp [isTagStart, halpha])]
  have hslash : n0 ≠ '/' := by
    intro h; subst h; exact absurd halpha (by decide)
  have hbang : n0 ≠ '!' := by
    intro h; subst h; exact absurd halpha (by decide)
  have hqm : n0 ≠ '?' := by
    intro h; subst h; exact absurd halpha (by decide)
  rw [if_neg hslash, if_neg (by simp [hbang]), if_neg (by simp [hbang, hqm])]
  rw [show n0 :: (n2 ++ (renderAttrs attrs ++
      (if sc then '/' :: '>' :: rest else '>' :: rest))) =
    (n0 :: n2) ++ (renderAttrs attrs ++
      (if sc then '/' :: '>' :: rest else '>' :: rest)) from rfl]
  rw [span_append_all isNameChar (n0 :: n2) _
    (fun c hc => (hchars c hc).1)
    (renderRest_head attrs sc rest)]
  dsimp only
  rw [scanAttrs_chunk attrs [] sc rest
    ((renderAttrs attrs ++ (if sc then '/' :: '>' :: rest else '>' :: rest)).length + 1)
    (Nat.le_succ _) hattrs (by simpa using hnodup)]
  dsimp only
  rw [lowerL_id (n0 :: n2) (fun c hc => (hchars c hc).2)]
  simp

/-- Well-formedness of a token stream passes to its tail. -/
theorem ToksWF_tail (t : Tok) (ts : List Tok) (h : ToksWF (t :: ts)) : ToksWF ts :=
  ⟨fun u hu => h.1 u (List.mem_cons_of_mem _ hu), h.2.tail⟩

/-- A rendered stream whose head is not a text token starts with markup
(or is empty). -/
theorem renderToks_tagStart (ts : List Tok) (h : ∀ t ∈ ts, TokWF t)
    (hhead : ∀ t, ts.head? = some t → isTextTok t = false) :
    isTagStart (renderToks ts) = true ∨ renderToks ts = [] := by
  cases ts with
  | nil => exact Or.inr rfl
  | cons t ts2 =>
    left
    have ht := h t (List.mem_cons_self _ _)
    have htext := hhead t rfl
    cases t with
    | text s => simp [isTextTok] at htext
    | comment s => exact ht.elim
    | startTag n attrs sc =>
      obtain ⟨⟨hchars, hhd⟩, _, _⟩ := ht
      rcases hnn : n with _ | ⟨n0, n2⟩
      · rw [hnn] at hhd
        exact hhd.elim
      · subst hnn
        have halpha : n0.isAlpha = true := hhd
        simp only [renderToks, renderTok]
        simp [isTagStart, halpha]
    | endTag n =>
      simp only [renderToks, renderTok]
      simp [isTagStart]

/-- Serialization followed by tokenization is the identity on well-formed
token streams. -/
theorem tokenizeF_render (ts : List Tok) :
    ∀ f, ts.length ≤ f → ToksWF ts → tokenizeF f (renderToks ts) = ts := by
  induction ts with
  | nil =>
    intro f _ _
    simp only [renderToks]
    cases f with
    | zero => rfl
    | succ f2 => rfl
  | cons t ts2 ih =>
    intro f hf hwf
    have hts2 : ToksWF ts2 := ToksWF_tail t ts2 hwf
    cases f with
    | zero => simp at hf
    | succ f2 =>
      have hf2 : ts2.length ≤ f2 := by
        simp only [List.length_cons] at hf
        omega
      simp only [renderToks]
      rw [tokenizeF_succ]
      have ht := hwf.1 t (List.mem_cons_self _ _)
      cases t with
      | comment s => exact ht.elim
      | text s =>
        have hnext : ∀ u, ts2.head? = some u → isTextTok u = false := by
          intro u hu
          cases ts2 with
          | nil => exact Option.noConfusion hu
          | cons u2 ts3 =>
            have h2 : u2 = u := by injection hu
            subst h2
            have hch := hwf.2
            rw [List.chain'_cons] at hch
            cases hcase : isTextTok u2 with
            | false => rfl
            | true => exact absurd ⟨rfl, hcase⟩ hch.1
        simp only [renderTok]
        rw [tokStep_text s (renderToks ts2) ht
          (renderToks_tagStart ts2 hts2.1 hnext)]
        simp only [Option.elim]
        rw [ih f2 hf2 hts2]
      | startTag n attrs sc =>
        obtain ⟨hvn, hva, hnd⟩ := ht
        simp only [renderTok]
        have hassoc : ('<' :: n ++ renderAttrs attrs ++
            (if sc then ['/', '>'] else ['>'])) ++ renderToks ts2 =
            '<' :: (n ++ (renderAttrs attrs ++
              (if sc then '/' :: '>' :: renderToks ts2 else '>' :: renderToks ts2))) := by
          cases sc with
          | false => simp
          | true => simp
        rw [hassoc, tokStep_startTag n attrs sc (renderToks ts2) hvn hva hnd]
        simp only [Option.elim]
        rw [ih f2 hf2 hts2]
      | endTag n =>
        obtain ⟨hne, hch⟩ := ht
        simp only [renderTok]
        have hassoc : ('<' :: '/' :: n ++ ['>']) ++ renderToks ts2 =
            '<' :: '/' :: (n ++ '>' :: renderToks ts2) := by simp
        rw [hassoc, tokStep_endTag n (renderToks ts2) hne hch]
        simp only [Option.elim]
        rw [ih f2 hf2 hts2]

/-! ## Character-class facts about ASCII lowercasing -/

/-- `Char.ofNat` of a valid codepoint decodes back. -/
theorem char_toNat_ofNat (n : Nat) (h : n.isValidChar) : (Char.ofNat n).toNat = n := by
  unfold Char.ofNat
  rw [dif_pos h]
  unfold Char.ofNatAux Char.toNat
  simp [UInt32.toNat]

/-- Characters with different codepoints differ. -/
theorem char_ne_of_toNat (a b : Char) (h : a.toNat ≠ b.toNat) : a ≠ b := by
  intro he
  rw [he] at h
  exact h rfl

/-- `toLower` fixes a character or produces a basic latin lowercase one. -/
theorem toLower_shape (c : Char) :
    c.toLower = c ∨ (97 ≤ c.toLower.toNat ∧ c.toLower.toNat ≤ 122) := by
  unfold Char.toLower
  by_cases h : 65 ≤ c.toNat ∧ c.toNat ≤ 90
  · rw [if_pos h]
    right
    rw [char_toNat_ofNat _ (Or.inl (by omega))]
    omega
  · rw [if_neg h]
    left
    rfl

/-- Lowercasing is idempotent. -/
theorem toLower_idem (c : Char) : c.toLower.toLower = c.toLower := by
  unfold Char.toLower
  by_cases h : 65 ≤ c.toNat ∧ c.toNat ≤ 90
  · rw [if_pos h]
    have hv : (Char.ofNat (c.toNat + 32)).toNat = c.toNat + 32 :=
      char_toNat_ofNat _ (Or.inl (by omega))
    rw [if_neg (by rw [hv]; omega)]
  · rw [if_neg h, if_neg h]

/-- Lowercasing preserves name characters. -/
theorem isNameChar_toLower (c : Char) (h : isNameChar c = true) :
    isNameChar c.toLower = true := by
  rcases toLower_shape c with h2 | h2
  · rw [h2]
    exact h
  · have hne : ∀ (d : Char), 123 ≤ d.toNat ∨ d.toNat ≤ 96 → ¬(c.toLower = d) :=
      fun d hd => char_ne_of_toNat _ _ (by omega)
    unfold isNameChar isWs
    simp only [Bool.or_eq_true, decide_eq_true_eq, Bool.not_eq_true',
      Bool.or_eq_false_iff, decide_eq_false_iff_not]
    and_intros
    · exact hne ' ' (by decide)
    · exact hne '\t' (by decide)
    · exact hne '\n' (by decide)
    · exact hne '\r' (by decide)
    · exact hne '\x0b' (by decide)
    · exact hne '\x0c' (by decide)
    · exact hne '>' (by decide)
    · exact hne '<' (by decide)
    · exact hne '/' (by decide)

/-- Lowercasing preserves the attribute-name character conditions. -/
theorem attrChar_toLower (c : Char)
    (h : isWs c = false ∧ c ≠ '=' ∧ c ≠ '>' ∧ c ≠ '<') :
    isWs c.toLower = false ∧ c.toLower ≠ '=' ∧ c.toLower ≠ '>' ∧ c.toLower ≠ '<' ∧
      (c.toLower).toLower = c.toLower := by
  refine ⟨?_, ?_, ?_, ?_, toLower_idem c⟩ <;>
  · rcases toLower_shape c with h2 | h2
    · rw [h2]
      first
        | exact h.1
        | exact h.2.1
        | exact h.2.2.1
        | exact h.2.2.2
    · have hne : ∀ (d : Char), 123 ≤ d.toNat ∨ d.toNat ≤ 96 → ¬(c.toLower = d) :=
        fun d hd => char_ne_of_toNat _ _ (by omega)
      first
        | (unfold isWs
           simp only [Bool.or_eq_true, decide_eq_true_eq, Bool.not_eq_true',
             Bool.or_eq_false_iff, decide_eq_false_iff_not]
           and_intros
           · exact hne ' ' (by decide)
           · exact hne '\t' (by decide)
           · exact hne '\n' (by decide)
           · exact hne '\r' (by decide)
           · exact hne '\x0b' (by decide)
           · exact hne '\x0c' (by decide))
        | exact hne '=' (by decide)
        | exact hne '>' (by decide)
        | exact hne '<' (by decide)

/-- Basic latin lowercase range is `isLower`. -/
theorem isLower_of_range (c : Char) (h1 : 97 ≤ c.toNat) (h2 : c.toNat ≤ 122) :
    c.isLower = true := by
  unfold Char.isLower
  have hof : ∀ (m : Nat), m < UInt32.size → (UInt32.ofNat m).toBitVec.toNat = m := by
    intro m hm
    simp [UInt32.ofNat, BitVec.toNat_ofNat, Nat.mod_eq_of_lt hm]
  have ha : (97 : UInt32) ≤ c.val := by
    rw [UInt32.le_def, BitVec.le_def]
    rw [show ((97 : UInt32)).toBitVec.toNat = 97 from hof 97 (by decide)]
    exact h1
  have hb : c.val ≤ (122 : UInt32) := by
    rw [UInt32.le_def, BitVec.le_def]
    rw [show ((122 : UInt32)).toBitVec.toNat = 122 from hof 122 (by decide)]
    exact h2
  simp [ha, hb, ge_iff_le]

/-- Lowercasing preserves letters. -/
theorem isAlpha_toLower (c : Char) (h : c.isAlpha = true) :
    c.toLower.isAlpha = true := by
  rcases toLower_shape c with h2 | h2
  · rw [h2]
    exact h
  · unfold Char.isAlpha
    rw [isLower_of_range _ h2.1 h2.2]
    simp

/-- Letters are name characters. -/
theorem isNameChar_of_isAlpha (c : Char) (h : c.isAlpha = true) :
    isNameChar c = true := by
  unfold Char.isAlpha Char.isUpper Char.isLower at h
  have hr : (65 ≤ c.toNat ∧ c.toNat ≤ 90) ∨ (97 ≤ c.toNat ∧ c.toNat ≤ 122) := by
    rcases Bool.or_eq_true _ _ |>.mp h with h3 | h3
    · left
      have h4 := Bool.and_eq_true _ _ |>.mp h3
      have h5 := of_decide_eq_true h4.1
      have h6 := of_decide_eq_true h4.2
      rw [ge_iff_le, UInt32.le_def, BitVec.le_def] at h5
      rw [UInt32.le_def, BitVec.le_def] at h6
      rw [show ((65 : UInt32)).toBitVec.toNat = 65 from by decide] at h5
      rw [show ((90 : UInt32)).toBitVec.toNat = 90 from by decide] at h6
      exact ⟨h5, h6⟩
    · right
      have h4 := Bool.and_eq_true _ _ |>.mp h3
      have h5 := of_decide_eq_true h4.1
      have h6 := of_decide_eq_true h4.2
      rw [ge_iff_le, UInt32.le_def, BitVec.le_def] at h5
      rw [UInt32.le_def, BitVec.le_def] at h6
      rw [show ((97 : UInt32)).toBitVec.toNat = 97 from by decide] at h5
      rw [show ((122 : UInt32)).toBitVec.toNat = 122 from by decide] at h6
      exact ⟨h5, h6⟩
  have hne : ∀ (d : Char), d.toNat ≤ 64 ∨ (91 ≤ d.toNat ∧ d.toNat ≤ 96) ∨ 123 ≤ d.toNat →
      ¬(c = d) := fun d hd => char_ne_of_toNat _ _ (by omega)
  unfold isNameChar isWs
  simp only [Bool.or_eq_true, decide_eq_true_eq, Bool.not_eq_true',
    Bool.or_eq_false_iff, decide_eq_false_iff_not]
  and_intros
  · exact hne ' ' (by decide)
  · exact hne '\t' (by decide)
  · exact hne '\n' (by decide)
  · exact hne '\r' (by decide)
  · exact hne '\x0b' (by decide)
  · exact hne '\x0c' (by decide)
  · exact hne '>' (by decide)
  · exact hne '<' (by decide)
  · exact hne '/' (by decide)

/-- Escaping distributes over concatenation. -/
theorem escText_append (a b : List Char) :
    escText (a ++ b) = escText a ++ escText b := by
  induction a with
  | nil => rfl
  | cons c cs ih =>
    rw [List.cons_append, escText, escText, ih, List.append_assoc]

/-- Rendering distributes over concatenation. -/
theorem renderToks_append (a b : List Tok) :
    renderToks (a ++ b) = renderToks a ++ renderToks b := by
  induction a with
  | nil => rfl
  | cons t ts ih =>
    rw [List.cons_append, renderToks, renderToks, ih, List.append_assoc]

/-- Merging adjacent texts preserves the rendered string. -/
theorem renderToks_mergeTexts (ts : List Tok) :
    renderToks (mergeTexts ts) = renderToks ts := by
  induction ts with
  | nil => rfl
  | cons t rest ih =>
    cases t with
    | text a =>
      rw [mergeTexts]
      rcases h : mergeTexts rest with _ | ⟨t2, r2⟩
      · simp only [renderToks]
        rw [← ih]
        simp [renderToks]
        rw [h]
        rfl
      · cases t2 with
        | text b =>
          simp only [renderToks]
          rw [← ih]
          simp [renderToks, renderTok, escText_append, List.append_assoc]
          rw [h]
          simp [renderToks, renderTok]
        | comment b =>
          simp only [renderToks]
          rw [← ih]
          simp [renderToks, List.append_assoc]
          rw [h]
          simp [renderToks]
        | startTag n attrs sc =>
          simp only [renderToks]
          rw [← ih]
          simp [renderToks, List.append_assoc]
          rw [h]
          simp [renderToks]
        | endTag n =>
          simp only [renderToks]
          rw [← ih]
          simp [renderToks, List.append_assoc]
          rw [h]
          simp [renderToks]
    | comment a =>
      have he : mergeTexts (Tok.comment a :: rest) = Tok.comment a :: mergeTexts rest := by
        rfl
      rw [he]
      simp only [renderToks]
      rw [ih]
    | startTag n attrs sc =>
      have he : mergeTexts (Tok.startTag n attrs sc :: rest) =
          Tok.startTag n attrs sc :: mergeTexts rest := by
        rfl
      rw [he]
      simp only [renderToks]
      rw [ih]
    | endTag n =>
      have he : mergeTexts (Tok.endTag n :: rest) = Tok.endTag n :: mergeTexts rest := by
        rfl
      rw [he]
      simp only [renderToks]
      rw [ih]

/-- Dropping empty texts preserves the rendered string. -/
theorem renderToks_dropEmptyTexts (ts : List Tok) :
    renderToks (dropEmptyTexts ts) = renderToks ts := by
  induction ts with
  | nil => rfl
  | cons t rest ih =>
    rw [dropEmptyTexts]
    by_cases h : t = Tok.text []
    · rw [if_pos h, ih, h, renderToks]
      simp [renderTok, escText]
    · rw [if_neg h, renderToks, renderToks, ih]

/-- Membership in a one-character escape: the original character or an
expansion character. -/
theorem escTextChar_mem_cases (c d : Char) (hd : d ∈ escTextChar c) :
    d = c ∨ d ∈ ['&', 'a', 'm', 'p', 'l', 't', 'g', ';'] := by
  unfold escTextChar at hd
  by_cases h1 : c = '&'
  · rw [if_pos h1] at hd
    right
    rcases (by simpa using hd : d = '&' ∨ d = 'a' ∨ d = 'm' ∨ d = 'p' ∨ d = ';') with
      h | h | h | h | h <;> subst h <;> decide
  · rw [if_neg h1] at hd
    by_cases h2 : c = '<'
    · rw [if_pos h2] at hd
      right
      rcases (by simpa using hd : d = '&' ∨ d = 'l' ∨ d = 't' ∨ d = ';') with
        h | h | h | h <;> subst h <;> decide
    · rw [if_neg h2] at hd
      by_cases h3 : c = '>'
      · rw [if_pos h3] at hd
        right
        rcases (by simpa using hd : d = '&' ∨ d = 'g' ∨ d = 't' ∨ d = ';') with
          h | h | h | h <;> subst h <;> decide
      · rw [if_neg h3] at hd
        left
        simpa using hd

/-- Membership in a one-character attribute escape. -/
theorem escAttrChar_mem_cases (c d : Char) (hd : d ∈ escAttrChar c) :
    d = c ∨ d ∈ ['&', 'a', 'm', 'p', 'l', 't', 'g', 'q', 'u', 'o', ';'] := by
  unfold escAttrChar at hd
  by_cases h1 : c = '"'
  · rw [if_pos h1] at hd
    right
    rcases (by simpa using hd : d = '&' ∨ d = 'q' ∨ d = 'u' ∨ d = 'o' ∨ d = 't' ∨ d = ';') with
      h | h | h | h | h | h <;> subst h <;> decide
  · rw [if_neg h1] at hd
    rcases escTextChar_mem_cases c d hd with h | h
    · exact Or.inl h
    · right
      rcases (by simpa using h :
          d = '&' ∨ d = 'a' ∨ d = 'm' ∨ d = 'p' ∨ d = 'l' ∨ d = 't' ∨ d = 'g' ∨ d = ';') with
        h2 | h2 | h2 | h2 | h2 | h2 | h2 | h2 <;> subst h2 <;> decide

/-- Filtering a whitespace control character through an escaped text equals
escaping the filtered text. -/
theorem filter_escText (c0 : Char) (hc0 : c0 = '\t' ∨ c0 = '\n') (s : List Char) :
    filterOut c0 (escText s) = escText (filterOut c0 s) := by
  induction s with
  | nil => rfl
  | cons c cs ih =>
    rw [escText]
    unfold filterOut at ih ⊢
    rw [List.filter_append, List.filter_cons]
    by_cases h : c = c0
    · subst h
      rw [if_neg (by simp)]
      have he : escTextChar c = [c] := by
        rcases hc0 with h2 | h2 <;> subst h2 <;> rfl
      rw [he]
      simp only [List.filter_cons, List.filter_nil]
      rw [if_neg (by simp)]
      rw [List.nil_append]
      exact ih
    · rw [if_pos (by simpa using h)]
      rw [escText]
      have he : (escTextChar c).filter (fun d => !(d = c0)) = escTextChar c := by
        apply List.filter_eq_self.mpr
        intro d hd
        rcases escTextChar_mem_cases c d hd with h2 | h2
        · subst h2
          simpa using h
        · rcases hc0 with h3 | h3 <;> subst h3 <;>
            (rcases (by simpa using h2 :
                d = '&' ∨ d = 'a' ∨ d = 'm' ∨ d = 'p' ∨ d = 'l' ∨ d = 't' ∨ d = 'g' ∨ d = ';') with
              h4 | h4 | h4 | h4 | h4 | h4 | h4 | h4 <;> subst h4 <;> decide)
      rw [he, ih]

/-- Filtering a whitespace control character through an escaped attribute
value equals escaping the filtered value. -/
theorem filter_escAttr (c0 : Char) (hc0 : c0 = '\t' ∨ c0 = '\n') (s : List Char) :
    filterOut c0 (escAttr s) = escAttr (filterOut c0 s) := by
  induction s with
  | nil => rfl
  | cons c cs ih =>
    rw [escAttr]
    unfold filterOut at ih ⊢
    rw [List.filter_append, List.filter_cons]
    by_cases h : c = c0
    · subst h
      rw [if_neg (by simp)]
      have he : escAttrChar c = [c] := by
        rcases hc0 with h2 | h2 <;> subst h2 <;> rfl
      rw [he]
      simp only [List.filter_cons, List.filter_nil]
      rw [if_neg (by simp)]
      rw [List.nil_append]
      exact ih
    · rw [if_pos (by simpa using h)]
      rw [escAttr]
      have he : (escAttrChar c).filter (fun d => !(d = c0)) = escAttrChar c := by
        apply List.filter_eq_self.mpr
        intro d hd
        rcases escAttrChar_mem_cases c d hd with h2 | h2
        · subst h2
          simpa using h
        · rcases hc0 with h3 | h3 <;> subst h3 <;>
            (rcases (by simpa using h2 : d = '&' ∨ d = 'a' ∨ d = 'm' ∨ d = 'p' ∨
                d = 'l' ∨ d = 't' ∨ d = 'g' ∨ d = 'q' ∨ d = 'u' ∨ d = 'o' ∨ d = ';') with
              h4 | h4 | h4 | h4 | h4 | h4 | h4 | h4 | h4 | h4 | h4 <;> subst h4 <;> decide)
      rw [he, ih]

/-- A list whose characters avoid `c0` passes `filterOut c0` unchanged. -/
theorem filterOut_eq_self (c0 : Char) (s : List Char) (h : ∀ c ∈ s, ¬(c = c0)) :
    filterOut c0 s = s := by
  unfold filterOut
  apply List.filter_eq_self.mpr
  intro d hd
  simpa using h d hd

/-- The tab/newline filter pass at token level. -/
theorem filter_renderToks (c0 : Char) (hc0 : c0 = '\t' ∨ c0 = '\n') (ts : List Tok)
    (h : ∀ t ∈ ts, TokNoWsNames t) :
    filterOut c0 (renderToks ts) = renderToks (ts.map (cleanTok c0)) := by
  have hws : isWs c0 = true := by rcases hc0 with h2 | h2 <;> subst h2 <;> decide
  induction ts with
  | nil => rfl
  | cons t rest ih =>
    rw [renderToks, List.map_cons, renderToks]
    unfold filterOut at ih ⊢
    rw [List.filter_append, ih (fun u hu => h u (List.mem_cons_of_mem _ hu))]
    have hname : ∀ (n : List Char), (∀ c ∈ n, isWs c = false) →
        n.filter (fun d => !(d = c0)) = n := by
      intro n hn
      apply List.filter_eq_self.mpr
      intro d hd
      simp only [Bool.not_eq_true', decide_eq_false_iff_not]
      intro he
      subst he
      rw [hn d hd] at hws
      exact Bool.false_ne_true hws
    have ht := h t (List.mem_cons_self _ _)
    cases t with
    | text a =>
      rw [show cleanTok c0 (Tok.text a) = Tok.text (filterOut c0 a) from rfl]
      rw [show renderTok (Tok.text a) = escText a from rfl,
        show renderTok (Tok.text (filterOut c0 a)) = escText (filterOut c0 a) from rfl]
      have := filter_escText c0 hc0 a
      unfold filterOut at this
      rw [this]
      rfl
    | comment a => exact ht.elim
    | endTag n =>
      rw [show cleanTok c0 (Tok.endTag n) = Tok.endTag n from rfl]
      rw [show renderTok (Tok.endTag n) = '<' :: '/' :: n ++ ['>'] from rfl]
      simp only [List.filter_append, List.filter_cons, List.filter_nil]
      rw [if_pos (by rcases hc0 with h2 | h2 <;> subst h2 <;> decide),
        if_pos (by rcases hc0 with h2 | h2 <;> subst h2 <;> decide),
        if_pos (by rcases hc0 with h2 | h2 <;> subst h2 <;> decide)]
      rw [hname n ht]
    | startTag n attrs sc =>
      rw [show cleanTok c0 (Tok.startTag n attrs sc) =
        Tok.startTag n (attrs.map (fun a => (a.1, filterOut c0 a.2))) sc from rfl]
      rw [show renderTok (Tok.startTag n attrs sc) =
        '<' :: n ++ renderAttrs attrs ++ (if sc then ['/', '>'] else ['>']) from rfl,
        show renderTok (Tok.startTag n (attrs.map (fun a => (a.1, filterOut c0 a.2))) sc) =
        '<' :: n ++ renderAttrs (attrs.map (fun a => (a.1, filterOut c0 a.2))) ++
          (if sc then ['/', '>'] else ['>']) from rfl]
      simp only [List.filter_append, List.filter_cons]
      rw [if_pos (by rcases hc0 with h2 | h2 <;> subst h2 <;> decide)]
      rw [hname n ht.1]
      have hclose : (if sc then ['/', '>'] else ['>']).filter (fun d => !(d = c0)) =
          (if sc then ['/', '>'] else ['>']) := by
        cases sc with
        | false =>
          simp only [Bool.false_eq_true, if_false]
          rcases hc0 with h2 | h2 <;> subst h2 <;> decide
        | true =>
          simp only [if_true]
          rcases hc0 with h2 | h2 <;> subst h2 <;> decide
      rw [hclose]
      have hattrs : ∀ (al : List Attr), (∀ a ∈ al, ∀ c ∈ a.1, isWs c = false) →
          (renderAttrs al).filter (fun d => !(d = c0)) =
            renderAttrs (al.map (fun a => (a.1, filterOut c0 a.2))) := by
        intro al
        induction al with
        | nil => intro _; rfl
        | cons a al2 ih2 =>
          intro ha
          rw [renderAttrs, List.map_cons, renderAttrs, List.filter_append,
            ih2 (fun a2 h2 => ha a2 (List.mem_cons_of_mem _ h2))]
          rw [show renderAttr a = ' ' :: a.1 ++ '=' :: '"' :: escAttr a.2 ++ ['"'] from rfl,
            show renderAttr (a.1, filterOut c0 a.2) =
              ' ' :: a.1 ++ '=' :: '"' :: escAttr (filterOut c0 a.2) ++ ['"'] from rfl]
          simp only [List.filter_append, List.filter_cons, List.filter_nil]
          rw [if_pos (by rcases hc0 with h2 | h2 <;> subst h2 <;> decide),
            if_pos (by rcases hc0 with h2 | h2 <;> subst h2 <;> decide),
            if_pos (by rcases hc0 with h2 | h2 <;> subst h2 <;> decide),
            if_pos (by rcases hc0 with h2 | h2 <;> subst h2 <;> decide)]
          rw [hname a.1 (ha a (List.mem_cons_self _ _))]
          have := filter_escAttr c0 hc0 a.2
          unfold filterOut at this
          rw [this]
          rfl
      rw [hattrs attrs ht.2]

/-- Unfolding equation of `List.isPrefixOf` on two cons cells. -/
theorem isPrefixOf_cons2 (a b : Char) (as bs : List Char) :
    (a :: as).isPrefixOf (b :: bs) = ((a == b) && as.isPrefixOf bs) := rfl

/-- A pattern `name ++ [\x3e]` is a prefix of `name2 ++ y` exactly when the
names agree and `y` opens with `>`; name characters never collide with the
delimiter or the continuation head. -/
theorem pgt_isPrefix (p : List Char) :
    ∀ (n y : List Char),
      (∀ c ∈ p, isNameChar c = true) →
      (∀ c ∈ n, isNameChar c = true) →
      (∀ c, y.head? = some c → isNameChar c = false) →
      (p ++ ['>']).isPrefixOf (n ++ y) = (decide (n = p) && (y.head? == some '>')) := by
  induction p with
  | nil =>
    intro n y _ hn hy
    cases n with
    | nil =>
      cases y with
      | nil => rfl
      | cons c ys =>
        by_cases h : c = '>'
        · subst h
          simp [isPrefixOf_cons2, List.isPrefixOf]
        · have hb : (('>' : Char) == c) = false := beq_eq_false_iff_ne.mpr (Ne.symm h)
          have hd : ((c :: ys).head? == some '>') = false := by
            simp [h]
          rw [List.nil_append, List.nil_append, isPrefixOf_cons2, hb, hd]
          simp
    | cons n0 n2 =>
      have h0 : n0 ≠ '>' := by
        intro he
        have h1 := hn n0 (List.mem_cons_self _ _)
        rw [he] at h1
        exact absurd h1 (by decide)
      have hb : (('>' : Char) == n0) = false := beq_eq_false_iff_ne.mpr (Ne.symm h0)
      rw [List.nil_append, List.cons_append, isPrefixOf_cons2, hb]
      simp
  | cons p0 p2 ih =>
    intro n y hp hn hy
    cases n with
    | nil =>
      rw [List.nil_append]
      cases y with
      | nil =>
        rw [List.cons_append]
        simp [List.isPrefixOf]
      | cons c ys =>
        have h0 : isNameChar c = false := hy c rfl
        have hne : p0 ≠ c := by
          intro he
          have h1 := hp p0 (List.mem_cons_self _ _)
          rw [he, h0] at h1
          exact absurd h1 (by decide)
        have hb : (p0 == c) = false := beq_eq_false_iff_ne.mpr hne
        rw [List.cons_append, isPrefixOf_cons2, hb]
        simp
    | cons n0 n2 =>
      rw [List.cons_append, List.cons_append, isPrefixOf_cons2]
      by_cases h : p0 = n0
      · subst h
        rw [ih n2 y (fun c hc => hp c (List.mem_cons_of_mem _ hc))
          (fun c hc => hn c (List.mem_cons_of_mem _ hc)) hy]
        by_cases h2 : n2 = p2
        · subst h2
          simp
        · have hd : (decide (n2 = p2)) = false := decide_eq_false h2
          have hd2 : (decide (p0 :: n2 = p0 :: p2)) = false :=
            decide_eq_false (by simp [h2])
          rw [hd, hd2]
          simp
      · have hb : (p0 == n0) = false := beq_eq_false_iff_ne.mpr h
        have hd : (decide (n0 :: n2 = p0 :: p2)) = false :=
          decide_eq_false (by
            intro he
            injection he with h1 h2
            exact h h1.symm)
        rw [hb, hd]
        simp

/-- Unfolding equation of `replaceAllF` on a cons cell. -/
theorem replaceAllF_cons (pat rep : List Char) (f : Nat) (c : Char) (cs : List Char) :
    replaceAllF pat rep (f + 1) (c :: cs) =
      if pat.isPrefixOf (c :: cs) then
        rep ++ replaceAllF pat rep f ((c :: cs).drop pat.length)
      else c :: replaceAllF pat rep f cs := rfl

/-- A pattern starting with `<` is no prefix of a chunk starting
otherwise. -/
theorem pat_not_prefix_ne (pat : List Char) (hpat : pat.head? = some '<')
    (c : Char) (hc : c ≠ '<') (cs : List Char) :
    pat.isPrefixOf (c :: cs) = false := by
  cases pat with
  | nil => exact Option.noConfusion hpat
  | cons p0 pr =>
    have h0 : p0 = '<' := by injection hpat
    subst h0
    have hb : (('<' : Char) == c) = false := beq_eq_false_iff_ne.mpr (Ne.symm hc)
    rw [isPrefixOf_cons2, hb]
    simp

/-- `replaceAllF` copies a chunk in which the pattern never matches: no
match at the head, and no `<` (the pattern head) later in the chunk. -/
theorem replaceAllF_copy (pat rep : List Char) (hpat : pat.head? = some '<') :
    ∀ (u y : List Char) (fuel : Nat),
      (u ≠ [] → pat.isPrefixOf (u ++ y) = false) →
      (∀ c ∈ u.tail, c ≠ '<') →
      replaceAllF pat rep (fuel + u.length) (u ++ y) = u ++ replaceAllF pat rep fuel y := by
  intro u
  induction u with
  | nil => intro y fuel _ _; rfl
  | cons c u2 ih =>
    intro y fuel hhead htail
    rw [List.cons_append, List.length_cons, ← Nat.add_assoc, replaceAllF_cons,
      if_neg (by
        rw [show c :: (u2 ++ y) = (c :: u2) ++ y from rfl,
          hhead (List.cons_ne_nil _ _)]
        exact Bool.false_ne_true)]
    rw [ih y fuel
      (fun h2 => by
        rcases hu2 : u2 with _ | ⟨d, u3⟩
        · exact absurd hu2 h2
        · rw [List.cons_append]
          exact pat_not_prefix_ne pat hpat d
            (htail d (by rw [hu2]; exact List.mem_cons_self _ _)) _)
      (fun d hd => htail d (by
        cases u2 with
        | nil => exact absurd hd (by simp)
        | cons e u3 => exact List.mem_cons_of_mem _ hd))]
    rfl

/-- A list is a prefix of itself followed by anything. -/
theorem isPrefixOf_self_append (l r : List Char) : l.isPrefixOf (l ++ r) = true := by
  induction l with
  | nil =>
    rw [List.nil_append]
    cases r <;> rfl
  | cons c cs ih =>
    rw [List.cons_append, isPrefixOf_cons2, ih]
    simp

/-- Characters of a serialized attribute list. -/
theorem mem_renderAttrs (attrs : List Attr) (d : Char) (hd : d ∈ renderAttrs attrs) :
    d = ' ' ∨ d = '=' ∨ d = '"' ∨ (∃ a ∈ attrs, d ∈ a.1) ∨
      (∃ a ∈ attrs, d ∈ escAttr a.2) := by
  induction attrs with
  | nil => simp [renderAttrs] at hd
  | cons a as ih =>
    rw [renderAttrs] at hd
    rcases List.mem_append.mp hd with h | h
    · rw [renderAttr] at h
      rcases List.mem_append.mp h with h2 | h2
      · rcases List.mem_append.mp h2 with h3 | h3
        · rcases List.mem_cons.mp h3 with h4 | h4
          · exact Or.inl h4
          · exact Or.inr (Or.inr (Or.inr (Or.inl ⟨a, List.mem_cons_self _ _, h4⟩)))
        · rcases List.mem_cons.mp h3 with h4 | h4
          · exact Or.inr (Or.inl h4)
          · rcases List.mem_cons.mp h4 with h5 | h5
            · exact Or.inr (Or.inr (Or.inl h5))
            · exact Or.inr (Or.inr (Or.inr (Or.inr ⟨a, List.mem_cons_self _ _, h5⟩)))
      · have h4 := List.mem_singleton.mp h2
        exact Or.inr (Or.inr (Or.inl h4))
    · rcases ih h with h2 | h2 | h2 | ⟨a2, ha2, h2⟩ | ⟨a2, ha2, h2⟩
      · exact Or.inl h2
      · exact Or.inr (Or.inl h2)
      · exact Or.inr (Or.inr (Or.inl h2))
      · exact Or.inr (Or.inr (Or.inr (Or.inl ⟨a2, List.mem_cons_of_mem _ ha2, h2⟩)))
      · exact Or.inr (Or.inr (Or.inr (Or.inr ⟨a2, List.mem_cons_of_mem _ ha2, h2⟩)))

/-- The tail of a serialized start tag contains no `<`. -/
theorem startTag_tail_no_lt (n : List Char) (attrs : List Attr) (sc : Bool)
    (hn : ∀ c ∈ n, isNameChar c = true)
    (hattrs : ∀ a ∈ attrs, ∀ c ∈ a.1, c ≠ '<') :
    ∀ d ∈ n ++ renderAttrs attrs ++ (if sc then ['/', '>'] else ['>']), d ≠ '<' := by
  intro d hd
  rcases List.mem_append.mp hd with h | h
  · rcases List.mem_append.mp h with h2 | h2
    · intro he
      subst he
      have := hn _ h2
      exact absurd this (by decide)
    · rcases mem_renderAttrs attrs d h2 with h3 | h3 | h3 | ⟨a, ha, h3⟩ | ⟨a, ha, h3⟩
      · subst h3; decide
      · subst h3; decide
      · subst h3; decide
      · exact hattrs a ha d h3
      · exact (escAttr_chars _ d h3).1
  · cases sc with
    | false =>
      have h2 : d = '>' := by simpa using h
      subst h2
      decide
    | true =>
      have h2 : d = '/' ∨ d = '>' := by simpa using h
      rcases h2 with h2 | h2 <;>
        · subst h2
          decide

/-- The `</p>` to `</q>` abbreviation pass, token by token. -/
theorem replaceEnd_renderToks (p q : List Char)
    (hp : ∀ c ∈ p, isNameChar c = true) (ts : List Tok) :
    ∀ fuel, (∀ t ∈ ts, TokNameOK t) → (renderToks ts).length ≤ fuel →
      replaceAllF ('<' :: '/' :: (p ++ ['>'])) ('<' :: '/' :: (q ++ ['>'])) fuel
        (renderToks ts) = renderToks (ts.map (renameEnd p q)) := by
  induction ts with
  | nil =>
    intro fuel _ _
    cases fuel with
    | zero => rfl
    | succ f => rfl
  | cons t rest ih =>
    intro fuel h hf
    have ht := h t (List.mem_cons_self _ _)
    have hrest := fun u hu => h u (List.mem_cons_of_mem _ hu)
    rw [renderToks] at hf ⊢
    rw [List.length_append] at hf
    rw [List.map_cons, renderToks]
    cases t with
    | comment a => exact ht.elim
    | text a =>
      rw [show renderTok (Tok.text a) = escText a from rfl] at hf ⊢
      rw [show renameEnd p q (Tok.text a) = Tok.text a from rfl,
        show renderTok (Tok.text a) = escText a from rfl]
      rw [show fuel = (fuel - (escText a).length) + (escText a).length from by omega]
      rw [replaceAllF_copy ('<' :: '/' :: (p ++ ['>'])) ('<' :: '/' :: (q ++ ['>'])) rfl
        (escText a) (renderToks rest) _
        (fun h2 => by
          rcases he : escText a with _ | ⟨e, es⟩
          · exact absurd he h2
          · rw [List.cons_append]
            exact pat_not_prefix_ne ('<' :: '/' :: (p ++ ['>'])) rfl e
              (escText_no_lt a e (he ▸ List.mem_cons_self e es)) _)
        (fun d hd => escText_no_lt a d (List.mem_of_mem_tail hd))]
      rw [ih _ hrest (by omega)]
    | startTag n attrs sc =>
      obtain ⟨hne, hn, hattrs⟩ := ht
      rw [show renderTok (Tok.startTag n attrs sc) =
        '<' :: n ++ renderAttrs attrs ++ (if sc then ['/', '>'] else ['>']) from rfl] at hf ⊢
      rw [show renameEnd p q (Tok.startTag n attrs sc) = Tok.startTag n attrs sc from rfl,
        show renderTok (Tok.startTag n attrs sc) =
        '<' :: n ++ renderAttrs attrs ++ (if sc then ['/', '>'] else ['>']) from rfl]
      have hlen : ('<' :: n ++ renderAttrs attrs ++
          (if sc then ['/', '>'] else ['>'])).length ≤ fuel := by omega
      rw [show fuel = (fuel - ('<' :: n ++ renderAttrs attrs ++
        (if sc then ['/', '>'] else ['>'])).length) + ('<' :: n ++ renderAttrs attrs ++
        (if sc then ['/', '>'] else ['>'])).length from by omega]
      rw [replaceAllF_copy ('<' :: '/' :: (p ++ ['>'])) ('<' :: '/' :: (q ++ ['>'])) rfl
        _ (renderToks rest) _
        (fun _ => by
          rcases hnn : n with _ | ⟨n0, n2⟩
          · exact absurd hnn hne
          subst hnn
          rw [show ('<' :: (n0 :: n2) ++ renderAttrs attrs ++
            (if sc then ['/', '>'] else ['>'])) ++ renderToks rest =
            '<' :: (n0 :: (n2 ++ (renderAttrs attrs ++
              ((if sc then ['/', '>'] else ['>']) ++ renderToks rest)))) from by simp]
          rw [isPrefixOf_cons2, isPrefixOf_cons2]
          have h0 : n0 ≠ '/' := by
            intro he
            have h1 := hn n0 (List.mem_cons_self _ _)
            rw [he] at h1
            exact absurd h1 (by decide)
          rw [beq_eq_false_iff_ne.mpr (Ne.symm h0)]
          simp)
        (fun d hd => by
          have hd2 : d ∈ n ++ renderAttrs attrs ++ (if sc then ['/', '>'] else ['>']) := by
            rw [show ('<' :: n ++ renderAttrs attrs ++
              (if sc then ['/', '>'] else ['>'])) = '<' :: (n ++ renderAttrs attrs ++
              (if sc then ['/', '>'] else ['>'])) from by simp] at hd
            exact hd
          exact startTag_tail_no_lt n attrs sc hn hattrs d hd2)]
      rw [ih _ hrest (by omega)]
    | endTag n =>
      rw [show renderTok (Tok.endTag n) = '<' :: '/' :: n ++ ['>'] from rfl] at hf ⊢
      by_cases hnp : n = p
      · subst hnp
        have hre : renameEnd n q (Tok.endTag n) = Tok.endTag q := by
          show (if n = n then Tok.endTag q else Tok.endTag n) = Tok.endTag q
          rw [if_pos (Eq.refl n)]
        rw [hre]
        have hch : ('<' :: '/' :: n ++ ['>']) ++ renderToks rest =
            ('<' :: '/' :: (n ++ ['>'])) ++ renderToks rest := by simp
        rw [hch]
        cases fuel with
        | zero =>
          exfalso
          simp only [List.length_append, List.length_cons] at hf
          omega
        | succ f =>
          rw [show ('<' :: '/' :: (n ++ ['>'])) ++ renderToks rest =
            '<' :: (('/' :: (n ++ ['>'])) ++ renderToks rest) from rfl]
          rw [replaceAllF_cons]
          rw [if_pos (by
            rw [show '<' :: (('/' :: (n ++ ['>'])) ++ renderToks rest) =
              ('<' :: '/' :: (n ++ ['>'])) ++ renderToks rest from rfl]
            exact isPrefixOf_self_append _ _)]
          rw [show '<' :: (('/' :: (n ++ ['>'])) ++ renderToks rest) =
            ('<' :: '/' :: (n ++ ['>'])) ++ renderToks rest from rfl]
          rw [List.drop_left]
          rw [ih f hrest (by
            simp only [List.length_append, List.length_cons] at hf
            omega)]
          rw [show renderTok (Tok.endTag q) = '<' :: '/' :: q ++ ['>'] from rfl]
          simp
      · have hre : renameEnd p q (Tok.endTag n) = Tok.endTag n := by
          show (if n = p then Tok.endTag q else Tok.endTag n) = Tok.endTag n
          rw [if_neg hnp]
        rw [hre]
        rw [show renderTok (Tok.endTag n) = '<' :: '/' :: n ++ ['>'] from rfl]
        rw [show fuel = (fuel - ('<' :: '/' :: n ++ ['>']).length) +
          ('<' :: '/' :: n ++ ['>']).length from by omega]
        rw [replaceAllF_copy ('<' :: '/' :: (p ++ ['>'])) ('<' :: '/' :: (q ++ ['>'])) rfl
          _ (renderToks rest) _
          (fun _ => by
            rw [show ('<' :: '/' :: n ++ ['>']) ++ renderToks rest =
              '<' :: ('/' :: (n ++ ('>' :: renderToks rest))) from by simp]
            rw [isPrefixOf_cons2, isPrefixOf_cons2]
            rw [pgt_isPrefix p n ('>' :: renderToks rest) hp ht
              (fun c hc => by
                have h2 : c = '>' := by injection hc with h4; exact h4.symm
                subst h2
                decide)]
            rw [decide_eq_false hnp]
            simp)
          (fun d hd => by
            have hd2 : d ∈ '/' :: n ++ ['>'] := by
              rw [show ('<' :: '/' :: n ++ ['>']) = '<' :: ('/' :: n ++ ['>']) from by
                simp] at hd
              exact hd
            rcases List.mem_cons.mp hd2 with h2 | h2
            · subst h2; decide
            rcases List.mem_append.mp h2 with h3 | h3
            · intro he
              subst he
              have := ht _ h3
              exact absurd this (by decide)
            · simp only [List.mem_singleton] at h3
              subst h3
              decide)]
        rw [ih _ hrest (by omega)]

/-- The serialized attribute section followed by anything never starts
with a name character. -/
theorem renderRestR_head (attrs : List Attr) (sc : Bool) (r : List Char) :
    ∀ c, (renderAttrs attrs ++ ((if sc then ['/', '>'] else ['>']) ++ r)).head? = some c →
      isNameChar c = false := by
  intro c hc
  cases attrs with
  | nil =>
    rw [renderAttrs, List.nil_append] at hc
    cases sc with
    | false =>
      rw [if_neg Bool.false_ne_true, List.singleton_append, List.head?_cons] at hc
      have h2 : c = '>' := by injection hc with h4; exact h4.symm
      subst h2
      decide
    | true =>
      rw [if_pos rfl, List.cons_append, List.head?_cons] at hc
      have h2 : c = '/' := by injection hc with h4; exact h4.symm
      subst h2
      decide
  | cons a attrs2 =>
    rw [renderAttrs, renderAttr] at hc
    simp only [List.cons_append, List.append_assoc, List.head?_cons] at hc
    have h2 : c = ' ' := by injection hc with h4; exact h4.symm
    subst h2
    decide

/-- The `<p>` to `<q>` abbreviation pass, token by token. -/
theorem replaceStart_renderToks (p q : List Char) (hpne : p ≠ [])
    (hp : ∀ c ∈ p, isNameChar c = true) (ts : List Tok) :
    ∀ fuel, (∀ t ∈ ts, TokNameOK t) → (renderToks ts).length ≤ fuel →
      replaceAllF ('<' :: (p ++ ['>'])) ('<' :: (q ++ ['>'])) fuel
        (renderToks ts) = renderToks (ts.map (renameStart p q)) := by
  induction ts with
  | nil =>
    intro fuel _ _
    cases fuel with
    | zero => rfl
    | succ f => rfl
  | cons t rest ih =>
    intro fuel h hf
    have ht := h t (List.mem_cons_self _ _)
    have hrest := fun u hu => h u (List.mem_cons_of_mem _ hu)
    rw [renderToks] at hf ⊢
    rw [List.length_append] at hf
    rw [List.map_cons, renderToks]
    cases t with
    | comment a => exact ht.elim
    | text a =>
      rw [show renderTok (Tok.text a) = escText a from rfl] at hf ⊢
      rw [show renameStart p q (Tok.text a) = Tok.text a from rfl,
        show renderTok (Tok.text a) = escText a from rfl]
      rw [show fuel = (fuel - (escText a).length) + (escText a).length from by omega]
      rw [replaceAllF_copy ('<' :: (p ++ ['>'])) ('<' :: (q ++ ['>'])) rfl
        (escText a) (renderToks rest) _
        (fun h2 => by
          rcases he : escText a with _ | ⟨e, es⟩
          · exact absurd he h2
          · rw [List.cons_append]
            exact pat_not_prefix_ne ('<' :: (p ++ ['>'])) rfl e
              (escText_no_lt a e (he ▸ List.mem_cons_self e es)) _)
        (fun d hd => escText_no_lt a d (List.mem_of_mem_tail hd))]
      rw [ih _ hrest (by omega)]
    | endTag n =>
      rw [show renderTok (Tok.endTag n) = '<' :: '/' :: n ++ ['>'] from rfl] at hf ⊢
      rw [show renameStart p q (Tok.endTag n) = Tok.endTag n from rfl,
        show renderTok (Tok.endTag n) = '<' :: '/' :: n ++ ['>'] from rfl]
      rw [show fuel = (fuel - ('<' :: '/' :: n ++ ['>']).length) +
        ('<' :: '/' :: n ++ ['>']).length from by omega]
      rw [replaceAllF_copy ('<' :: (p ++ ['>'])) ('<' :: (q ++ ['>'])) rfl
        _ (renderToks rest) _
        (fun _ => by
          rw [show ('<' :: '/' :: n ++ ['>']) ++ renderToks rest =
            '<' :: ('/' :: (n ++ ('>' :: renderToks rest))) from by simp]
          rw [isPrefixOf_cons2]
          rcases hpp : p with _ | ⟨p0, p2⟩
          · exact absurd hpp hpne
          rw [List.cons_append, isPrefixOf_cons2]
          have h0 : p0 ≠ '/' := by
            intro he
            have h1 := hp p0 (by rw [hpp]; exact List.mem_cons_self _ _)
            rw [he] at h1
            exact absurd h1 (by decide)
          rw [beq_eq_false_iff_ne.mpr h0]
          simp)
        (fun d hd => by
          have hd2 : d ∈ '/' :: n ++ ['>'] := by
            rw [show ('<' :: '/' :: n ++ ['>']) = '<' :: ('/' :: n ++ ['>']) from by
              simp] at hd
            exact hd
          rcases List.mem_cons.mp hd2 with h2 | h2
          · subst h2; decide
          rcases List.mem_append.mp h2 with h3 | h3
          · intro he
            subst he
            have := ht _ h3
            exact absurd this (by decide)
          · simp only [List.mem_singleton] at h3
            subst h3
            decide)]
      rw [ih _ hrest (by omega)]
    | startTag n attrs sc =>
      obtain ⟨hnne, hn, hattrs⟩ := ht
      rw [show renderTok (Tok.startTag n attrs sc) =
        '<' :: n ++ renderAttrs attrs ++ (if sc then ['/', '>'] else ['>']) from rfl] at hf ⊢
      by_cases hmatch : n = p ∧ attrs = [] ∧ sc = false
      · obtain ⟨hnp, hae, hsf⟩ := hmatch
        subst hnp
        subst hae
        subst hsf
        have hre : renameStart n q (Tok.startTag n [] false) = Tok.startTag q [] false := by
          show (if n = n ∧ ([] : List Attr) = [] ∧ (false : Bool) = false then
            Tok.startTag q [] false else Tok.startTag n [] false) = Tok.startTag q [] false
          rw [if_pos ⟨rfl, rfl, rfl⟩]
        rw [hre]
        have hch : ('<' :: n ++ renderAttrs [] ++
            (if (false : Bool) then ['/', '>'] else ['>'])) ++ renderToks rest =
            ('<' :: (n ++ ['>'])) ++ renderToks rest := by
          simp [renderAttrs]
        rw [hch]
        cases fuel with
        | zero =>
          exfalso
          simp only [List.length_append, List.length_cons] at hf
          omega
        | succ f =>
          rw [show ('<' :: (n ++ ['>'])) ++ renderToks rest =
            '<' :: ((n ++ ['>']) ++ renderToks rest) from rfl]
          rw [replaceAllF_cons]
          rw [if_pos (by
            rw [show '<' :: ((n ++ ['>']) ++ renderToks rest) =
              ('<' :: (n ++ ['>'])) ++ renderToks rest from rfl]
            exact isPrefixOf_self_append _ _)]
          rw [show '<' :: ((n ++ ['>']) ++ renderToks rest) =
            ('<' :: (n ++ ['>'])) ++ renderToks rest from rfl]
          rw [List.drop_left]
          rw [ih f hrest (by
            simp only [List.length_append, List.length_cons] at hf
            omega)]
          rw [show renderTok (Tok.startTag q [] false) =
            '<' :: q ++ renderAttrs [] ++ ['>'] from rfl]
          simp [renderAttrs]
      · have hre : renameStart p q (Tok.startTag n attrs sc) = Tok.startTag n attrs sc := by
          show (if n = p ∧ attrs = [] ∧ sc = false then
            Tok.startTag q attrs sc else Tok.startTag n attrs sc) = Tok.startTag n attrs sc
          rw [if_neg hmatch]
        rw [hre]
        rw [show renderTok (Tok.startTag n attrs sc) =
          '<' :: n ++ renderAttrs attrs ++ (if sc then ['/', '>'] else ['>']) from rfl]
        rw [show fuel = (fuel - ('<' :: n ++ renderAttrs attrs ++
          (if sc then ['/', '>'] else ['>'])).length) + ('<' :: n ++ renderAttrs attrs ++
          (if sc then ['/', '>'] else ['>'])).length from by omega]
        rw [replaceAllF_copy ('<' :: (p ++ ['>'])) ('<' :: (q ++ ['>'])) rfl
          _ (renderToks rest) _
          (fun _ => by
            rw [show ('<' :: n ++ renderAttrs attrs ++
              (if sc then ['/', '>'] else ['>'])) ++ renderToks rest =
              '<' :: (n ++ (renderAttrs attrs ++
                ((if sc then ['/', '>'] else ['>']) ++ renderToks rest))) from by simp]
            rw [isPrefixOf_cons2]
            rw [pgt_isPrefix p n _ hp hn (renderRestR_head attrs sc (renderToks rest))]
            by_cases hnp : n = p
            · subst hnp
              have hae : ¬(attrs = [] ∧ sc = false) := by
                intro h2
                exact hmatch ⟨rfl, h2.1, h2.2⟩
              cases attrs with
              | cons a attrs2 =>
                rw [show (renderAttrs (a :: attrs2) ++
                  ((if sc then ['/', '>'] else ['>']) ++ renderToks rest)).head? =
                  some ' ' from by
                    rw [renderAttrs, renderAttr]
                    simp]
                simp
              | nil =>
                cases sc with
                | false => exact absurd ⟨rfl, rfl⟩ hae
                | true =>
                  rw [show (renderAttrs [] ++
                    ((if (true : Bool) then ['/', '>'] else ['>']) ++
                      renderToks rest)).head? = some '/' from by
                      rw [renderAttrs]
                      simp]
                  simp
            · rw [decide_eq_false hnp]
              simp)
          (fun d hd => by
            have hd2 : d ∈ n ++ renderAttrs attrs ++ (if sc then ['/', '>'] else ['>']) := by
              rw [show ('<' :: n ++ renderAttrs attrs ++
                (if sc then ['/', '>'] else ['>'])) = '<' :: (n ++ renderAttrs attrs ++
                (if sc then ['/', '>'] else ['>'])) from by simp] at hd
              exact hd
            exact startTag_tail_no_lt n attrs sc hn hattrs d hd2)]
        rw [ih _ hrest (by omega)]

/-- Unfolding equation of `collapseF` on a cons cell. -/
theorem collapseF_cons (f : Nat) (c : Char) (cs : List Char) :
    collapseF (f + 1) (c :: cs) =
      if c = '>' then
        if !(cs.takeWhile isWs).isEmpty && (cs.dropWhile isWs).head? = some '<' then
          '>' :: '<' :: collapseF f (cs.dropWhile isWs).tail
        else '>' :: collapseF f cs
      else c :: collapseF f cs := rfl

/-- `collapseF` copies a `>`-free chunk. -/
theorem collapseF_copy :
    ∀ (u y : List Char) (fuel : Nat), (∀ c ∈ u, c ≠ '>') →
      collapseF (fuel + u.length) (u ++ y) = u ++ collapseF fuel y := by
  intro u
  induction u with
  | nil => intro y fuel _; rfl
  | cons c u2 ih =>
    intro y fuel hu
    rw [List.cons_append, List.length_cons, ← Nat.add_assoc, collapseF_cons,
      if_neg (hu c (List.mem_cons_self _ _)),
      ih y fuel (fun d hd => hu d (List.mem_cons_of_mem _ hd))]
    rfl

/-- A whitespace character escapes to itself. -/
theorem escTextChar_ws (c : Char) (h : isWs c = true) : escTextChar c = [c] := by
  unfold isWs at h
  simp only [Bool.or_eq_true, decide_eq_true_eq] at h
  rcases h with ((((h | h) | h) | h) | h) | h <;> subst h <;> rfl

/-- Escaping fixes an all-whitespace text. -/
theorem escText_ws (w : List Char) (h : ∀ c ∈ w, isWs c = true) : escText w = w := by
  induction w with
  | nil => rfl
  | cons c cs ih =>
    rw [escText, escTextChar_ws c (h c (List.mem_cons_self _ _)),
      ih (fun d hd => h d (List.mem_cons_of_mem _ hd))]
    rfl

/-- The head of a nonempty escaped text is neither whitespace when the
source head is not, nor `<`. -/
theorem escText_head (w : List Char) (hne : w ≠ [])
    (hW : ∀ c, w.head? = some c → isWs c = false) :
    ∀ c, (escText w).head? = some c → isWs c = false ∧ c ≠ '<' := by
  rcases w with _ | ⟨c0, w2⟩
  · exact absurd rfl hne
  intro c hc
  have h0 : isWs c0 = false := hW c0 rfl
  rw [escText] at hc
  unfold escTextChar at hc
  by_cases h1 : c0 = '&'
  · rw [if_pos h1] at hc
    have h2 : c = '&' := by injection hc with h4; exact h4.symm
    subst h2
    exact ⟨by decide, by decide⟩
  · rw [if_neg h1] at hc
    by_cases h2 : c0 = '<'
    · rw [if_pos h2] at hc
      have h3 : c = '&' := by injection hc with h4; exact h4.symm
      subst h3
      exact ⟨by decide, by decide⟩
    · by_cases h3 : c0 = '>'
      · rw [if_neg h2, if_pos h3] at hc
        have h4 : c = '&' := by injection hc with h5; exact h5.symm
        subst h4
        exact ⟨by decide, by decide⟩
      · rw [if_neg h2, if_neg h3] at hc
        have h4 : c = c0 := by injection hc with h5; exact h5.symm
        subst h4
        exact ⟨h0, h2⟩

/-- A start or end tag serializes as `<`, its interior, `>`. -/
theorem renderTok_decomp (t : Tok) (h : isTextTok t = false) (hcm : TokWF t) :
    renderTok t = '<' :: (tagFront t ++ ['>']) := by
  cases t with
  | text a => simp [isTextTok] at h
  | comment a => exact hcm.elim
  | startTag n attrs sc =>
    rw [show renderTok (Tok.startTag n attrs sc) =
      '<' :: n ++ renderAttrs attrs ++ (if sc then ['/', '>'] else ['>']) from rfl,
      show tagFront (Tok.startTag n attrs sc) =
      n ++ renderAttrs attrs ++ (if sc then ['/'] else []) from rfl]
    cases sc with
    | false => simp
    | true => simp
  | endTag n =>
    rw [show renderTok (Tok.endTag n) = '<' :: '/' :: n ++ ['>'] from rfl,
      show tagFront (Tok.endTag n) = '/' :: n from rfl]
    simp

/-- The interior of a well-formed tag has no `>`. -/
theorem tagFront_no_gt (t : Tok) (hcm : TokWF t) : ∀ c ∈ tagFront t, c ≠ '>' := by
  cases t with
  | text a => intro c hc; simp [tagFront] at hc
  | comment a => exact hcm.elim
  | endTag n =>
    intro c hc
    rcases List.mem_cons.mp hc with h2 | h2
    · subst h2; decide
    · exact (hcm.2 c h2).1
  | startTag n attrs sc =>
    obtain ⟨⟨hchars, _⟩, hattrs, _⟩ := hcm
    intro c hc
    rcases List.mem_append.mp hc with h2 | h2
    · rcases List.mem_append.mp h2 with h3 | h3
      · intro he
        subst he
        have := (hchars _ h3).1
        exact absurd this (by decide)
      · rcases mem_renderAttrs attrs c h3 with h4 | h4 | h4 | ⟨a, ha, h4⟩ | ⟨a, ha, h4⟩
        · subst h4; decide
        · subst h4; decide
        · subst h4; decide
        · exact (hattrs a ha).2 c h4 |>.2.2.1
        · exact (escAttr_chars _ c h4).2.1
    · cases sc with
      | false => simp at h2
      | true =>
        have h3 : c = '/' := by simpa using h2
        subst h3
        decide

/-- `takeWhile`/`dropWhile` on a list satisfying the predicate
everywhere. -/
theorem takeWhile_all (p : Char → Bool) (w : List Char) (h : ∀ c ∈ w, p c = true) :
    w.takeWhile p = w ∧ w.dropWhile p = [] := by
  induction w with
  | nil => exact ⟨rfl, rfl⟩
  | cons c cs ih =>
    obtain ⟨h1, h2⟩ := ih (fun d hd => h d (List.mem_cons_of_mem _ hd))
    rw [List.takeWhile_cons, List.dropWhile_cons, if_pos (h c (List.mem_cons_self _ _)),
      if_pos (h c (List.mem_cons_self _ _)), h1]
    exact ⟨rfl, h2⟩

/-- The head of `dropWhile` fails the predicate. -/
theorem dropWhile_head (p : Char → Bool) (w : List Char) :
    ∀ c, (w.dropWhile p).head? = some c → p c = false := by
  induction w with
  | nil => intro c hc; exact Option.noConfusion hc
  | cons d cs ih =>
    intro c hc
    rw [List.dropWhile_cons] at hc
    by_cases h : p d = true
    · rw [if_pos h] at hc
      exact ih c hc
    · rw [if_neg h, List.head?_cons] at hc
      have h2 : c = d := by injection hc with h4; exact h4.symm
      subst h2
      exact Bool.not_eq_true _ |>.mp h

/-- Non-text tokens are not whitespace texts. -/
theorem wsText_of_not_text (t : Tok) (h : isTextTok t = false) : wsText t = false := by
  cases t with
  | text a => simp [isTextTok] at h
  | comment a => rfl
  | startTag n attrs sc => rfl
  | endTag n => rfl

/-- Unfolding equation of `collapseGo`. -/
theorem collapseGo_cons (t : Tok) (ts : List Tok) :
    collapseGo (t :: ts) =
      if wsText t = true ∧ ts ≠ [] then collapseGo ts else t :: collapseGo ts := rfl

/-- `collapseF` fixes a `>`-free string outright. -/
theorem collapseF_no_gt (u : List Char) (h : ∀ c ∈ u, c ≠ '>') :
    ∀ fuel, collapseF fuel u = u := by
  induction u with
  | nil => intro fuel; cases fuel <;> rfl
  | cons c cs ih =>
    intro fuel
    cases fuel with
    | zero => rfl
    | succ f =>
      rw [collapseF_cons, if_neg (h c (List.mem_cons_self _ _)),
        ih (fun d hd => h d (List.mem_cons_of_mem _ hd)) f]

/-- Head of an append with nonempty first part. -/
theorem head?_append_left (a b : List Char) (h : a ≠ []) :
    (a ++ b).head? = a.head? := by
  cases a with
  | nil => exact absurd rfl h
  | cons c cs => rfl

/-- The worker of the collapse pass: processing a pending `>` followed by
the rendered rest of the stream. -/
theorem collapseGo_renderToks :
    ∀ (fuel : Nat) (ts : List Tok), ToksWF ts → (renderToks ts).length + 1 ≤ fuel →
      collapseF fuel ('>' :: renderToks ts) = '>' :: renderToks (collapseGo ts) := by
  intro fuel
  induction fuel using Nat.strong_induction_on with
  | _ fuel ihf =>
    intro ts hwf hf
    cases fuel with
    | zero => omega
    | succ f =>
    rw [collapseF_cons, if_pos rfl]
    cases ts with
    | nil =>
      rw [show renderToks ([] : List Tok) = [] from rfl] at hf ⊢
      rw [if_neg (by simp)]
      rw [show collapseF f [] = [] from by cases f <;> rfl]
      rfl
    | cons t rest =>
      have ht := hwf.1 t (List.mem_cons_self _ _)
      have hwfr : ToksWF rest := ToksWF_tail _ _ hwf
      cases t with
      | comment a => exact ht.elim
      | text w =>
        have hnext : ∀ u rest2, rest = u :: rest2 → isTextTok u = false := by
          intro u rest2 he
          have hch := hwf.2
          subst he
          rw [List.chain'_cons] at hch
          cases hcase : isTextTok u with
          | false => rfl
          | true => exact absurd ⟨rfl, hcase⟩ hch.1
        have hwne : w ≠ [] := ht
        rw [renderToks, show renderTok (Tok.text w) = escText w from rfl] at hf ⊢
        by_cases hws : ∀ c ∈ w, isWs c = true
        · -- all-whitespace text
          rw [escText_ws w hws] at hf ⊢
          have hwsT : wsText (Tok.text w) = true := by
            show (!w.isEmpty && w.all isWs) = true
            rw [List.all_eq_true.mpr hws]
            simp [hwne]
          cases rest with
          | nil =>
            rw [show renderToks ([] : List Tok) = [] from rfl, List.append_nil] at hf ⊢
            obtain ⟨ht1, hd1⟩ := takeWhile_all isWs w hws
            rw [if_neg (by rw [ht1, hd1]; simp)]
            rw [collapseF_no_gt w (fun c hc => by
              intro he
              subst he
              exact absurd (hws _ hc) (by decide)) f]
            rw [collapseGo_cons, if_neg (by simp)]
            rw [renderToks, show renderTok (Tok.text w) = escText w from rfl,
              escText_ws w hws,
              show renderToks (collapseGo ([] : List Tok)) = [] from rfl, List.append_nil]
          | cons t2 rest2 =>
            have ht2 : isTextTok t2 = false := hnext t2 rest2 rfl
            have hcm2 : TokWF t2 := hwfr.1 t2 (List.mem_cons_self _ _)
            have hwfr2 : ToksWF rest2 := ToksWF_tail _ _ hwfr
            rw [renderToks, renderTok_decomp t2 ht2 hcm2] at hf ⊢
            rw [show w ++ (('<' :: (tagFront t2 ++ ['>'])) ++ renderToks rest2) =
              w ++ ('<' :: ((tagFront t2 ++ ['>']) ++ renderToks rest2)) from by simp] at hf ⊢
            obtain ⟨ht1, hd1⟩ := takeWhile_append_all isWs w
              ('<' :: ((tagFront t2 ++ ['>']) ++ renderToks rest2)) hws
              (fun c hc => by
                have h2 : c = '<' := by injection hc with h4; exact h4.symm
                subst h2
                decide)
            rw [if_pos (by
              rw [ht1, hd1]
              simp [hwne])]
            rw [hd1, List.tail_cons]
            rw [show (tagFront t2 ++ ['>']) ++ renderToks rest2 =
              tagFront t2 ++ ('>' :: renderToks rest2) from by simp]
            simp only [List.length_append, List.length_cons] at hf
            rw [show f = (f - (tagFront t2).length) + (tagFront t2).length from by omega]
            rw [collapseF_copy (tagFront t2) ('>' :: renderToks rest2) _
              (tagFront_no_gt t2 hcm2)]
            rw [ihf (f - (tagFront t2).length) (by omega) rest2 hwfr2 (by omega)]
            rw [collapseGo_cons, if_pos ⟨hwsT, by simp⟩]
            rw [collapseGo_cons, if_neg (by
              rw [wsText_of_not_text t2 ht2]
              simp)]
            rw [renderToks, renderTok_decomp t2 ht2 hcm2]
            simp
        · -- text with a non-whitespace character
          have hwsT : wsText (Tok.text w) = false := by
            show (!w.isEmpty && w.all isWs) = false
            have h2 : w.all isWs = false := by
              cases hcase : w.all isWs with
              | false => rfl
              | true => exact absurd (fun c hc => List.all_eq_true.mp hcase c hc) hws
            rw [h2]
            simp
          have hsplit : w.takeWhile isWs ++ w.dropWhile isWs = w :=
            List.takeWhile_append_dropWhile isWs w
          have hw2ne : w.dropWhile isWs ≠ [] := by
            intro he
            apply hws
            intro c hc
            rw [← hsplit, he, List.append_nil] at hc
            exact List.mem_takeWhile_imp hc
          have hw1ws : ∀ c ∈ w.takeWhile isWs, isWs c = true :=
            fun c hc => List.mem_takeWhile_imp hc
          have hesc : escText w = w.takeWhile isWs ++ escText (w.dropWhile isWs) := by
            conv_lhs => rw [← hsplit]
            rw [escText_append, escText_ws _ hw1ws]
          have hehead : ∀ c, (escText (w.dropWhile isWs)).head? = some c →
              isWs c = false ∧ c ≠ '<' :=
            escText_head _ hw2ne (dropWhile_head isWs w)
          have hene : escText (w.dropWhile isWs) ≠ [] := escText_ne_nil _ hw2ne
          rw [hesc]
          rw [show (w.takeWhile isWs ++ escText (w.dropWhile isWs)) ++ renderToks rest =
            w.takeWhile isWs ++ (escText (w.dropWhile isWs) ++ renderToks rest) from by
              simp]
          obtain ⟨ht1, hd1⟩ := takeWhile_append_all isWs (w.takeWhile isWs)
            (escText (w.dropWhile isWs) ++ renderToks rest) hw1ws
            (fun c hc => by
              rw [head?_append_left _ _ hene] at hc
              exact (hehead c hc).1)
          rw [if_neg (by
            rw [ht1, hd1]
            intro hcon
            have h2 := (Bool.and_eq_true _ _).mp hcon
            have h3 := of_decide_eq_true h2.2
            rw [head?_append_left _ _ hene] at h3
            exact (hehead _ h3).2 rfl)]
          rw [show w.takeWhile isWs ++ (escText (w.dropWhile isWs) ++ renderToks rest) =
            (w.takeWhile isWs ++ escText (w.dropWhile isWs)) ++ renderToks rest from by
              simp, ← hesc]
          cases rest with
          | nil =>
            rw [show renderToks ([] : List Tok) = [] from rfl, List.append_nil] at hf ⊢
            rw [collapseF_no_gt (escText w) (fun c hc => escText_no_gt w c hc) f]
            rw [collapseGo_cons, if_neg (by simp)]
            rw [renderToks, show renderTok (Tok.text w) = escText w from rfl,
              show renderToks (collapseGo ([] : List Tok)) = [] from rfl, List.append_nil]
          | cons t2 rest2 =>
            have ht2 : isTextTok t2 = false := hnext t2 rest2 rfl
            have hcm2 : TokWF t2 := hwfr.1 t2 (List.mem_cons_self _ _)
            have hwfr2 : ToksWF rest2 := ToksWF_tail _ _ hwfr
            rw [renderToks, renderTok_decomp t2 ht2 hcm2] at hf ⊢
            rw [show escText w ++ (('<' :: (tagFront t2 ++ ['>'])) ++ renderToks rest2) =
              (escText w ++ ('<' :: tagFront t2)) ++ ('>' :: renderToks rest2) from by
                simp]
            simp only [List.length_append, List.length_cons] at hf
            rw [show f = (f - (escText w ++ ('<' :: tagFront t2)).length) +
              (escText w ++ ('<' :: tagFront t2)).length from by
                simp only [List.length_append, List.length_cons]
                omega]
            rw [collapseF_copy (escText w ++ ('<' :: tagFront t2)) ('>' :: renderToks rest2) _
              (fun c hc => by
                rcases List.mem_append.mp hc with h2 | h2
                · exact escText_no_gt w c h2
                rcases List.mem_cons.mp h2 with h3 | h3
                · subst h3; decide
                · exact tagFront_no_gt t2 hcm2 c h3)]
            rw [ihf (f - (escText w ++ ('<' :: tagFront t2)).length)
              (by omega) rest2 hwfr2
              (by
                simp only [List.length_append, List.length_cons]
                omega)]
            rw [collapseGo_cons, if_neg (by rw [hwsT]; simp)]
            rw [collapseGo_cons, if_neg (by
              rw [wsText_of_not_text t2 ht2]
              simp)]
            rw [renderToks, show renderTok (Tok.text w) = escText w from rfl,
              renderToks, renderTok_decomp t2 ht2 hcm2]
            simp
      | startTag n attrs sc =>
        have htx : isTextTok (Tok.startTag n attrs sc) = false := rfl
        rw [renderToks, renderTok_decomp _ htx ht] at hf ⊢
        rw [show ('<' :: (tagFront (Tok.startTag n attrs sc) ++ ['>'])) ++ renderToks rest =
          '<' :: ((tagFront (Tok.startTag n attrs sc) ++ ['>']) ++ renderToks rest) from by
            simp] at hf ⊢
        rw [if_neg (by
          rw [List.takeWhile_cons, if_neg (by decide)]
          simp)]
        rw [show (tagFront (Tok.startTag n attrs sc) ++ ['>']) ++ renderToks rest =
          tagFront (Tok.startTag n attrs sc) ++ ('>' :: renderToks rest) from by simp] at hf ⊢
        rw [show '<' :: (tagFront (Tok.startTag n attrs sc) ++ ('>' :: renderToks rest)) =
          ('<' :: tagFront (Tok.startTag n attrs sc)) ++ ('>' :: renderToks rest) from rfl]
        simp only [List.length_cons, List.length_append] at hf
        rw [show f = (f - ('<' :: tagFront (Tok.startTag n attrs sc)).length) +
          ('<' :: tagFront (Tok.startTag n attrs sc)).length from by
            simp only [List.length_cons]
            omega]
        rw [collapseF_copy ('<' :: tagFront (Tok.startTag n attrs sc)) _ _
          (fun c hc => by
            rcases List.mem_cons.mp hc with h2 | h2
            · subst h2; decide
            · exact tagFront_no_gt _ ht c h2)]
        rw [ihf _ (by omega) rest hwfr (by
          simp only [List.length_cons]
          omega)]
        rw [collapseGo_cons, if_neg (by
          rw [wsText_of_not_text _ htx]
          simp)]
        rw [renderToks, renderTok_decomp _ htx ht]
        simp
      | endTag n =>
        have htx : isTextTok (Tok.endTag n) = false := rfl
        rw [renderToks, renderTok_decomp _ htx ht] at hf ⊢
        rw [show ('<' :: (tagFront (Tok.endTag n) ++ ['>'])) ++ renderToks rest =
          '<' :: ((tagFront (Tok.endTag n) ++ ['>']) ++ renderToks rest) from by
            simp] at hf ⊢
        rw [if_neg (by
          rw [List.takeWhile_cons, if_neg (by decide)]
          simp)]
        rw [show (tagFront (Tok.endTag n) ++ ['>']) ++ renderToks rest =
          tagFront (Tok.endTag n) ++ ('>' :: renderToks rest) from by simp] at hf ⊢
        rw [show '<' :: (tagFront (Tok.endTag n) ++ ('>' :: renderToks rest)) =
          ('<' :: tagFront (Tok.endTag n)) ++ ('>' :: renderToks rest) from rfl]
        simp only [List.length_cons, List.length_append] at hf
        rw [show f = (f - ('<' :: tagFront (Tok.endTag n)).length) +
          ('<' :: tagFront (Tok.endTag n)).length from by
            simp only [List.length_cons]
            omega]
        rw [collapseF_copy ('<' :: tagFront (Tok.endTag n)) _ _
          (fun c hc => by
            rcases List.mem_cons.mp hc with h2 | h2
            · subst h2; decide
            · exact tagFront_no_gt _ ht c h2)]
        rw [ihf _ (by omega) rest hwfr (by
          simp only [List.length_cons]
          omega)]
        rw [collapseGo_cons, if_neg (by
          rw [wsText_of_not_text _ htx]
          simp)]
        rw [renderToks, renderTok_decomp _ htx ht]
        simp

/-- The collapse pass at token level: from the rendered stream to the
rendering of the collapsed stream. -/
theorem collapse_renderToks (ts : List Tok) (hwf : ToksWF ts) (fuel : Nat)
    (hf : (renderToks ts).length ≤ fuel) :
    collapseF fuel (renderToks ts) = renderToks (collapseTok ts) := by
  cases ts with
  | nil =>
    rw [show renderToks ([] : List Tok) = [] from rfl]
    cases fuel <;> rfl
  | cons t rest =>
    have ht := hwf.1 t (List.mem_cons_self _ _)
    have hwfr := ToksWF_tail t rest hwf
    cases t with
    | comment a => exact ht.elim
    | text w =>
      rw [renderToks, show renderTok (Tok.text w) = escText w from rfl] at hf ⊢
      have hctok : collapseTok (Tok.text w :: rest) = Tok.text w :: collapseGo rest := by
        show (if wsText (Tok.text w) = true then Tok.text w :: collapseGo rest
          else collapseGo (Tok.text w :: rest)) = Tok.text w :: collapseGo rest
        by_cases h2 : wsText (Tok.text w) = true
        · rw [if_pos h2]
        · rw [if_neg h2, collapseGo_cons, if_neg (by
            intro hcon
            exact h2 hcon.1)]
      rw [hctok]
      cases rest with
      | nil =>
        rw [show renderToks ([] : List Tok) = [] from rfl, List.append_nil] at hf ⊢
        rw [collapseF_no_gt (escText w) (escText_no_gt w) fuel]
        rw [show collapseGo ([] : List Tok) = [] from rfl, renderToks,
          show renderTok (Tok.text w) = escText w from rfl, renderToks, List.append_nil]
      | cons t2 rest2 =>
        have ht2 : isTextTok t2 = false := by
          have hch := hwf.2
          rw [List.chain'_cons] at hch
          cases hcase : isTextTok t2 with
          | false => rfl
          | true => exact absurd ⟨rfl, hcase⟩ hch.1
        have hcm2 : TokWF t2 := hwfr.1 t2 (List.mem_cons_self _ _)
        have hwfr2 : ToksWF rest2 := ToksWF_tail _ _ hwfr
        rw [renderToks, renderTok_decomp t2 ht2 hcm2] at hf ⊢
        rw [show escText w ++ (('<' :: (tagFront t2 ++ ['>'])) ++ renderToks rest2) =
          (escText w ++ ('<' :: tagFront t2)) ++ ('>' :: renderToks rest2) from by simp]
        simp only [List.length_append, List.length_cons] at hf
        rw [show fuel = (fuel - (escText w ++ ('<' :: tagFront t2)).length) +
          (escText w ++ ('<' :: tagFront t2)).length from by
            simp only [List.length_append, List.length_cons]
            omega]
        rw [collapseF_copy (escText w ++ ('<' :: tagFront t2)) ('>' :: renderToks rest2) _
          (fun c hc => by
            rcases List.mem_append.mp hc with h2 | h2
            · exact escText_no_gt w c h2
            rcases List.mem_cons.mp h2 with h3 | h3
            · subst h3; decide
            · exact tagFront_no_gt t2 hcm2 c h3)]
        rw [collapseGo_renderToks _ rest2 hwfr2 (by
          simp only [List.length_append, List.length_cons]
          omega)]
        rw [collapseGo_cons, if_neg (by rw [wsText_of_not_text t2 ht2]; simp)]
        rw [renderToks, show renderTok (Tok.text w) = escText w from rfl,
          renderToks, renderTok_decomp t2 ht2 hcm2]
        simp
    | startTag n attrs sc =>
      have htx : isTextTok (Tok.startTag n attrs sc) = false := rfl
      rw [renderToks, renderTok_decomp _ htx ht] at hf ⊢
      have hctok : collapseTok (Tok.startTag n attrs sc :: rest) = Tok.startTag n attrs sc :: collapseGo rest := by
        show (if wsText (Tok.startTag n attrs sc) = true then Tok.startTag n attrs sc :: collapseGo rest
          else collapseGo (Tok.startTag n attrs sc :: rest)) = Tok.startTag n attrs sc :: collapseGo rest
        rw [if_neg (by rw [wsText_of_not_text _ htx]; exact Bool.false_ne_true),
          collapseGo_cons, if_neg (by rw [wsText_of_not_text _ htx]; simp)]
      rw [hctok]
      rw [show ('<' :: (tagFront (Tok.startTag n attrs sc) ++ ['>'])) ++ renderToks rest =
        ('<' :: tagFront (Tok.startTag n attrs sc)) ++ ('>' :: renderToks rest) from by simp]
      simp only [List.length_append, List.length_cons] at hf
      rw [show fuel = (fuel - ('<' :: tagFront (Tok.startTag n attrs sc)).length) +
        ('<' :: tagFront (Tok.startTag n attrs sc)).length from by
          simp only [List.length_cons]
          omega]
      rw [collapseF_copy ('<' :: tagFront (Tok.startTag n attrs sc)) ('>' :: renderToks rest) _
        (fun c hc => by
          rcases List.mem_cons.mp hc with h2 | h2
          · subst h2; decide
          · exact tagFront_no_gt _ ht c h2)]
      rw [collapseGo_renderToks _ rest hwfr (by
        simp only [List.length_cons]
        omega)]
      rw [renderToks, renderTok_decomp _ htx ht]
      simp
    | endTag n =>
      have htx : isTextTok (Tok.endTag n) = false := rfl
      rw [renderToks, renderTok_decomp _ htx ht] at hf ⊢
      have hctok : collapseTok (Tok.endTag n :: rest) = Tok.endTag n :: collapseGo rest := by
        show (if wsText (Tok.endTag n) = true then Tok.endTag n :: collapseGo rest
          else collapseGo (Tok.endTag n :: rest)) = Tok.endTag n :: collapseGo rest
        rw [if_neg (by rw [wsText_of_not_text _ htx]; exact Bool.false_ne_true),
          collapseGo_cons, if_neg (by rw [wsText_of_not_text _ htx]; simp)]
      rw [hctok]
      rw [show ('<' :: (tagFront (Tok.endTag n) ++ ['>'])) ++ renderToks rest =
        ('<' :: tagFront (Tok.endTag n)) ++ ('>' :: renderToks rest) from by simp]
      simp only [List.length_append, List.length_cons] at hf
      rw [show fuel = (fuel - ('<' :: tagFront (Tok.endTag n)).length) +
        ('<' :: tagFront (Tok.endTag n)).length from by
          simp only [List.length_cons]
          omega]
      rw [collapseF_copy ('<' :: tagFront (Tok.endTag n)) ('>' :: renderToks rest) _
        (fun c hc => by
          rcases List.mem_cons.mp hc with h2 | h2
          · subst h2; decide
          · exact tagFront_no_gt _ ht c h2)]
      rw [collapseGo_renderToks _ rest hwfr (by
        simp only [List.length_cons]
        omega)]
      rw [renderToks, renderTok_decomp _ htx ht]
      simp

/-- The last character of a one-character escape. -/
theorem escTextChar_last (c d : Char) (hd : ((escTextChar c).reverse).head? = some d) :
    d = ';' ∨ d = c := by
  unfold escTextChar at hd
  by_cases h1 : c = '&'
  · rw [if_pos h1] at hd
    left
    injection hd with h4
    exact h4.symm
  · rw [if_neg h1] at hd
    by_cases h2 : c = '<'
    · rw [if_pos h2] at hd
      left
      injection hd with h4
      exact h4.symm
    · rw [if_neg h2] at hd
      by_cases h3 : c = '>'
      · rw [if_pos h3] at hd
        left
        injection hd with h4
        exact h4.symm
      · rw [if_neg h3] at hd
        right
        injection hd with h4
        exact h4.symm

/-- Escaping distributes over `reverse`-head: the last character of an
escaped text whose source ends in a non-whitespace character is not
whitespace. -/
theorem escText_last (u : List Char) (hne : u ≠ [])
    (hL : ∀ c, (u.reverse).head? = some c → isWs c = false) :
    ∀ d, ((escText u).reverse).head? = some d → isWs d = false := by
  intro d hd
  rcases hu : u.reverse with _ | ⟨cl, urev⟩
  · exact absurd (by
      have := congrArg List.reverse hu
      rwa [List.reverse_reverse] at this) hne
  have hcl : isWs cl = false := hL cl (by rw [hu]; rfl)
  have hu2 : u = urev.reverse ++ [cl] := by
    have := congrArg List.reverse hu
    rwa [List.reverse_reverse, List.reverse_cons] at this
  rw [hu2, escText_append] at hd
  rw [show escText [cl] = escTextChar cl ++ escText [] from rfl,
    show escText [] = ([] : List Char) from rfl, List.append_nil] at hd
  rw [List.reverse_append] at hd
  have hecne : (escTextChar cl).reverse ≠ [] := by
    intro he
    have := congrArg List.reverse he
    rw [List.reverse_reverse] at this
    exact escTextChar_ne_nil cl this
  rw [head?_append_left _ _ hecne] at hd
  rcases escTextChar_last cl d hd with h2 | h2
  · subst h2
    decide
  · subst h2
    exact hcl

/-- `dropWhile` skips a fully-satisfying prefix. -/
theorem dropWhile_append_all (p : Char → Bool) (a b : List Char)
    (h : ∀ c ∈ a, p c = true) : (a ++ b).dropWhile p = b.dropWhile p := by
  induction a with
  | nil => rfl
  | cons c cs ih =>
    rw [List.cons_append, List.dropWhile_cons, if_pos (h c (List.mem_cons_self _ _))]
    exact ih (fun d hd => h d (List.mem_cons_of_mem _ hd))

/-- `dropWsL` through an append. -/
theorem dropWsL_append (a b : List Char) :
    dropWsL (a ++ b) = if dropWsL a = [] then dropWsL b else dropWsL a ++ b := by
  induction a with
  | nil =>
    rw [List.nil_append, show dropWsL ([] : List Char) = [] from rfl, if_pos rfl]
  | cons c cs ih =>
    show ((c :: cs) ++ b).dropWhile isWs = _
    rw [List.cons_append, List.dropWhile_cons]
    by_cases h : isWs c = true
    · rw [if_pos h]
      rw [show dropWsL (c :: cs) = (c :: cs).dropWhile isWs from rfl,
        List.dropWhile_cons, if_pos h]
      exact ih
    · rw [if_neg h]
      rw [show dropWsL (c :: cs) = (c :: cs).dropWhile isWs from rfl,
        List.dropWhile_cons, if_neg h]
      rw [if_neg (List.cons_ne_nil _ _)]
      rfl

/-- Trailing-trim commutes with text escaping. -/
theorem dropWsL_escText_rev (s : List Char) :
    dropWsL ((escText s).reverse) = (escText ((dropWsL s.reverse).reverse)).reverse := by
  have hsplit : s.reverse.takeWhile isWs ++ s.reverse.dropWhile isWs = s.reverse :=
    List.takeWhile_append_dropWhile isWs s.reverse
  have hs2 : s = (s.reverse.dropWhile isWs).reverse ++
      (s.reverse.takeWhile isWs).reverse := by
    have := congrArg List.reverse hsplit
    rw [List.reverse_append, List.reverse_reverse] at this
    exact this.symm
  have hwsr : ∀ c ∈ (s.reverse.takeWhile isWs).reverse, isWs c = true :=
    fun c hc => List.mem_takeWhile_imp (List.mem_reverse.mp hc)
  conv_lhs => rw [hs2]
  rw [escText_append, escText_ws _ hwsr, List.reverse_append, List.reverse_reverse]
  rw [show dropWsL (s.reverse.takeWhile isWs ++
    (escText (s.reverse.dropWhile isWs).reverse).reverse) =
    (s.reverse.takeWhile isWs ++
      (escText (s.reverse.dropWhile isWs).reverse).reverse).dropWhile isWs from rfl]
  rw [dropWhile_append_all isWs _ _ (fun c hc => List.mem_takeWhile_imp hc)]
  rw [show dropWsL s.reverse = s.reverse.dropWhile isWs from rfl]
  rcases hd2 : s.reverse.dropWhile isWs with _ | ⟨e, es⟩
  · rfl
  · have hene2 : (e :: es).reverse ≠ [] := by simp
    have heL : ∀ c, ((escText (e :: es).reverse).reverse).head? = some c →
        isWs c = false := by
      apply escText_last _ hene2
      intro c hc
      rw [List.reverse_reverse, List.head?_cons] at hc
      have h5 := dropWhile_head isWs s.reverse e (by rw [hd2]; rfl)
      have h2 : c = e := by injection hc with h4; exact h4.symm
      rw [h2]
      exact h5
    have := dropWsL_no_ws ((escText (e :: es).reverse).reverse)
      (fun c hc => heL c hc)
    rw [show ((escText (e :: es).reverse).reverse).dropWhile isWs =
      dropWsL ((escText (e :: es).reverse).reverse) from rfl, this]

/-- The head of a reversed well-formed tag render is the closing `>`. -/
theorem renderTok_rev_head (t : Tok) (htx : isTextTok t = false) (hcm : TokWF t) :
    ((renderTok t).reverse).head? = some '>' := by
  rw [renderTok_decomp t htx hcm, List.reverse_cons, List.reverse_append]
  rw [show (['>'] : List Char).reverse = ['>'] from rfl]
  rw [show (['>'] : List Char) ++ (tagFront t).reverse = '>' :: (tagFront t).reverse
    from rfl]
  rw [head?_append_left _ _ (List.cons_ne_nil _ _)]
  rfl

/-- Unfolding equation of `trimTrailGo` on a two-or-more list. -/
theorem trimTrailGo_cons2 (t t2 : Tok) (ts : List Tok) :
    trimTrailGo (t :: t2 :: ts) = t :: trimTrailGo (t2 :: ts) := by
  cases t <;> rfl

/-- The trailing-trim pass on the rendered stream. -/
theorem trimTrail_renderToks (ts : List Tok) (hwf : ToksWF ts) :
    (dropWsL (renderToks ts).reverse).reverse = renderToks (trimTrailGo ts) := by
  induction ts with
  | nil => rfl
  | cons t rest ih =>
    have ht := hwf.1 t (List.mem_cons_self _ _)
    have hwfr := ToksWF_tail t rest hwf
    cases rest with
    | nil =>
      cases t with
      | comment a => exact ht.elim
      | startTag n attrs sc =>
        have htx : isTextTok (Tok.startTag n attrs sc) = false := rfl
        rw [renderToks, show renderToks ([] : List Tok) = [] from rfl, List.append_nil]
        rw [dropWsL_no_ws _ (fun c hc => by
          rw [renderTok_rev_head _ htx ht] at hc
          have h2 : c = '>' := by injection hc with h4; exact h4.symm
          subst h2
          rfl)]
        rw [List.reverse_reverse]
        rw [show trimTrailGo [Tok.startTag n attrs sc] = [Tok.startTag n attrs sc]
          from rfl, renderToks, show renderToks ([] : List Tok) = [] from rfl,
          List.append_nil]
      | endTag n =>
        have htx : isTextTok (Tok.endTag n) = false := rfl
        rw [renderToks, show renderToks ([] : List Tok) = [] from rfl, List.append_nil]
        rw [dropWsL_no_ws _ (fun c hc => by
          rw [renderTok_rev_head _ htx ht] at hc
          have h2 : c = '>' := by injection hc with h4; exact h4.symm
          subst h2
          rfl)]
        rw [List.reverse_reverse]
        rw [show trimTrailGo [Tok.endTag n] = [Tok.endTag n]
          from rfl, renderToks, show renderToks ([] : List Tok) = [] from rfl,
          List.append_nil]
      | text s =>
        rw [renderToks, show renderTok (Tok.text s) = escText s from rfl,
          show renderToks ([] : List Tok) = [] from rfl, List.append_nil]
        rw [dropWsL_escText_rev, List.reverse_reverse]
        rw [show trimTrailGo [Tok.text s] =
          (if ((dropWsL s.reverse).reverse).isEmpty then []
            else [Tok.text ((dropWsL s.reverse).reverse)]) from rfl]
        rcases hs2 : (dropWsL s.reverse).reverse with _ | ⟨e, es⟩
        · rw [if_pos (by rfl)]
          rfl
        · rw [if_neg (by rw [List.isEmpty_cons]; exact Bool.false_ne_true)]
          rw [renderToks, show renderTok (Tok.text (e :: es)) = escText (e :: es)
            from rfl, renderToks, List.append_nil]
    | cons t2 rest2 =>
      rw [trimTrailGo_cons2]
      rw [renderToks, List.reverse_append]
      rw [dropWsL_append]
      by_cases hcase : dropWsL (renderToks (t2 :: rest2)).reverse = []
      · rw [if_pos hcase]
        have hres : renderToks (trimTrailGo (t2 :: rest2)) = [] := by
          rw [← ih hwfr, hcase]
          rfl
        rw [renderToks, hres, List.append_nil]
        have hallws : ∀ c ∈ renderToks (t2 :: rest2), isWs c = true := by
          intro c hc
          have := List.dropWhile_eq_nil_iff.mp hcase
          exact this c (List.mem_reverse.mpr hc)
        have ht2tag : isTextTok t2 = false → False := by
          intro htag2
          have hcm2 : TokWF t2 := hwfr.1 t2 (List.mem_cons_self _ _)
          have hlt : '<' ∈ renderToks (t2 :: rest2) := by
            rw [renderToks, renderTok_decomp t2 htag2 hcm2]
            exact List.mem_append.mpr (Or.inl (List.mem_cons_self _ _))
          have := hallws '<' hlt
          exact absurd this (by decide)
        cases t with
        | comment a => exact ht.elim
        | text a =>
          exfalso
          have hch := hwf.2
          rw [List.chain'_cons] at hch
          cases hcase2 : isTextTok t2 with
          | false => exact ht2tag hcase2
          | true => exact hch.1 ⟨rfl, hcase2⟩
        | startTag n attrs sc =>
          rw [dropWsL_no_ws _ (fun c hc => by
            rw [renderTok_rev_head (Tok.startTag n attrs sc) rfl ht] at hc
            have h2 : c = '>' := by injection hc with h4; exact h4.symm
            subst h2
            rfl)]
          rw [List.reverse_reverse]
        | endTag n =>
          rw [dropWsL_no_ws _ (fun c hc => by
            rw [renderTok_rev_head (Tok.endTag n) rfl ht] at hc
            have h2 : c = '>' := by injection hc with h4; exact h4.symm
            subst h2
            rfl)]
          rw [List.reverse_reverse]
      · rw [if_neg hcase]
        rw [List.reverse_append, List.reverse_reverse, ih hwfr]
        rw [renderToks]

/-- Leading-trim commutes with text escaping. -/
theorem dropWsL_escText (s : List Char) :
    dropWsL (escText s) = escText (dropWsL s) := by
  have hsplit : s.takeWhile isWs ++ s.dropWhile isWs = s :=
    List.takeWhile_append_dropWhile isWs s
  have hws1 : ∀ c ∈ s.takeWhile isWs, isWs c = true :=
    fun c hc => List.mem_takeWhile_imp hc
  conv_lhs => rw [← hsplit]
  rw [escText_append, escText_ws _ hws1]
  rw [show dropWsL (s.takeWhile isWs ++ escText (s.dropWhile isWs)) =
    (s.takeWhile isWs ++ escText (s.dropWhile isWs)).dropWhile isWs from rfl]
  rw [dropWhile_append_all isWs _ _ hws1]
  rw [show dropWsL s = s.dropWhile isWs from rfl]
  rcases hd2 : s.dropWhile isWs with _ | ⟨e, es⟩
  · rfl
  · have heL := escText_head (e :: es) (List.cons_ne_nil _ _)
      (fun c hc => by
        rw [List.head?_cons] at hc
        have h5 := dropWhile_head isWs s e (by rw [hd2]; rfl)
        have h2 : c = e := by injection hc with h4; exact h4.symm
        rw [h2]
        exact h5)
    have := dropWsL_no_ws (escText (e :: es)) (fun c hc => (heL c hc).1)
    rw [show (escText (e :: es)).dropWhile isWs = dropWsL (escText (e :: es)) from rfl,
      this]

/-- The leading-trim pass on the rendered stream. -/
theorem trimLead_renderToks (ts : List Tok) (hwf : ToksWF ts) :
    dropWsL (renderToks ts) = renderToks (trimLead ts) := by
  cases ts with
  | nil => rfl
  | cons t rest =>
    have ht := hwf.1 t (List.mem_cons_self _ _)
    have hwfr := ToksWF_tail t rest hwf
    cases t with
    | comment a => exact ht.elim
    | startTag n attrs sc =>
      rw [show trimLead (Tok.startTag n attrs sc :: rest) =
        Tok.startTag n attrs sc :: rest from rfl]
      rw [renderToks]
      apply dropWsL_no_ws
      intro c hc
      rw [renderTok_decomp (Tok.startTag n attrs sc) rfl ht, List.cons_append,
        List.head?_cons] at hc
      have h2 : c = '<' := by injection hc with h4; exact h4.symm
      subst h2
      rfl
    | endTag n =>
      rw [show trimLead (Tok.endTag n :: rest) = Tok.endTag n :: rest from rfl]
      rw [renderToks]
      apply dropWsL_no_ws
      intro c hc
      rw [renderTok_decomp (Tok.endTag n) rfl ht, List.cons_append,
        List.head?_cons] at hc
      have h2 : c = '<' := by injection hc with h4; exact h4.symm
      subst h2
      rfl
    | text s =>
      rw [renderToks, show renderTok (Tok.text s) = escText s from rfl]
      rw [dropWsL_append, dropWsL_escText]
      rw [show trimLead (Tok.text s :: rest) =
        (if (dropWsL s).isEmpty then rest else Tok.text (dropWsL s) :: rest) from rfl]
      rcases hd2 : dropWsL s with _ | ⟨e, es⟩
      · rw [if_pos (show escText [] = [] from rfl),
          if_pos (show ([] : List Char).isEmpty = true from rfl)]
        cases rest with
        | nil => rfl
        | cons t2 rest2 =>
          have ht2 : isTextTok t2 = false := by
            have hch := hwf.2
            rw [List.chain'_cons] at hch
            cases hcase : isTextTok t2 with
            | false => rfl
            | true => exact absurd ⟨rfl, hcase⟩ hch.1
          have hcm2 : TokWF t2 := hwfr.1 t2 (List.mem_cons_self _ _)
          rw [renderToks]
          apply dropWsL_no_ws
          intro c hc
          rw [renderTok_decomp t2 ht2 hcm2, List.cons_append, List.head?_cons] at hc
          have h2 : c = '<' := by injection hc with h4; exact h4.symm
          subst h2
          rfl
      · rw [if_neg (escText_ne_nil (e :: es) (List.cons_ne_nil _ _)), if_neg (by simp)]
        rw [renderToks, show renderTok (Tok.text (e :: es)) = escText (e :: es)
          from rfl]

/-- Head provenance of the trailing trim. -/
theorem trimTrailGo_head (ts : List Tok) (u : Tok)
    (hu : (trimTrailGo ts).head? = some u) :
    ∃ v, ts.head? = some v ∧ isTextTok u = isTextTok v := by
  cases ts with
  | nil => exact absurd hu (by simp [trimTrailGo])
  | cons t2 ts2 =>
    cases ts2 with
    | nil =>
      cases t2 with
      | text s =>
        rw [show trimTrailGo [Tok.text s] =
          (if ((dropWsL s.reverse).reverse).isEmpty then []
           else [Tok.text ((dropWsL s.reverse).reverse)]) from rfl] at hu
        by_cases hc : ((dropWsL s.reverse).reverse).isEmpty = true
        · rw [if_pos hc] at hu
          exact absurd hu (by simp)
        · rw [if_neg hc] at hu
          refine ⟨Tok.text s, rfl, ?_⟩
          have h2 : Tok.text ((dropWsL s.reverse).reverse) = u := by
            injection hu with h4
          rw [← h2]
          rfl
      | comment a => exact ⟨Tok.comment a, rfl, by injection hu with h4; rw [← h4]⟩
      | startTag n attrs sc =>
        exact ⟨Tok.startTag n attrs sc, rfl, by injection hu with h4; rw [← h4]⟩
      | endTag n => exact ⟨Tok.endTag n, rfl, by injection hu with h4; rw [← h4]⟩
    | cons t3 ts3 =>
      rw [trimTrailGo_cons2, List.head?_cons] at hu
      have h4 : t2 = u := by injection hu with h5
      exact ⟨t2, rfl, by rw [← h4]⟩

/-- Trailing trim preserves stream well-formedness. -/
theorem ToksWF_trimTrailGo (ts : List Tok) (hwf : ToksWF ts) :
    ToksWF (trimTrailGo ts) := by
  induction ts with
  | nil => exact hwf
  | cons t rest ih =>
    have ht := hwf.1 t (List.mem_cons_self _ _)
    have hwfr := ToksWF_tail t rest hwf
    cases rest with
    | nil =>
      cases t with
      | comment a => exact ht.elim
      | text s =>
        rw [show trimTrailGo [Tok.text s] =
          (if ((dropWsL s.reverse).reverse).isEmpty then []
           else [Tok.text ((dropWsL s.reverse).reverse)]) from rfl]
        by_cases hc : ((dropWsL s.reverse).reverse).isEmpty = true
        · rw [if_pos hc]
          exact ⟨fun u hu => absurd hu (List.not_mem_nil u), List.chain'_nil⟩
        · rw [if_neg hc]
          refine ⟨?_, List.chain'_singleton _⟩
          intro u hu
          have h2 : u = Tok.text ((dropWsL s.reverse).reverse) :=
            List.mem_singleton.mp hu
          rw [h2]
          exact fun h => hc (by rw [h]; rfl)
      | startTag n attrs sc => exact hwf
      | endTag n => exact hwf
    | cons t2 rest2 =>
      rw [trimTrailGo_cons2]
      have ihr := ih hwfr
      refine ⟨?_, ?_⟩
      · intro u hu
        rcases List.mem_cons.mp hu with h | h
        · rw [h]; exact ht
        · exact ihr.1 u h
      · rw [List.chain'_cons']
        refine ⟨?_, ihr.2⟩
        intro u hu
        obtain ⟨v, hv, hiso⟩ := trimTrailGo_head (t2 :: rest2) u (Option.mem_def.mp hu)
        have h4 : v = t2 := by injection hv with h5; exact h5.symm
        have hch := hwf.2
        rw [List.chain'_cons] at hch
        intro hcontra
        apply hch.1
        refine ⟨hcontra.1, ?_⟩
        have h6 := hcontra.2
        rw [hiso, h4] at h6
        exact h6

/-- The whole strip pass on the rendered stream. -/
theorem strip_renderToks (ts : List Tok) (hwf : ToksWF ts) :
    stripL (renderToks ts) = renderToks (stripTok ts) := by
  rw [show stripL (renderToks ts) =
    dropWsL (dropWsL (renderToks ts).reverse).reverse from rfl]
  rw [trimTrail_renderToks ts hwf]
  rw [trimLead_renderToks _ (ToksWF_trimTrailGo ts hwf)]
  rfl

theorem isNameChar_split (c : Char) (h : isNameChar c = true) :
    isWs c = false ∧ c ≠ '>' ∧ c ≠ '<' ∧ c ≠ '/' := by
  simp [isNameChar] at h
  exact ⟨h.1.1.1, h.1.1.2, h.1.2, h.2⟩

theorem ValidName_ne_nil (n : List Char) (h : ValidName n) : n ≠ [] := by
  cases n with
  | nil => exact h.2.elim
  | cons c cs => exact List.cons_ne_nil _ _

theorem TokSrc_mid (t : Tok) (h : TokSrc t) : TokMid t := by
  cases t with
  | text s => exact trivial
  | comment s => exact h
  | startTag n attrs sc => exact h
  | endTag n => exact h

theorem TokMid_noWs (t : Tok) (h : TokMid t) : TokNoWsNames t := by
  cases t with
  | text s => exact trivial
  | comment s => exact h.elim
  | startTag n attrs sc =>
    exact ⟨fun c hc => (isNameChar_split c (h.1.1 c hc).1).1,
      fun a ha c hc => ((h.2.1 a ha).2 c hc).1⟩
  | endTag n => exact fun c hc => (isNameChar_split c (h.1 c hc).1).1

theorem TokMid_nameOK (t : Tok) (h : TokMid t) : TokNameOK t := by
  cases t with
  | text s => exact trivial
  | comment s => exact h.elim
  | startTag n attrs sc =>
    exact ⟨ValidName_ne_nil n h.1, fun c hc => (h.1.1 c hc).1,
      fun a ha c hc => ((h.2.1 a ha).2 c hc).2.2.2.1⟩
  | endTag n => exact fun c hc => (h.1 c hc).1

theorem TokSrc_WF (t : Tok) (h : TokSrc t) : TokWF t := by
  cases t with
  | text s => exact h
  | comment s => exact h.elim
  | startTag n attrs sc => exact h
  | endTag n =>
    refine ⟨ValidName_ne_nil n h, fun c hc => ?_⟩
    have h2 := isNameChar_split c (h.1 c hc).1
    exact ⟨h2.2.1, h2.2.2.1, (h.1 c hc).2⟩

/-- Provenance of merged-stream tokens. -/
theorem mergeTexts_mem (ts : List Tok) (u : Tok) (hu : u ∈ mergeTexts ts) :
    u ∈ ts ∨ ∃ a b, Tok.text a ∈ ts ∧ u = Tok.text (a ++ b) := by
  induction ts with
  | nil => exact absurd hu (List.not_mem_nil u)
  | cons t rest ih =>
    cases t with
    | text a =>
      rw [mergeTexts] at hu
      rcases h : mergeTexts rest with _ | ⟨t2, r2⟩
      · rw [h] at hu
        have h2 : u = Tok.text a := by simpa using hu
        exact Or.inl (by rw [h2]; exact List.mem_cons_self _ _)
      · rw [h] at hu
        cases t2 with
        | text b =>
          rcases List.mem_cons.mp hu with h2 | h2
          · exact Or.inr ⟨a, b, List.mem_cons_self _ _, h2⟩
          · have h3 : u ∈ mergeTexts rest := by rw [h]; exact List.mem_cons_of_mem _ h2
            rcases ih h3 with h4 | ⟨a2, b2, h5, h6⟩
            · exact Or.inl (List.mem_cons_of_mem _ h4)
            · exact Or.inr ⟨a2, b2, List.mem_cons_of_mem _ h5, h6⟩
        | comment b =>
          rcases List.mem_cons.mp hu with h2 | h2
          · exact Or.inl (by rw [h2]; exact List.mem_cons_self _ _)
          · have h3 : u ∈ mergeTexts rest := by rw [h]; exact h2
            rcases ih h3 with h4 | ⟨a2, b2, h5, h6⟩
            · exact Or.inl (List.mem_cons_of_mem _ h4)
            · exact Or.inr ⟨a2, b2, List.mem_cons_of_mem _ h5, h6⟩
        | startTag n2 attrs2 sc2 =>
          rcases List.mem_cons.mp hu with h2 | h2
          · exact Or.inl (by rw [h2]; exact List.mem_cons_self _ _)
          · have h3 : u ∈ mergeTexts rest := by rw [h]; exact h2
            rcases ih h3 with h4 | ⟨a2, b2, h5, h6⟩
            · exact Or.inl (List.mem_cons_of_mem _ h4)
            · exact Or.inr ⟨a2, b2, List.mem_cons_of_mem _ h5, h6⟩
        | endTag n2 =>
          rcases List.mem_cons.mp hu with h2 | h2
          · exact Or.inl (by rw [h2]; exact List.mem_cons_self _ _)
          · have h3 : u ∈ mergeTexts rest := by rw [h]; exact h2
            rcases ih h3 with h4 | ⟨a2, b2, h5, h6⟩
            · exact Or.inl (List.mem_cons_of_mem _ h4)
            · exact Or.inr ⟨a2, b2, List.mem_cons_of_mem _ h5, h6⟩
    | comment a =>
      rw [show mergeTexts (Tok.comment a :: rest) = Tok.comment a :: mergeTexts rest
        from rfl] at hu
      rcases List.mem_cons.mp hu with h2 | h2
      · exact Or.inl (by rw [h2]; exact List.mem_cons_self _ _)
      · rcases ih h2 with h4 | ⟨a2, b2, h5, h6⟩
        · exact Or.inl (List.mem_cons_of_mem _ h4)
        · exact Or.inr ⟨a2, b2, List.mem_cons_of_mem _ h5, h6⟩
    | startTag n attrs sc =>
      rw [show mergeTexts (Tok.startTag n attrs sc :: rest) =
        Tok.startTag n attrs sc :: mergeTexts rest from rfl] at hu
      rcases List.mem_cons.mp hu with h2 | h2
      · exact Or.inl (by rw [h2]; exact List.mem_cons_self _ _)
      · rcases ih h2 with h4 | ⟨a2, b2, h5, h6⟩
        · exact Or.inl (List.mem_cons_of_mem _ h4)
        · exact Or.inr ⟨a2, b2, List.mem_cons_of_mem _ h5, h6⟩
    | endTag n =>
      rw [show mergeTexts (Tok.endTag n :: rest) = Tok.endTag n :: mergeTexts rest
        from rfl] at hu
      rcases List.mem_cons.mp hu with h2 | h2
      · exact Or.inl (by rw [h2]; exact List.mem_cons_self _ _)
      · rcases ih h2 with h4 | ⟨a2, b2, h5, h6⟩
        · exact Or.inl (List.mem_cons_of_mem _ h4)
        · exact Or.inr ⟨a2, b2, List.mem_cons_of_mem _ h5, h6⟩

/-- Merged streams keep `TokSrc` tokens. -/
theorem TokSrc_mergeTexts (ts : List Tok) (h : ∀ t ∈ ts, TokSrc t) :
    ∀ u ∈ mergeTexts ts, TokSrc u := by
  intro u hu
  rcases mergeTexts_mem ts u hu with h2 | ⟨a, b, ha, h2⟩
  · exact h u h2
  · rw [h2]
    have h3 : a ≠ [] := h (Tok.text a) ha
    exact fun h4 => h3 (List.append_eq_nil.mp h4).1

/-- Merged streams never hold two adjacent texts. -/
theorem mergeTexts_chain (ts : List Tok) :
    List.Chain' (fun a b => ¬(isTextTok a = true ∧ isTextTok b = true))
      (mergeTexts ts) := by
  induction ts with
  | nil => exact List.chain'_nil
  | cons t rest ih =>
    cases t with
    | text a =>
      rcases h : mergeTexts rest with _ | ⟨t2, r2⟩
      · have he : mergeTexts (Tok.text a :: rest) = [Tok.text a] := by
          rw [mergeTexts, h]
        rw [he]
        exact List.chain'_singleton _
      · rw [h] at ih
        cases t2 with
        | text b =>
          have he : mergeTexts (Tok.text a :: rest) = Tok.text (a ++ b) :: r2 := by
            rw [mergeTexts, h]
          rw [he]
          exact List.chain'_cons'.mpr
            ⟨fun u hu => (List.chain'_cons'.mp ih).1 u hu, (List.chain'_cons'.mp ih).2⟩
        | comment b =>
          have he : mergeTexts (Tok.text a :: rest) =
              Tok.text a :: Tok.comment b :: r2 := by
            rw [mergeTexts, h]
          rw [he]
          exact List.chain'_cons.mpr ⟨fun hc => Bool.noConfusion hc.2, ih⟩
        | startTag n2 attrs2 sc2 =>
          have he : mergeTexts (Tok.text a :: rest) =
              Tok.text a :: Tok.startTag n2 attrs2 sc2 :: r2 := by
            rw [mergeTexts, h]
          rw [he]
          exact List.chain'_cons.mpr ⟨fun hc => Bool.noConfusion hc.2, ih⟩
        | endTag n2 =>
          have he : mergeTexts (Tok.text a :: rest) =
              Tok.text a :: Tok.endTag n2 :: r2 := by
            rw [mergeTexts, h]
          rw [he]
          exact List.chain'_cons.mpr ⟨fun hc => Bool.noConfusion hc.2, ih⟩
    | comment a =>
      rw [show mergeTexts (Tok.comment a :: rest) = Tok.comment a :: mergeTexts rest
        from rfl]
      exact List.chain'_cons'.mpr ⟨fun u hu hc => Bool.noConfusion hc.1, ih⟩
    | startTag n attrs sc =>
      rw [show mergeTexts (Tok.startTag n attrs sc :: rest) =
        Tok.startTag n attrs sc :: mergeTexts rest from rfl]
      exact List.chain'_cons'.mpr ⟨fun u hu hc => Bool.noConfusion hc.1, ih⟩
    | endTag n =>
      rw [show mergeTexts (Tok.endTag n :: rest) = Tok.endTag n :: mergeTexts rest
        from rfl]
      exact List.chain'_cons'.mpr ⟨fun u hu hc => Bool.noConfusion hc.1, ih⟩

/-- Cleaning preserves the token kind. -/
theorem isTextTok_cleanTok (c0 : Char) (t : Tok) :
    isTextTok (cleanTok c0 t) = isTextTok t := by
  cases t <;> rfl

/-- End-tag renaming preserves the token kind. -/
theorem isTextTok_renameEnd (p q : List Char) (t : Tok) :
    isTextTok (renameEnd p q t) = isTextTok t := by
  cases t with
  | endTag n =>
    rw [show renameEnd p q (Tok.endTag n) =
      (if n = p then Tok.endTag q else Tok.endTag n) from rfl]
    by_cases h : n = p
    · rw [if_pos h]
      rfl
    · rw [if_neg h]
  | text s => rfl
  | comment s => rfl
  | startTag n attrs sc => rfl

/-- Start-tag renaming preserves the token kind. -/
theorem isTextTok_renameStart (p q : List Char) (t : Tok) :
    isTextTok (renameStart p q t) = isTextTok t := by
  cases t with
  | startTag n attrs sc =>
    rw [show renameStart p q (Tok.startTag n attrs sc) =
      (if n = p ∧ attrs = [] ∧ sc = false then Tok.startTag q attrs sc
       else Tok.startTag n attrs sc) from rfl]
    by_cases h : n = p ∧ attrs = [] ∧ sc = false
    · rw [if_pos h]
      rfl
    · rw [if_neg h]
  | text s => rfl
  | comment s => rfl
  | endTag n => rfl

/-- Cleaning preserves mid-stage token facts. -/
theorem TokMid_cleanTok (c0 : Char) (t : Tok) (h : TokMid t) :
    TokMid (cleanTok c0 t) := by
  cases t with
  | text s => exact trivial
  | comment s => exact h.elim
  | startTag n attrs sc =>
    refine ⟨h.1, fun a ha => ?_, ?_⟩
    · rcases List.mem_map.mp ha with ⟨b, hb, hba⟩
      rw [← hba]
      exact h.2.1 b hb
    · rw [List.map_map]
      exact h.2.2
  | endTag n => exact h

/-- End-tag renaming preserves source-stage token facts when the new name
is valid. -/
theorem TokSrc_renameEnd (p q : List Char) (hq : ValidName q) (t : Tok)
    (h : TokSrc t) : TokSrc (renameEnd p q t) := by
  cases t with
  | text s => exact h
  | comment s => exact h.elim
  | startTag n attrs sc => exact h
  | endTag n =>
    rw [show renameEnd p q (Tok.endTag n) =
      (if n = p then Tok.endTag q else Tok.endTag n) from rfl]
    by_cases h2 : n = p
    · rw [if_pos h2]
      exact hq
    · rw [if_neg h2]
      exact h

/-- Start-tag renaming preserves source-stage token facts when the new name
is valid. -/
theorem TokSrc_renameStart (p q : List Char) (hq : ValidName q) (t : Tok)
    (h : TokSrc t) : TokSrc (renameStart p q t) := by
  cases t with
  | text s => exact h
  | comment s => exact h.elim
  | endTag n => exact h
  | startTag n attrs sc =>
    rw [show renameStart p q (Tok.startTag n attrs sc) =
      (if n = p ∧ attrs = [] ∧ sc = false then Tok.startTag q attrs sc
       else Tok.startTag n attrs sc) from rfl]
    by_cases h2 : n = p ∧ attrs = [] ∧ sc = false
    · rw [if_pos h2]
      exact ⟨hq, h.2.1, h.2.2⟩
    · rw [if_neg h2]
      exact h

/-- Provenance of the empty-text drop. -/
theorem dropEmptyTexts_mem (ts : List Tok) (u : Tok) (hu : u ∈ dropEmptyTexts ts) :
    u ∈ ts ∧ u ≠ Tok.text [] := by
  induction ts with
  | nil => exact absurd hu (List.not_mem_nil u)
  | cons t rest ih =>
    rw [dropEmptyTexts] at hu
    by_cases h : t = Tok.text []
    · rw [if_pos h] at hu
      exact ⟨List.mem_cons_of_mem _ (ih hu).1, (ih hu).2⟩
    · rw [if_neg h] at hu
      rcases List.mem_cons.mp hu with h2 | h2
      · exact ⟨by rw [h2]; exact List.mem_cons_self _ _, by rw [h2]; exact h⟩
      · exact ⟨List.mem_cons_of_mem _ (ih h2).1, (ih h2).2⟩

/-- Dropping empty texts upgrades mid-stage tokens to source-stage ones. -/
theorem TokSrc_dropEmptyTexts (ts : List Tok) (h : ∀ t ∈ ts, TokMid t) :
    ∀ u ∈ dropEmptyTexts ts, TokSrc u := by
  intro u hu
  obtain ⟨h1, h2⟩ := dropEmptyTexts_mem ts u hu
  have h3 := h u h1
  cases u with
  | text s => exact fun h4 => h2 (by rw [h4])
  | comment s => exact h3.elim
  | startTag n attrs sc => exact h3
  | endTag n => exact h3

/-- Dropping empty texts keeps the head when it is a tag. -/
theorem dropEmptyTexts_keep (t : Tok) (rest : List Tok) (h : isTextTok t = false) :
    dropEmptyTexts (t :: rest) = t :: dropEmptyTexts rest := by
  rw [dropEmptyTexts, if_neg]
  intro h2
  rw [h2] at h
  exact Bool.noConfusion h

/-- Dropping empty texts never creates adjacent texts. -/
theorem dropEmptyTexts_chain (ts : List Tok)
    (hch : List.Chain' (fun a b => ¬(isTextTok a = true ∧ isTextTok b = true)) ts) :
    List.Chain' (fun a b => ¬(isTextTok a = true ∧ isTextTok b = true))
      (dropEmptyTexts ts) := by
  induction ts with
  | nil => exact hch
  | cons t rest ih =>
    rw [dropEmptyTexts]
    by_cases h : t = Tok.text []
    · rw [if_pos h]
      exact ih hch.tail
    · rw [if_neg h]
      refine List.chain'_cons'.mpr ⟨?_, ih hch.tail⟩
      intro u hu
      by_cases hcase : isTextTok t = true
      · cases rest with
        | nil => exact absurd hu (by simp [dropEmptyTexts])
        | cons t2 rest2 =>
          have hrel : ¬(isTextTok t = true ∧ isTextTok t2 = true) :=
            (List.chain'_cons.mp hch).1
          have ht2 : isTextTok t2 = false := by
            cases hcase2 : isTextTok t2 with
            | false => rfl
            | true => exact absurd ⟨hcase, hcase2⟩ hrel
          rw [dropEmptyTexts_keep t2 rest2 ht2] at hu
          have h4 : t2 = u := by
            rw [Option.mem_def, List.head?_cons] at hu
            injection hu with h5
          rw [← h4]
          exact hrel
      · exact fun hc => hcase hc.1

/-- Provenance of the collapse worker. -/
theorem collapseGo_mem (ts : List Tok) (u : Tok) (hu : u ∈ collapseGo ts) :
    u ∈ ts := by
  induction ts with
  | nil => exact absurd hu (List.not_mem_nil u)
  | cons t rest ih =>
    rw [collapseGo] at hu
    by_cases h : wsText t = true ∧ rest ≠ []
    · rw [if_pos h] at hu
      exact List.mem_cons_of_mem _ (ih hu)
    · rw [if_neg h] at hu
      rcases List.mem_cons.mp hu with h2 | h2
      · rw [h2]
        exact List.mem_cons_self _ _
      · exact List.mem_cons_of_mem _ (ih h2)

/-- The collapse worker keeps a non-text head. -/
theorem collapseGo_keep (t : Tok) (rest : List Tok) (h : isTextTok t = false) :
    collapseGo (t :: rest) = t :: collapseGo rest := by
  rw [collapseGo, if_neg]
  intro h2
  rw [wsText_of_not_text t h] at h2
  exact Bool.noConfusion h2.1

/-- The collapse worker never creates adjacent texts. -/
theorem collapseGo_chain (ts : List Tok)
    (hch : List.Chain' (fun a b => ¬(isTextTok a = true ∧ isTextTok b = true)) ts) :
    List.Chain' (fun a b => ¬(isTextTok a = true ∧ isTextTok b = true))
      (collapseGo ts) := by
  induction ts with
  | nil => exact hch
  | cons t rest ih =>
    rw [collapseGo]
    by_cases h : wsText t = true ∧ rest ≠ []
    · rw [if_pos h]
      exact ih hch.tail
    · rw [if_neg h]
      refine List.chain'_cons'.mpr ⟨?_, ih hch.tail⟩
      intro u hu
      by_cases hcase : isTextTok t = true
      · cases rest with
        | nil => exact absurd hu (by simp [collapseGo])
        | cons t2 rest2 =>
          have hrel : ¬(isTextTok t = true ∧ isTextTok t2 = true) :=
            (List.chain'_cons.mp hch).1
          have ht2 : isTextTok t2 = false := by
            cases hcase2 : isTextTok t2 with
            | false => rfl
            | true => exact absurd ⟨hcase, hcase2⟩ hrel
          rw [collapseGo_keep t2 rest2 ht2] at hu
          have h4 : t2 = u := by
            rw [Option.mem_def, List.head?_cons] at hu
            injection hu with h5
          rw [← h4]
          exact hrel
      · exact fun hc => hcase hc.1

/-- The collapse pass preserves stream well-formedness. -/
theorem ToksWF_collapseTok (ts : List Tok) (hwf : ToksWF ts) :
    ToksWF (collapseTok ts) := by
  cases ts with
  | nil => exact hwf
  | cons t rest =>
    rw [show collapseTok (t :: rest) =
      (if wsText t then t :: collapseGo rest else collapseGo (t :: rest)) from rfl]
    by_cases h : wsText t = true
    · rw [if_pos h]
      refine ⟨?_, ?_⟩
      · intro u hu
        rcases List.mem_cons.mp hu with h2 | h2
        · rw [h2]
          exact hwf.1 t (List.mem_cons_self _ _)
        · exact hwf.1 u (List.mem_cons_of_mem _ (collapseGo_mem rest u h2))
      · refine List.chain'_cons'.mpr ⟨?_, collapseGo_chain rest hwf.2.tail⟩
        intro u hu
        cases rest with
        | nil => exact absurd hu (by simp [collapseGo])
        | cons t2 rest2 =>
          have hrel : ¬(isTextTok t = true ∧ isTextTok t2 = true) :=
            (List.chain'_cons.mp hwf.2).1
          have htt : isTextTok t = true := by
            cases t with
            | text s => rfl
            | comment s => exact Bool.noConfusion h
            | startTag n attrs sc => exact Bool.noConfusion h
            | endTag n => exact Bool.noConfusion h
          have ht2 : isTextTok t2 = false := by
            cases hcase2 : isTextTok t2 with
            | false => rfl
            | true => exact absurd ⟨htt, hcase2⟩ hrel
          rw [collapseGo_keep t2 rest2 ht2] at hu
          have h4 : t2 = u := by
            rw [Option.mem_def, List.head?_cons] at hu
            injection hu with h5
          rw [← h4]
          exact hrel
    · rw [if_neg h]
      exact ⟨fun u hu => hwf.1 u (collapseGo_mem _ u hu), collapseGo_chain _ hwf.2⟩

/-- Leading trim preserves stream well-formedness. -/
theorem ToksWF_trimLead (ts : List Tok) (hwf : ToksWF ts) :
    ToksWF (trimLead ts) := by
  cases ts with
  | nil => exact hwf
  | cons t rest =>
    cases t with
    | comment a => exact hwf
    | startTag n attrs sc => exact hwf
    | endTag n => exact hwf
    | text s =>
      rw [show trimLead (Tok.text s :: rest) =
        (if (dropWsL s).isEmpty then rest else Tok.text (dropWsL s) :: rest) from rfl]
      by_cases h : (dropWsL s).isEmpty = true
      · rw [if_pos h]
        exact ToksWF_tail _ _ hwf
      · rw [if_neg h]
        refine ⟨?_, ?_⟩
        · intro u hu
          rcases List.mem_cons.mp hu with h2 | h2
          · rw [h2]
            exact fun h3 => h (by rw [h3]; rfl)
          · exact hwf.1 u (List.mem_cons_of_mem _ h2)
        · refine List.chain'_cons'.mpr ⟨?_, hwf.2.tail⟩
          intro u hu
          have h3 := List.chain'_cons'.mp hwf.2
          exact h3.1 u hu

/-- The strip pass preserves stream well-formedness. -/
theorem ToksWF_stripTok (ts : List Tok) (hwf : ToksWF ts) :
    ToksWF (stripTok ts) :=
  ToksWF_trimLead _ (ToksWF_trimTrailGo ts hwf)

/-- Mapping a kind-preserving function keeps the no-adjacent-texts chain. -/
theorem chain_map_kind (f : Tok → Tok) (hf : ∀ t, isTextTok (f t) = isTextTok t)
    (ts : List Tok)
    (hch : List.Chain' (fun a b => ¬(isTextTok a = true ∧ isTextTok b = true)) ts) :
    List.Chain' (fun a b => ¬(isTextTok a = true ∧ isTextTok b = true))
      (ts.map f) := by
  rw [List.chain'_map]
  refine hch.imp ?_
  intro a b hab hc
  rw [hf a, hf b] at hc
  exact hab hc

/-- A well-formed token renders to a nonempty string. -/
theorem renderTok_ne_nil (t : Tok) (h : TokWF t) : renderTok t ≠ [] := by
  cases t with
  | text s => exact escText_ne_nil s h
  | comment s => exact h.elim
  | startTag n attrs sc =>
    rw [renderTok_decomp (Tok.startTag n attrs sc) rfl h]
    exact List.cons_ne_nil _ _
  | endTag n =>
    rw [renderTok_decomp (Tok.endTag n) rfl h]
    exact List.cons_ne_nil _ _

/-- A well-formed stream is no longer than its rendering. -/
theorem toks_length_le_render (ts : List Tok) (h : ∀ t ∈ ts, TokWF t) :
    ts.length ≤ (renderToks ts).length := by
  induction ts with
  | nil => exact Nat.le_refl 0
  | cons t rest ih =>
    rw [renderToks, List.length_append, List.length_cons]
    have h1 : 1 ≤ (renderTok t).length :=
      List.length_pos.mpr (renderTok_ne_nil t (h t (List.mem_cons_self _ _)))
    have h2 := ih (fun u hu => h u (List.mem_cons_of_mem _ hu))
    omega

theorem postTok_eq (ts : List Tok) :
    postTok ts = stripTok (collapseTok (postInner ts)) := rfl

theorem validName_s : ValidName "s".data := by
  refine ⟨?_, ?_⟩
  · intro c hc
    have h2 : c = 's' := by simpa using hc
    rw [h2]
    exact ⟨by decide, by decide⟩
  · show Char.isAlpha 's' = true
    decide

theorem validName_d : ValidName "d".data := by
  refine ⟨?_, ?_⟩
  · intro c hc
    have h2 : c = 'd' := by simpa using hc
    rw [h2]
    exact ⟨by decide, by decide⟩
  · show Char.isAlpha 'd' = true
    decide

/-- The string post-passes act on a rendered source-stage stream exactly as
the token pipeline `postTok`. -/
theorem postPasses_renderToks (ts : List Tok) (hsrc : ∀ t ∈ ts, TokSrc t) :
    postPasses (renderToks ts) = renderToks (postTok ts) := by
  have hM : ∀ u ∈ mergeTexts ts, TokSrc u := TokSrc_mergeTexts ts hsrc
  have hC1 : ∀ u ∈ (mergeTexts ts).map (cleanTok '\t'), TokMid u := by
    intro u hu
    rcases List.mem_map.mp hu with ⟨v, hv, hvu⟩
    rw [← hvu]
    exact TokMid_cleanTok _ v (TokSrc_mid v (hM v hv))
  have hC2 : ∀ u ∈ cleanToks0 ts, TokMid u := by
    intro u hu
    rw [cleanToks0] at hu
    rcases List.mem_map.mp hu with ⟨v, hv, hvu⟩
    rw [← hvu]
    exact TokMid_cleanTok _ v (hC1 v hv)
  have hD : ∀ u ∈ dropEmptyTexts (cleanToks0 ts), TokSrc u :=
    TokSrc_dropEmptyTexts _ hC2
  have hS1 : ∀ u ∈ ((dropEmptyTexts (cleanToks0 ts)).map (renameEnd "span".data "s".data)), TokSrc u := by
    intro u hu
    rcases List.mem_map.mp hu with ⟨v, hv, hvu⟩
    rw [← hvu]
    exact TokSrc_renameEnd _ _ validName_s v (hD v hv)
  have hS2 : ∀ u ∈ (((dropEmptyTexts (cleanToks0 ts)).map (renameEnd "span".data "s".data)).map (renameEnd "div".data "d".data)), TokSrc u := by
    intro u hu
    rcases List.mem_map.mp hu with ⟨v, hv, hvu⟩
    rw [← hvu]
    exact TokSrc_renameEnd _ _ validName_d v (hS1 v hv)
  have hS3 : ∀ u ∈ ((((dropEmptyTexts (cleanToks0 ts)).map (renameEnd "span".data "s".data)).map (renameEnd "div".data "d".data)).map (renameStart "span".data "s".data)), TokSrc u := by
    intro u hu
    rcases List.mem_map.mp hu with ⟨v, hv, hvu⟩
    rw [← hvu]
    exact TokSrc_renameStart _ _ validName_s v (hS2 v hv)
  have hS4 : ∀ u ∈ postInner ts, TokSrc u := by
    intro u hu
    rw [postInner] at hu
    rcases List.mem_map.mp hu with ⟨v, hv, hvu⟩
    rw [← hvu]
    exact TokSrc_renameStart _ _ validName_d v (hS3 v hv)
  have hchainInner : List.Chain'
      (fun a b => ¬(isTextTok a = true ∧ isTextTok b = true)) (postInner ts) := by
    rw [postInner]
    apply chain_map_kind _ (isTextTok_renameStart _ _)
    apply chain_map_kind _ (isTextTok_renameStart _ _)
    apply chain_map_kind _ (isTextTok_renameEnd _ _)
    apply chain_map_kind _ (isTextTok_renameEnd _ _)
    apply dropEmptyTexts_chain
    rw [cleanToks0]
    apply chain_map_kind _ (isTextTok_cleanTok _)
    apply chain_map_kind _ (isTextTok_cleanTok _)
    exact mergeTexts_chain ts
  have hwfInner : ToksWF (postInner ts) :=
    ⟨fun u hu => TokSrc_WF u (hS4 u hu), hchainInner⟩
  have hwfColl : ToksWF (collapseTok (postInner ts)) := ToksWF_collapseTok _ hwfInner
  have e1 : filterOut '\t' (renderToks ts) =
      renderToks ((mergeTexts ts).map (cleanTok '\t')) := by
    rw [← renderToks_mergeTexts ts]
    exact filter_renderToks '\t' (Or.inl rfl) (mergeTexts ts)
      (fun u hu => TokMid_noWs u (TokSrc_mid u (hM u hu)))
  have e2 : filterOut '\n' (renderToks ((mergeTexts ts).map (cleanTok '\t'))) =
      renderToks (cleanToks0 ts) := by
    rw [filter_renderToks '\n' (Or.inr rfl) ((mergeTexts ts).map (cleanTok '\t'))
      (fun u hu => TokMid_noWs u (hC1 u hu))]
    rfl
  have e3 : renderToks (cleanToks0 ts) =
      renderToks (dropEmptyTexts (cleanToks0 ts)) :=
    (renderToks_dropEmptyTexts _).symm
  have e4 : replaceAllL "</span>".data "</s>".data (renderToks (dropEmptyTexts (cleanToks0 ts))) =
      renderToks ((dropEmptyTexts (cleanToks0 ts)).map (renameEnd "span".data "s".data)) := by
    rw [show replaceAllL "</span>".data "</s>".data (renderToks (dropEmptyTexts (cleanToks0 ts))) =
      replaceAllF ('<' :: '/' :: ("span".data ++ ['>']))
        ('<' :: '/' :: ("s".data ++ ['>']))
        (renderToks (dropEmptyTexts (cleanToks0 ts))).length (renderToks (dropEmptyTexts (cleanToks0 ts))) from rfl]
    exact replaceEnd_renderToks "span".data "s".data (by decide) (dropEmptyTexts (cleanToks0 ts)) _
      (fun u hu => TokMid_nameOK u (TokSrc_mid u (hD u hu))) (Nat.le_refl _)
  have e5 : replaceAllL "</div>".data "</d>".data (renderToks ((dropEmptyTexts (cleanToks0 ts)).map (renameEnd "span".data "s".data))) =
      renderToks (((dropEmptyTexts (cleanToks0 ts)).map (renameEnd "span".data "s".data)).map (renameEnd "div".data "d".data)) := by
    rw [show replaceAllL "</div>".data "</d>".data (renderToks ((dropEmptyTexts (cleanToks0 ts)).map (renameEnd "span".data "s".data))) =
      replaceAllF ('<' :: '/' :: ("div".data ++ ['>']))
        ('<' :: '/' :: ("d".data ++ ['>']))
        (renderToks ((dropEmptyTexts (cleanToks0 ts)).map (renameEnd "span".data "s".data))).length (renderToks ((dropEmptyTexts (cleanToks0 ts)).map (renameEnd "span".data "s".data))) from rfl]
    exact replaceEnd_renderToks "div".data "d".data (by decide) ((dropEmptyTexts (cleanToks0 ts)).map (renameEnd "span".data "s".data)) _
      (fun u hu => TokMid_nameOK u (TokSrc_mid u (hS1 u hu))) (Nat.le_refl _)
  have e6 : replaceAllL "<span>".data "<s>".data (renderToks (((dropEmptyTexts (cleanToks0 ts)).map (renameEnd "span".data "s".data)).map (renameEnd "div".data "d".data))) =
      renderToks ((((dropEmptyTexts (cleanToks0 ts)).map (renameEnd "span".data "s".data)).map (renameEnd "div".data "d".data)).map (renameStart "span".data "s".data)) := by
    rw [show replaceAllL "<span>".data "<s>".data (renderToks (((dropEmptyTexts (cleanToks0 ts)).map (renameEnd "span".data "s".data)).map (renameEnd "div".data "d".data))) =
      replaceAllF ('<' :: ("span".data ++ ['>'])) ('<' :: ("s".data ++ ['>']))
        (renderToks (((dropEmptyTexts (cleanToks0 ts)).map (renameEnd "span".data "s".data)).map (renameEnd "div".data "d".data))).length (renderToks (((dropEmptyTexts (cleanToks0 ts)).map (renameEnd "span".data "s".data)).map (renameEnd "div".data "d".data))) from rfl]
    exact replaceStart_renderToks "span".data "s".data (by decide) (by decide)
      (((dropEmptyTexts (cleanToks0 ts)).map (renameEnd "span".data "s".data)).map (renameEnd "div".data "d".data)) _
      (fun u hu => TokMid_nameOK u (TokSrc_mid u (hS2 u hu))) (Nat.le_refl _)
  have e7 : replaceAllL "<div>".data "<d>".data (renderToks ((((dropEmptyTexts (cleanToks0 ts)).map (renameEnd "span".data "s".data)).map (renameEnd "div".data "d".data)).map (renameStart "span".data "s".data))) =
      renderToks (postInner ts) := by
    rw [show replaceAllL "<div>".data "<d>".data (renderToks ((((dropEmptyTexts (cleanToks0 ts)).map (renameEnd "span".data "s".data)).map (renameEnd "div".data "d".data)).map (renameStart "span".data "s".data))) =
      replaceAllF ('<' :: ("div".data ++ ['>'])) ('<' :: ("d".data ++ ['>']))
        (renderToks ((((dropEmptyTexts (cleanToks0 ts)).map (renameEnd "span".data "s".data)).map (renameEnd "div".data "d".data)).map (renameStart "span".data "s".data))).length (renderToks ((((dropEmptyTexts (cleanToks0 ts)).map (renameEnd "span".data "s".data)).map (renameEnd "div".data "d".data)).map (renameStart "span".data "s".data))) from rfl]
    rw [replaceStart_renderToks "div".data "d".data (by decide) (by decide)
      ((((dropEmptyTexts (cleanToks0 ts)).map (renameEnd "span".data "s".data)).map (renameEnd "div".data "d".data)).map (renameStart "span".data "s".data)) _
      (fun u hu => TokMid_nameOK u (TokSrc_mid u (hS3 u hu))) (Nat.le_refl _)]
    rfl
  have e8 : collapseL (renderToks (postInner ts)) =
      renderToks (collapseTok (postInner ts)) := by
    rw [show collapseL (renderToks (postInner ts)) =
      collapseF (renderToks (postInner ts)).length (renderToks (postInner ts))
      from rfl]
    exact collapse_renderToks (postInner ts) hwfInner _ (Nat.le_refl _)
  have e9 : stripL (renderToks (collapseTok (postInner ts))) =
      renderToks (stripTok (collapseTok (postInner ts))) :=
    strip_renderToks _ hwfColl
  rw [postPasses, e1, e2, e3, e4, e5, e6, e7, e8, e9, postTok_eq]

/-- Source-stage token facts survive the whole inner pipeline. -/
theorem TokSrc_postInner (ts : List Tok) (hsrc : ∀ t ∈ ts, TokSrc t) :
    ∀ u ∈ postInner ts, TokSrc u := by
  have hM : ∀ u ∈ mergeTexts ts, TokSrc u := TokSrc_mergeTexts ts hsrc
  have hC1 : ∀ u ∈ (mergeTexts ts).map (cleanTok '\t'), TokMid u := by
    intro u hu
    rcases List.mem_map.mp hu with ⟨v, hv, hvu⟩
    rw [← hvu]
    exact TokMid_cleanTok _ v (TokSrc_mid v (hM v hv))
  have hC2 : ∀ u ∈ cleanToks0 ts, TokMid u := by
    intro u hu
    rw [cleanToks0] at hu
    rcases List.mem_map.mp hu with ⟨v, hv, hvu⟩
    rw [← hvu]
    exact TokMid_cleanTok _ v (hC1 v hv)
  have hD : ∀ u ∈ dropEmptyTexts (cleanToks0 ts), TokSrc u :=
    TokSrc_dropEmptyTexts _ hC2
  intro u hu
  rw [postInner] at hu
  rcases List.mem_map.mp hu with ⟨v4, hv4, hvu4⟩
  rcases List.mem_map.mp hv4 with ⟨v3, hv3, hvu3⟩
  rcases List.mem_map.mp hv3 with ⟨v2, hv2, hvu2⟩
  rcases List.mem_map.mp hv2 with ⟨v1, hv1, hvu1⟩
  rw [← hvu4, ← hvu3, ← hvu2, ← hvu1]
  exact TokSrc_renameStart _ _ validName_d _ (TokSrc_renameStart _ _ validName_s _
    (TokSrc_renameEnd _ _ validName_d _ (TokSrc_renameEnd _ _ validName_s _
      (hD v1 hv1))))

/-- The inner pipeline never yields adjacent texts. -/
theorem chain_postInner (ts : List Tok) :
    List.Chain' (fun a b => ¬(isTextTok a = true ∧ isTextTok b = true))
      (postInner ts) := by
  rw [postInner]
  apply chain_map_kind _ (isTextTok_renameStart _ _)
  apply chain_map_kind _ (isTextTok_renameStart _ _)
  apply chain_map_kind _ (isTextTok_renameEnd _ _)
  apply chain_map_kind _ (isTextTok_renameEnd _ _)
  apply dropEmptyTexts_chain
  rw [cleanToks0]
  apply chain_map_kind _ (isTextTok_cleanTok _)
  apply chain_map_kind _ (isTextTok_cleanTok _)
  exact mergeTexts_chain ts

/-- The whole token post-pass pipeline preserves stream well-formedness. -/
theorem ToksWF_postTok (ts : List Tok) (hsrc : ∀ t ∈ ts, TokSrc t) :
    ToksWF (postTok ts) := by
  rw [postTok_eq]
  exact ToksWF_stripTok _ (ToksWF_collapseTok _
    ⟨fun u hu => TokSrc_WF u (TokSrc_postInner ts hsrc u hu), chain_postInner ts⟩)

/-- The grand composition: re-tokenizing the minimized output gives exactly
the token pipeline applied to the minimized forest's stream. -/
theorem tokenize_minimizeHtml (s : List Char)
    (hsrc : ∀ t ∈ nodesToks (minimizeNodes (parseHtml s)), TokSrc t) :
    tokenize (minimizeHtml s) =
      postTok (nodesToks (minimizeNodes (parseHtml s))) := by
  by_cases hs : s = []
  · subst hs
    rfl
  · rw [minimizeHtml, if_neg hs]
    rw [show renderNodes (minimizeNodes (parseHtml s)) =
      renderToks (nodesToks (minimizeNodes (parseHtml s))) from rfl]
    rw [postPasses_renderToks _ hsrc]
    have hwf := ToksWF_postTok _ hsrc
    show tokenizeF
      ((renderToks (postTok (nodesToks (minimizeNodes (parseHtml s))))).length + 1)
      (renderToks (postTok (nodesToks (minimizeNodes (parseHtml s))))) =
      postTok (nodesToks (minimizeNodes (parseHtml s)))
    apply tokenizeF_render _ _ _ hwf
    have h1 := toks_length_le_render _ hwf.1
    omega

/-- Entity decoding of a nonempty string is nonempty. -/
theorem unescape_ne_nil (c : Char) (cs : List Char) : unescape (c :: cs) ≠ [] := by
  rw [unescape, show (c :: cs).length = cs.length + 1 from rfl, unescapeF]
  by_cases h : c = '&'
  · rw [if_pos h]
    rcases h2 : entHead cs with _ | ⟨d, k⟩
    · exact List.cons_ne_nil _ _
    · exact List.cons_ne_nil _ _
  · rw [if_neg h]
    exact List.cons_ne_nil _ _

/-- Characters collected by attribute-name scanning avoid the
delimiters. -/
theorem scanAttrName_chars (s : List Char) :
    ∀ d ∈ (scanAttrName s).1, isWs d = false ∧ d ≠ '=' ∧ d ≠ '>' ∧ d ≠ '<' := by
  induction s with
  | nil =>
    intro d hd
    exact absurd hd (List.not_mem_nil d)
  | cons c cs ih =>
    intro d hd
    rw [scanAttrName_cons] at hd
    by_cases h1 : (isWs c || c = '=' || c = '>' || c = '<') = true
    · rw [if_pos h1] at hd
      exact absurd hd (List.not_mem_nil d)
    · rw [if_neg h1] at hd
      by_cases h2 : (c = '/' && cs.head? = some '>') = true
      · rw [if_pos h2] at hd
        exact absurd hd (List.not_mem_nil d)
      · rw [if_neg h2] at hd
        rcases List.mem_cons.mp hd with h3 | h3
        · subst h3
          simp only [Bool.or_eq_true, not_or, Bool.not_eq_true,
            decide_eq_true_eq] at h1
          exact ⟨h1.1.1.1, h1.1.1.2, h1.1.2, h1.2⟩
        · exact ih d h3

/-- The first component of a one-attribute scan is the scanned name. -/
theorem scanOneAttr_fst (s : List Char) :
    (scanOneAttr s).1 = (scanAttrName s).1 := by
  obtain ⟨n, r1, h1⟩ : ∃ n r1, scanAttrName s = (n, r1) := ⟨_, _, rfl⟩
  unfold scanOneAttr
  rw [h1]
  dsimp only
  rcases h2 : dropWsL r1 with _ | ⟨c2, r3⟩
  · rfl
  · dsimp only
    by_cases h3 : c2 = '='
    · rw [if_pos h3]
      rcases h4 : dropWsL r3 with _ | ⟨c4, r5⟩
      · rfl
      · dsimp only
        by_cases h5 : c4 = '"'
        · rw [if_pos h5]
        · rw [if_neg h5]
          by_cases h6 : c4 = '\x27'
          · rw [if_pos h6]
          · rw [if_neg h6]
    · rw [if_neg h3]

/-- A one-attribute scan at a `<` makes no progress. -/
theorem scanOneAttr_lt (cs : List Char) :
    scanOneAttr ('<' :: cs) = ([], [], '<' :: cs) := by
  unfold scanOneAttr
  rw [show scanAttrName ('<' :: cs) = ([], '<' :: cs) from by
    rw [scanAttrName_cons, if_pos (by decide)]]
  dsimp only
  rw [show dropWsL ('<' :: cs) = '<' :: cs from
    dropWsL_no_ws _ (fun c hc => by
      have h2 : c = '<' := by injection hc with h4; exact h4.symm
      subst h2
      rfl)]
  dsimp only
  rw [if_neg (by decide)]

/-- A `<` at the head of the attribute section makes progress impossible:
the scan runs out of fuel and the tag is dropped. -/
theorem scanAttrs_lt_stuck (fuel : Nat) :
    ∀ (acc : List Attr) (cs : List Char), scanAttrs fuel acc ('<' :: cs) = none := by
  induction fuel with
  | zero => intro acc cs; rfl
  | succ f ih =>
    intro acc cs
    rw [scanAttrs_cons]
    rw [if_neg (by decide), if_neg (by decide), if_neg (by simp), if_neg (by decide)]
    rw [scanOneAttr_lt]
    exact ih _ _

/-- Attribute-section scanning keeps attribute names valid and free of
duplicates. -/
theorem scanAttrs_inv (fuel : Nat) :
    ∀ (acc : List Attr) (s : List Char) (attrs : List Attr) (sc : Bool)
      (r : List Char),
      scanAttrs fuel acc s = some (attrs, sc, r) →
      (∀ a ∈ acc, ValidAttrName a.1) → ((acc.map Prod.fst).Nodup) →
      (∀ a ∈ attrs, ValidAttrName a.1) ∧ ((attrs.map Prod.fst).Nodup) := by
  induction fuel with
  | zero =>
    intro acc s attrs sc r h
    exact absurd h (by simp [scanAttrs])
  | succ f ih =>
    intro acc s attrs sc r h hv hn
    cases s with
    | nil => exact absurd h (by simp [scanAttrs])
    | cons c cs =>
      rw [scanAttrs_cons] at h
      by_cases h1 : isWs c = true
      · rw [if_pos h1] at h
        exact ih acc cs attrs sc r h hv hn
      · rw [if_neg h1] at h
        by_cases h2 : c = '>'
        · rw [if_pos h2] at h
          have h3 : acc = attrs := by
            simp only [Option.some.injEq, Prod.mk.injEq] at h
            exact h.1
          rw [← h3]
          exact ⟨hv, hn⟩
        · rw [if_neg h2] at h
          by_cases h3 : (c = '/' && cs.head? = some '>') = true
          · rw [if_pos h3] at h
            have h4 : acc = attrs := by
              simp only [Option.some.injEq, Prod.mk.injEq] at h
              exact h.1
            rw [← h4]
            exact ⟨hv, hn⟩
          · rw [if_neg h3] at h
            by_cases h4 : c = '='
            · rw [if_pos h4] at h
              exact ih acc cs attrs sc r h hv hn
            · rw [if_neg h4] at h
              by_cases h5 : c = '<'
              · subst h5
                rw [scanOneAttr_lt] at h
                dsimp only at h
                rw [scanAttrs_lt_stuck f _ cs] at h
                exact Option.noConfusion h
              · have hname : (scanOneAttr (c :: cs)).1 = c :: (scanAttrName cs).1 := by
                  rw [scanOneAttr_fst, scanAttrName_cons]
                  rw [if_neg (by
                    simp only [Bool.or_eq_true, not_or, Bool.not_eq_true,
                      decide_eq_true_eq]
                    exact ⟨⟨⟨Bool.eq_false_iff.mpr h1, h4⟩, h2⟩, h5⟩)]
                  rw [if_neg (by
                    intro hc
                    rw [hc] at h3
                    exact h3 rfl)]
                have hvn : ValidAttrName (lowerL ((scanOneAttr (c :: cs)).1)) := by
                  rw [hname]
                  refine ⟨by simp [lowerL], ?_⟩
                  intro d hd
                  rcases List.mem_map.mp hd with ⟨e, he, hde⟩
                  have hech : isWs e = false ∧ e ≠ '=' ∧ e ≠ '>' ∧ e ≠ '<' := by
                    rcases List.mem_cons.mp he with h6 | h6
                    · subst h6
                      exact ⟨Bool.eq_false_iff.mpr h1, h4, h2, h5⟩
                    · exact scanAttrName_chars cs e h6
                  rw [← hde]
                  exact attrChar_toLower e hech
                have haddv : ∀ a ∈ addAttr acc
                    (lowerL ((scanOneAttr (c :: cs)).1)) ((scanOneAttr (c :: cs)).2.1),
                    ValidAttrName a.1 := by
                  rw [addAttr]
                  by_cases h6 : (acc.any fun a => a.1 =
                      lowerL ((scanOneAttr (c :: cs)).1)) = true
                  · rw [if_pos h6]
                    exact hv
                  · rw [if_neg h6]
                    intro a ha
                    rcases List.mem_append.mp ha with h7 | h7
                    · exact hv a h7
                    · have h8 : a = (lowerL ((scanOneAttr (c :: cs)).1),
                        (scanOneAttr (c :: cs)).2.1) := by simpa using h7
                      rw [h8]
                      exact hvn
                have haddn : ((addAttr acc (lowerL ((scanOneAttr (c :: cs)).1))
                    ((scanOneAttr (c :: cs)).2.1)).map Prod.fst).Nodup := by
                  rw [addAttr]
                  by_cases h6 : (acc.any fun a => a.1 =
                      lowerL ((scanOneAttr (c :: cs)).1)) = true
                  · rw [if_pos h6]
                    exact hn
                  · rw [if_neg h6]
                    rw [List.map_append]
                    rw [List.nodup_append]
                    refine ⟨hn, by simp, ?_⟩
                    intro x hx
                    simp only [List.map_cons, List.map_nil, List.mem_singleton]
                    intro hx2
                    apply h6
                    rw [List.any_eq_true]
                    rcases List.mem_map.mp hx with ⟨a, ha, hax⟩
                    refine ⟨a, ha, ?_⟩
                    rw [decide_eq_true_eq, hax, hx2]
                exact ih _ _ attrs sc r h haddv haddn

/-- Every token emitted by a tokenizer step satisfies `TokTk`. -/
theorem tokStep_tk (s : List Char) (t : Tok) (r : List Char)
    (h : tokStep s = some (t, r)) : TokTk t := by
  cases s with
  | nil => exact absurd h (by simp [tokStep])
  | cons c cs =>
    rw [tokStep.eq_def] at h
    dsimp only at h
    by_cases h1 : isTagStart (c :: cs) = true
    · rw [if_pos h1] at h
      cases cs with
      | nil => exact Option.noConfusion h
      | cons c2 cs2 =>
        dsimp only at h
        by_cases h2 : c2 = '/'
        · rw [if_pos h2] at h
          obtain ⟨nm, r1, h3⟩ : ∃ nm r1,
              cs2.span (fun d => !(d = '>')) = (nm, r1) := ⟨_, _, rfl⟩
          rw [h3] at h
          dsimp only at h
          cases r1 with
          | nil => exact Option.noConfusion h
          | cons x r2 =>
            have h4 : t = Tok.endTag (lowerL nm) := by
              simp only [Option.some.injEq, Prod.mk.injEq] at h
              exact h.1.symm
            rw [h4]
            exact trivial
        · rw [if_neg h2] at h
          by_cases h3 : (c2 = '!' && ['-', '-'].isPrefixOf cs2) = true
          · rw [if_pos h3] at h
            have h4 : t = Tok.comment (scanComment (cs2.drop 2)).1 := by
              simp only [Option.some.injEq, Prod.mk.injEq] at h
              exact h.1.symm
            rw [h4]
            exact trivial
          · rw [if_neg h3] at h
            by_cases h4 : (c2 = '!' || c2 = '?') = true
            · rw [if_pos h4] at h
              have h5 : t = Tok.comment (scanBogus cs2).1 := by
                simp only [Option.some.injEq, Prod.mk.injEq] at h
                exact h.1.symm
              rw [h5]
              exact trivial
            · rw [if_neg h4] at h
              obtain ⟨nm, r1, h5⟩ : ∃ nm r1,
                  (c2 :: cs2).span isNameChar = (nm, r1) := ⟨_, _, rfl⟩
              rw [h5] at h
              dsimp only at h
              rcases h6 : scanAttrs (r1.length + 1) [] r1 with _ | ⟨attrs, sc, r2⟩
              · rw [h6] at h
                exact Option.noConfusion h
              · rw [h6] at h
                dsimp only at h
                have h7 : t = Tok.startTag (lowerL nm) attrs sc := by
                  simp only [Option.some.injEq, Prod.mk.injEq] at h
                  exact h.1.symm
                rw [h7]
                have h4b : ¬(c2 = '!') ∧ ¬(c2 = '?') := by
                  rw [Bool.or_eq_true, decide_eq_true_eq, decide_eq_true_eq] at h4
                  exact not_or.mp h4
                have halpha : c2.isAlpha = true := by
                  simp only [isTagStart, Bool.and_eq_true, Bool.or_eq_true,
                    decide_eq_true_eq] at h1
                  rcases h1.2 with ((h8 | h8) | h8) | h8
                  · exact h8
                  · exact absurd h8 h2
                  · exact absurd h8 h4b.1
                  · exact absurd h8 h4b.2
                have hnm : nm = c2 :: cs2.takeWhile isNameChar := by
                  have h8 : (c2 :: cs2).span isNameChar =
                      ((c2 :: cs2).takeWhile isNameChar,
                       (c2 :: cs2).dropWhile isNameChar) :=
                    List.span_eq_take_drop _ _
                  rw [h8] at h5
                  have h9 : nm = (c2 :: cs2).takeWhile isNameChar := by
                    simp only [Prod.mk.injEq] at h5
                    exact h5.1.symm
                  rw [h9, List.takeWhile_cons, if_pos (isNameChar_of_isAlpha c2 halpha)]
                have hnmchars : ∀ d ∈ nm, isNameChar d = true := by
                  intro d hd
                  rw [hnm] at hd
                  rcases List.mem_cons.mp hd with h8 | h8
                  · rw [h8]
                    exact isNameChar_of_isAlpha c2 halpha
                  · exact List.mem_takeWhile_imp h8
                refine ⟨⟨?_, ?_⟩, ?_⟩
                · intro d hd
                  rcases List.mem_map.mp hd with ⟨e, he, hde⟩
                  rw [← hde]
                  exact ⟨isNameChar_toLower e (hnmchars e he), toLower_idem e⟩
                · rw [hnm]
                  rw [show lowerL (c2 :: cs2.takeWhile isNameChar) =
                    c2.toLower :: lowerL (cs2.takeWhile isNameChar) from rfl]
                  exact isAlpha_toLower c2 halpha
                · exact scanAttrs_inv (r1.length + 1) [] r1 attrs sc r2 h6
                    (fun a ha => absurd ha (List.not_mem_nil a)) List.nodup_nil
    · rw [if_neg h1] at h
      obtain ⟨t0, r0, h3⟩ : ∃ t0 r0, scanText (c :: cs) = (t0, r0) := ⟨_, _, rfl⟩
      rw [h3] at h
      dsimp only at h
      have h4 : t = Tok.text (unescape t0) := by
        simp only [Option.some.injEq, Prod.mk.injEq] at h
        exact h.1.symm
      have h5 : t0 = c :: (scanText cs).1 := by
        rw [scanText_cons, if_neg h1] at h3
        simp only [Prod.mk.injEq] at h3
        exact h3.1.symm
      rw [h4, h5]
      exact unescape_ne_nil _ _

/-- Every token the tokenizer emits satisfies `TokTk`. -/
theorem tokenizeF_tk (f : Nat) : ∀ (s : List Char), ∀ t ∈ tokenizeF f s, TokTk t := by
  induction f with
  | zero =>
    intro s t ht
    exact absurd ht (List.not_mem_nil t)
  | succ f2 ih =>
    intro s t ht
    rw [tokenizeF] at ht
    rcases h : tokStep s with _ | p
    · rw [h] at ht
      exact absurd ht (by simp)
    · rw [h] at ht
      simp only [Option.elim] at ht
      rcases List.mem_cons.mp ht with h2 | h2
      · rw [h2]
        exact tokStep_tk s p.1 p.2 (by rw [h])
      · exact ih p.2 t h2

theorem NodesA_iff (l : List Node) : NodesA l ↔ ∀ n ∈ l, NodeA n := by
  induction l with
  | nil =>
    rw [NodesA]
    exact ⟨fun _ n hn => absurd hn (List.not_mem_nil n), fun _ => trivial⟩
  | cons n ns ih =>
    rw [NodesA]
    constructor
    · rintro ⟨h1, h2⟩ m hm
      rcases List.mem_cons.mp hm with h3 | h3
      · rw [h3]
        exact h1
      · exact ih.mp h2 m h3
    · intro h
      exact ⟨h n (List.mem_cons_self _ _),
        ih.mpr fun m hm => h m (List.mem_cons_of_mem _ hm)⟩

theorem addNode_StA (st : PState) (n : Node) (h : StA st) (hn : NodeA n) :
    StA (addNode st n) := by
  rcases st with ⟨stack, rtop⟩
  cases stack with
  | nil =>
    refine ⟨h.1, ?_⟩
    intro m hm
    rcases List.mem_cons.mp hm with h2 | h2
    · rw [h2]
      exact hn
    · exact h.2 m h2
  | cons f fs =>
    refine ⟨?_, h.2⟩
    intro f2 hf2
    rcases List.mem_cons.mp hf2 with h2 | h2
    · rw [h2]
      have hf := h.1 f (List.mem_cons_self _ _)
      refine ⟨hf.1, hf.2.1, hf.2.2.1, ?_⟩
      intro m hm
      rcases List.mem_cons.mp hm with h3 | h3
      · rw [h3]
        exact hn
      · exact hf.2.2.2 m h3
    · exact h.1 f2 (List.mem_cons_of_mem _ h2)

theorem consOpt_NodeA (p : Option Node) (l : List Node)
    (hp : ∀ m, p = some m → NodeA m) (hl : ∀ n ∈ l, NodeA n) :
    ∀ n ∈ consOpt p l, NodeA n := by
  cases p with
  | none => exact hl
  | some m =>
    intro n hn
    rcases List.mem_cons.mp hn with h2 | h2
    · rw [h2]
      exact hp m rfl
    · exact hl n h2

theorem closeUpto_StA (nm : List Char) :
    ∀ (fs : List Frame) (pending : Option Node) (rtop : List Node),
      (∀ f ∈ fs, ValidName f.name ∧ (∀ a ∈ f.attrs, ValidAttrName a.1) ∧
        (f.attrs.map Prod.fst).Nodup ∧ ∀ n ∈ f.racc, NodeA n) →
      (∀ m, pending = some m → NodeA m) →
      (∀ n ∈ rtop, NodeA n) →
      StA (closeUpto nm fs pending rtop) := by
  intro fs
  induction fs with
  | nil =>
    intro pending rtop hf hp hr
    exact ⟨fun f hf2 => absurd hf2 (List.not_mem_nil f),
      consOpt_NodeA pending rtop hp hr⟩
  | cons f fs2 ih =>
    intro pending rtop hf hp hr
    rw [closeUpto]
    have hfh := hf f (List.mem_cons_self _ _)
    have hnode : NodeA (Node.elem f.name f.attrs (consOpt pending f.racc).reverse) := by
      rw [NodeA]
      refine ⟨hfh.1, hfh.2.1, hfh.2.2.1, ?_⟩
      rw [NodesA_iff]
      intro m hm
      exact consOpt_NodeA pending f.racc hp hfh.2.2.2 m (List.mem_reverse.mp hm)
    by_cases h2 : f.name = nm
    · rw [if_pos h2]
      exact addNode_StA ⟨fs2, rtop⟩
        (Node.elem f.name f.attrs (consOpt pending f.racc).reverse)
        ⟨fun f2 hf2 => hf f2 (List.mem_cons_of_mem _ hf2), hr⟩ hnode
    · rw [if_neg h2]
      refine ih (some (Node.elem f.name f.attrs (consOpt pending f.racc).reverse))
        rtop (fun f2 hf2 => hf f2 (List.mem_cons_of_mem _ hf2)) ?_ hr
      intro m hm
      injection hm with h3
      rw [← h3]
      exact hnode

theorem stepTok_StA (st : PState) (t : Tok) (h : StA st) (ht : TokTk t) :
    StA (stepTok st t) := by
  cases t with
  | text s => exact addNode_StA st (Node.text s) h ht
  | comment s => exact addNode_StA st (Node.comment s) h trivial
  | startTag n attrs sc =>
    rw [stepTok]
    by_cases h2 : (sc || n ∈ voidNames) = true
    · rw [if_pos h2]
      refine addNode_StA st (Node.elem n attrs []) h ?_
      rw [NodeA]
      exact ⟨ht.1, ht.2.1, ht.2.2, trivial⟩
    · rw [if_neg h2]
      refine ⟨?_, h.2⟩
      intro f hf
      rcases List.mem_cons.mp hf with h3 | h3
      · rw [h3]
        exact ⟨ht.1, ht.2.1, ht.2.2, fun m hm => absurd hm (List.not_mem_nil m)⟩
      · exact h.1 f h3
  | endTag n =>
    rw [stepTok]
    by_cases h2 : (st.stack.any fun f => f.name = n) = true
    · rw [if_pos h2]
      exact closeUpto_StA n st.stack none st.rtop h.1 (fun m hm => Option.noConfusion hm)
        h.2
    · rw [if_neg h2]
      exact h

theorem finalizeGo_NodeA :
    ∀ (fs : List Frame) (pending : Option Node) (rtop : List Node),
      (∀ f ∈ fs, ValidName f.name ∧ (∀ a ∈ f.attrs, ValidAttrName a.1) ∧
        (f.attrs.map Prod.fst).Nodup ∧ ∀ n ∈ f.racc, NodeA n) →
      (∀ m, pending = some m → NodeA m) →
      (∀ n ∈ rtop, NodeA n) →
      ∀ n ∈ finalizeGo fs pending rtop, NodeA n := by
  intro fs
  induction fs with
  | nil =>
    intro pending rtop hf hp hr n hn
    rw [finalizeGo] at hn
    exact consOpt_NodeA pending rtop hp hr n (List.mem_reverse.mp hn)
  | cons f fs2 ih =>
    intro pending rtop hf hp hr n hn
    rw [finalizeGo] at hn
    have hfh := hf f (List.mem_cons_self _ _)
    have hnode : NodeA (Node.elem f.name f.attrs (consOpt pending f.racc).reverse) := by
      rw [NodeA]
      refine ⟨hfh.1, hfh.2.1, hfh.2.2.1, ?_⟩
      rw [NodesA_iff]
      intro m hm
      exact consOpt_NodeA pending f.racc hp hfh.2.2.2 m (List.mem_reverse.mp hm)
    refine ih (some (Node.elem f.name f.attrs (consOpt pending f.racc).reverse))
      rtop (fun f2 hf2 => hf f2 (List.mem_cons_of_mem _ hf2)) ?_ hr n hn
    intro m hm
    injection hm with h3
    rw [← h3]
    exact hnode

theorem foldl_StA :
    ∀ (ts : List Tok) (st : PState), StA st → (∀ t ∈ ts, TokTk t) →
      StA (ts.foldl stepTok st) := by
  intro ts
  induction ts with
  | nil => exact fun st h _ => h
  | cons t rest ih =>
    intro st h ht
    rw [List.foldl_cons]
    exact ih (stepTok st t) (stepTok_StA st t h (ht t (List.mem_cons_self _ _)))
      (fun u hu => ht u (List.mem_cons_of_mem _ hu))

/-- Every node of a parsed fragment satisfies `NodeA`. -/
theorem treeify_NodeA (ts : List Tok) (ht : ∀ t ∈ ts, TokTk t) :
    ∀ n ∈ treeify ts, NodeA n := by
  rw [treeify, finalize]
  have h := foldl_StA ts ⟨[], []⟩
    ⟨fun f hf => absurd hf (List.not_mem_nil f),
     fun n hn => absurd hn (List.not_mem_nil n)⟩ ht
  exact finalizeGo_NodeA _ none _ h.1 (fun m hm => Option.noConfusion hm) h.2

/-- Every node of `parseHtml` satisfies `NodeA`. -/
theorem parseHtml_NodeA (s : List Char) : ∀ n ∈ parseHtml s, NodeA n :=
  treeify_NodeA _ (tokenizeF_tk _ _)

theorem NodesB_iff (l : List Node) : NodesB l ↔ ∀ n ∈ l, NodeB n := by
  induction l with
  | nil =>
    rw [NodesB]
    exact ⟨fun _ n hn => absurd hn (List.not_mem_nil n), fun _ => trivial⟩
  | cons n ns ih =>
    rw [NodesB]
    constructor
    · rintro ⟨h1, h2⟩ m hm
      rcases List.mem_cons.mp hm with h3 | h3
      · rw [h3]
        exact h1
      · exact ih.mp h2 m h3
    · intro h
      exact ⟨h n (List.mem_cons_self _ _),
        ih.mpr fun m hm => h m (List.mem_cons_of_mem _ hm)⟩

mutual

/-- The name pass preserves `NodeA`. -/
theorem removeByName_A (n : Node) (h : NodeA n) :
    ∀ m, removeByName n = some m → NodeA m := by
  intro m hm
  cases n with
  | text s =>
    simp only [removeByName, Option.some.injEq] at hm
    rw [← hm]
    exact h
  | comment s =>
    simp only [removeByName, Option.some.injEq] at hm
    rw [← hm]
    exact h
  | elem nm attrs ch =>
    rw [removeByName] at hm
    by_cases h2 : nm ∈ removedNames
    · rw [if_pos h2] at hm
      exact Option.noConfusion hm
    · rw [if_neg h2, Option.some.injEq] at hm
      rw [← hm, NodeA]
      rw [NodeA] at h
      refine ⟨h.1, h.2.1, h.2.2.1, ?_⟩
      rw [NodesA_iff]
      exact removeByNameList_A ch (NodesA_iff ch |>.mp h.2.2.2)

/-- The name pass preserves `NodeA` over forests. -/
theorem removeByNameList_A (ns : List Node) (h : ∀ n ∈ ns, NodeA n) :
    ∀ m ∈ removeByNameList ns, NodeA m := by
  intro m hm
  cases ns with
  | nil => exact absurd hm (List.not_mem_nil m)
  | cons n rest =>
    rw [removeByNameList] at hm
    rcases h2 : removeByName n with _ | m2
    · rw [h2] at hm
      exact removeByNameList_A rest (fun u hu => h u (List.mem_cons_of_mem _ hu)) m hm
    · rw [h2] at hm
      rcases List.mem_cons.mp hm with h3 | h3
      · rw [h3]
        exact removeByName_A n (h n (List.mem_cons_self _ _)) m2 h2
      · exact removeByNameList_A rest (fun u hu => h u (List.mem_cons_of_mem _ hu)) m h3

end

mutual

/-- The comment pass upgrades `NodeA` to `NodeB`. -/
theorem removeComments_B (n : Node) (h : NodeA n) :
    ∀ m, removeComments n = some m → NodeB m := by
  intro m hm
  cases n with
  | text s =>
    simp only [removeComments, Option.some.injEq] at hm
    rw [← hm]
    exact h
  | comment s => exact Option.noConfusion hm
  | elem nm attrs ch =>
    simp only [removeComments, Option.some.injEq] at hm
    rw [← hm, NodeB]
    rw [NodeA] at h
    refine ⟨h.1, h.2.1, h.2.2.1, ?_⟩
    rw [NodesB_iff]
    exact removeCommentsList_B ch (NodesA_iff ch |>.mp h.2.2.2)

/-- The comment pass upgrades `NodeA` to `NodeB` over forests. -/
theorem removeCommentsList_B (ns : List Node) (h : ∀ n ∈ ns, NodeA n) :
    ∀ m ∈ removeCommentsList ns, NodeB m := by
  intro m hm
  cases ns with
  | nil => exact absurd hm (List.not_mem_nil m)
  | cons n rest =>
    rw [removeCommentsList] at hm
    rcases h2 : removeComments n with _ | m2
    · rw [h2] at hm
      exact removeCommentsList_B rest (fun u hu => h u (List.mem_cons_of_mem _ hu)) m hm
    · rw [h2] at hm
      rcases List.mem_cons.mp hm with h3 | h3
      · rw [h3]
        exact removeComments_B n (h n (List.mem_cons_self _ _)) m2 h2
      · exact removeCommentsList_B rest (fun u hu => h u (List.mem_cons_of_mem _ hu)) m h3

end

mutual

/-- The attribute pass preserves `NodeB`. -/
theorem attrPass_B (n : Node) (h : NodeB n) :
    ∀ m, attrPassNode n = some m → NodeB m := by
  intro m hm
  cases n with
  | text s =>
    simp only [attrPassNode, Option.some.injEq] at hm
    rw [← hm]
    exact h
  | comment s => exact h.elim
  | elem nm attrs ch =>
    rw [NodeB] at h
    have hch : NodesB (attrPassList ch) := by
      rw [NodesB_iff]
      exact attrPassList_B ch (NodesB_iff ch |>.mp h.2.2.2)
    have hfil : ∀ a ∈ attrs.filter (fun a => allowedAttrs.contains a.1),
        ValidAttrName a.1 :=
      fun a ha => h.2.1 a (List.mem_filter.mp ha).1
    have hfn : (((attrs.filter (fun a => allowedAttrs.contains a.1)).map
        Prod.fst)).Nodup :=
      List.Nodup.sublist (List.Sublist.map Prod.fst (List.filter_sublist attrs))
        h.2.2.1
    rw [attrPassNode] at hm
    by_cases h2 : nm = "meta".data
    · rw [if_pos h2, Option.some.injEq] at hm
      rw [← hm, NodeB]
      exact ⟨h.1, h.2.1, h.2.2.1, hch⟩
    · rw [if_neg h2] at hm
      dsimp only at hm
      rcases h3 : lookupAttr (attrs.filter (fun a => allowedAttrs.contains a.1))
          "src".data with _ | v
      · rw [h3] at hm
        rw [Option.some.injEq] at hm
        rw [← hm, NodeB]
        exact ⟨h.1, hfil, hfn, hch⟩
      · rw [h3] at hm
        dsimp only at hm
        by_cases h4 : (['d', 'a', 't', 'a'].isPrefixOf v) = true
        · rw [if_pos h4] at hm
          exact Option.noConfusion hm
        · rw [if_neg h4, Option.some.injEq] at hm
          rw [← hm, NodeB]
          exact ⟨h.1, hfil, hfn, hch⟩

/-- The attribute pass preserves `NodeB` over forests. -/
theorem attrPassList_B (ns : List Node) (h : ∀ n ∈ ns, NodeB n) :
    ∀ m ∈ attrPassList ns, NodeB m := by
  intro m hm
  cases ns with
  | nil => exact absurd hm (List.not_mem_nil m)
  | cons n rest =>
    rw [attrPassList] at hm
    rcases h2 : attrPassNode n with _ | m2
    · rw [h2] at hm
      exact attrPassList_B rest (fun u hu => h u (List.mem_cons_of_mem _ hu)) m hm
    · rw [h2] at hm
      rcases List.mem_cons.mp hm with h3 | h3
      · rw [h3]
        exact attrPass_B n (h n (List.mem_cons_self _ _)) m2 h2
      · exact attrPassList_B rest (fun u hu => h u (List.mem_cons_of_mem _ hu)) m h3

end

/-- Every node of the minimized forest satisfies `NodeB`. -/
theorem minimizeNodes_B (ns : List Node) (h : ∀ n ∈ ns, NodeA n) :
    ∀ m ∈ minimizeNodes ns, NodeB m := by
  rw [minimizeNodes]
  exact attrPassList_B _ (removeCommentsList_B _ (removeByNameList_A _ h))

mutual

/-- Serializing a `NodeB` node yields only source-stage tokens. -/
theorem nodeToks_TokSrc (n : Node) (h : NodeB n) : ∀ t ∈ nodeToks n, TokSrc t := by
  intro t ht
  cases n with
  | text s =>
    have h2 : t = Tok.text s := by simpa [nodeToks] using ht
    rw [h2]
    exact h
  | comment s => exact h.elim
  | elem nm attrs ch =>
    rw [NodeB] at h
    rw [nodeToks] at ht
    by_cases h2 : nm ∈ voidNames
    · rw [if_pos h2] at ht
      have h3 : t = Tok.startTag nm attrs true := by simpa using ht
      rw [h3]
      exact ⟨h.1, h.2.1, h.2.2.1⟩
    · rw [if_neg h2] at ht
      rcases List.mem_cons.mp ht with h3 | h3
      · rw [h3]
        exact ⟨h.1, h.2.1, h.2.2.1⟩
      · rcases List.mem_append.mp h3 with h4 | h4
        · exact nodesToks_TokSrc ch (NodesB_iff ch |>.mp h.2.2.2) t h4
        · have h5 : t = Tok.endTag nm := by simpa using h4
          rw [h5]
          exact h.1

/-- Serializing a `NodeB` forest yields only source-stage tokens. -/
theorem nodesToks_TokSrc (ns : List Node) (h : ∀ n ∈ ns, NodeB n) :
    ∀ t ∈ nodesToks ns, TokSrc t := by
  intro t ht
  cases ns with
  | nil => exact absurd ht (List.not_mem_nil t)
  | cons n rest =>
    rw [nodesToks] at ht
    rcases List.mem_append.mp ht with h2 | h2
    · exact nodeToks_TokSrc n (h n (List.mem_cons_self _ _)) t h2
    · exact nodesToks_TokSrc rest (fun u hu => h u (List.mem_cons_of_mem _ hu)) t h2

end

/-- The serialized minimized forest is a source-stage stream. -/
theorem minimized_TokSrc (s : List Char) :
    ∀ t ∈ nodesToks (minimizeNodes (parseHtml s)), TokSrc t :=
  nodesToks_TokSrc _ (minimizeNodes_B _ (parseHtml_NodeA s))

/-- The grand composition, hypothesis-free: parsing the minimized output
reconstructs the token pipeline applied to the minimized forest. -/
theorem parseHtml_minimizeHtml (s : List Char) :
    parseHtml (minimizeHtml s) =
      treeify (postTok (nodesToks (minimizeNodes (parseHtml s)))) := by
  rw [parseHtml, tokenize_minimizeHtml s (minimized_TokSrc s)]

theorem mem_elemsOfList (l : List Node) (e : Node) :
    e ∈ elemsOfList l ↔ ∃ n ∈ l, e ∈ elemsOfNode n := by
  induction l with
  | nil =>
    rw [elemsOfList]
    constructor
    · intro h
      exact absurd h (List.not_mem_nil e)
    · rintro ⟨n, hn, _⟩
      exact absurd hn (List.not_mem_nil n)
  | cons n ns ih =>
    rw [elemsOfList]
    constructor
    · intro h
      rcases List.mem_append.mp h with h2 | h2
      · exact ⟨n, List.mem_cons_self _ _, h2⟩
      · rcases ih.mp h2 with ⟨m, hm, hm2⟩
        exact ⟨m, List.mem_cons_of_mem _ hm, hm2⟩
    · rintro ⟨m, hm, hm2⟩
      rcases List.mem_cons.mp hm with h2 | h2
      · rw [h2] at hm2
        exact List.mem_append.mpr (Or.inl hm2)
      · exact List.mem_append.mpr (Or.inr (ih.mpr ⟨m, h2, hm2⟩))

theorem elemsOfNode_nonElem (nd : Node) (hnd : ∀ n attrs ch, nd ≠ Node.elem n attrs ch) :
    elemsOfNode nd = [] := by
  cases nd with
  | text s => rfl
  | comment s => rfl
  | elem n attrs ch => exact absurd rfl (hnd n attrs ch)

theorem addNode_StP (Q : List Char → List Attr → Prop) (st : PState) (nd : Node)
    (h : StP Q st) (hnd : ∀ e ∈ elemsOfNode nd, ElemP Q e) :
    StP Q (addNode st nd) := by
  rcases st with ⟨stack, rtop⟩
  cases stack with
  | nil =>
    refine ⟨h.1, ?_⟩
    intro e he
    rcases (mem_elemsOfList _ e).mp he with ⟨m, hm, hm2⟩
    rcases List.mem_cons.mp hm with h2 | h2
    · rw [h2] at hm2
      exact hnd e hm2
    · exact h.2 e ((mem_elemsOfList _ e).mpr ⟨m, h2, hm2⟩)
  | cons f fs =>
    refine ⟨?_, h.2⟩
    intro f2 hf2
    rcases List.mem_cons.mp hf2 with h2 | h2
    · rw [h2]
      have hf := h.1 f (List.mem_cons_self _ _)
      refine ⟨hf.1, hf.2.1, ?_⟩
      intro e he
      rcases (mem_elemsOfList _ e).mp he with ⟨m, hm, hm2⟩
      rcases List.mem_cons.mp hm with h3 | h3
      · rw [h3] at hm2
        exact hnd e hm2
      · exact hf.2.2 e ((mem_elemsOfList _ e).mpr ⟨m, h3, hm2⟩)
    · exact h.1 f2 (List.mem_cons_of_mem _ h2)

theorem consOpt_ElemP (Q : List Char → List Attr → Prop) (p : Option Node)
    (l : List Node) (hp : ∀ m, p = some m → ∀ e ∈ elemsOfNode m, ElemP Q e)
    (hl : ∀ e ∈ elemsOfList l, ElemP Q e) :
    ∀ e ∈ elemsOfList (consOpt p l), ElemP Q e := by
  cases p with
  | none => exact hl
  | some m =>
    intro e he
    rcases (mem_elemsOfList _ e).mp he with ⟨m2, hm2, hm3⟩
    rcases List.mem_cons.mp hm2 with h2 | h2
    · rw [h2] at hm3
      exact hp m rfl e hm3
    · exact hl e ((mem_elemsOfList _ e).mpr ⟨m2, h2, hm3⟩)

theorem elemsOfList_reverse (l : List Node) (e : Node) :
    e ∈ elemsOfList l.reverse ↔ e ∈ elemsOfList l := by
  rw [mem_elemsOfList, mem_elemsOfList]
  constructor
  · rintro ⟨m, hm, hm2⟩
    exact ⟨m, List.mem_reverse.mp hm, hm2⟩
  · rintro ⟨m, hm, hm2⟩
    exact ⟨m, List.mem_reverse.mpr hm, hm2⟩

theorem frame_elem_ElemP (Q : List Char → List Attr → Prop) (f : Frame)
    (pending : Option Node)
    (hf : Q f.name f.attrs ∧ f.name ∉ voidNames ∧
      ∀ e ∈ elemsOfList f.racc, ElemP Q e)
    (hp : ∀ m, pending = some m → ∀ e ∈ elemsOfNode m, ElemP Q e) :
    ∀ e ∈ elemsOfNode
      (Node.elem f.name f.attrs (consOpt pending f.racc).reverse), ElemP Q e := by
  intro e he
  rw [elemsOfNode] at he
  rcases List.mem_cons.mp he with h2 | h2
  · rw [h2]
    intro n attrs ch hch
    injection hch with hn ha hc
    refine ⟨by rw [← hn, ← ha]; exact hf.1, ?_⟩
    intro hvoid
    rw [← hn] at hvoid
    exact absurd hvoid hf.2.1
  · exact consOpt_ElemP Q pending f.racc hp hf.2.2 e
      ((elemsOfList_reverse _ e).mp h2)

theorem closeUpto_StP (Q : List Char → List Attr → Prop) (nm : List Char) :
    ∀ (fs : List Frame) (pending : Option Node) (rtop : List Node),
      (∀ f ∈ fs, Q f.name f.attrs ∧ f.name ∉ voidNames ∧
        ∀ e ∈ elemsOfList f.racc, ElemP Q e) →
      (∀ m, pending = some m → ∀ e ∈ elemsOfNode m, ElemP Q e) →
      (∀ e ∈ elemsOfList rtop, ElemP Q e) →
      StP Q (closeUpto nm fs pending rtop) := by
  intro fs
  induction fs with
  | nil =>
    intro pending rtop hf hp hr
    exact ⟨fun f hf2 => absurd hf2 (List.not_mem_nil f), consOpt_ElemP Q pending rtop hp hr⟩
  | cons f fs2 ih =>
    intro pending rtop hf hp hr
    rw [closeUpto]
    have hfh := hf f (List.mem_cons_self _ _)
    have hnode := frame_elem_ElemP Q f pending hfh hp
    by_cases h2 : f.name = nm
    · rw [if_pos h2]
      refine addNode_StP Q ⟨fs2, rtop⟩ _
        ⟨fun f2 hf2 => hf f2 (List.mem_cons_of_mem _ hf2), hr⟩ hnode
    · rw [if_neg h2]
      refine ih (some (Node.elem f.name f.attrs (consOpt pending f.racc).reverse))
        rtop (fun f2 hf2 => hf f2 (List.mem_cons_of_mem _ hf2)) ?_ hr
      intro m hm
      injection hm with h3
      rw [← h3]
      exact hnode

theorem stepTok_StP (Q : List Char → List Attr → Prop) (st : PState) (t : Tok)
    (h : StP Q st)
    (ht : ∀ n attrs sc, t = Tok.startTag n attrs sc → Q n attrs) :
    StP Q (stepTok st t) := by
  cases t with
  | text s =>
    exact addNode_StP Q st (Node.text s) h
      (fun e he => absurd he (by rw [elemsOfNode] at he ⊢; exact List.not_mem_nil e))
  | comment s =>
    exact addNode_StP Q st (Node.comment s) h
      (fun e he => absurd he (by rw [elemsOfNode] at he ⊢; exact List.not_mem_nil e))
  | startTag n attrs sc =>
    rw [stepTok]
    by_cases h2 : (sc || n ∈ voidNames) = true
    · rw [if_pos h2]
      refine addNode_StP Q st (Node.elem n attrs []) h ?_
      intro e he
      rw [elemsOfNode] at he
      rcases List.mem_cons.mp he with h3 | h3
      · rw [h3]
        intro n2 attrs2 ch2 hch
        injection hch with hn ha hc
        exact ⟨by rw [← hn, ← ha]; exact ht n attrs sc rfl, fun _ => hc.symm⟩
      · exact absurd h3 (by rw [elemsOfList]; exact List.not_mem_nil e)
    · rw [if_neg h2]
      refine ⟨?_, h.2⟩
      intro f hf
      rcases List.mem_cons.mp hf with h3 | h3
      · rw [h3]
        refine ⟨ht n attrs sc rfl, ?_, ?_⟩
        · intro hv
          rw [Bool.or_eq_true] at h2
          exact h2 (Or.inr (by rw [decide_eq_true_eq]; exact hv))
        · intro e he
          exact absurd he (by rw [elemsOfList]; exact List.not_mem_nil e)
      · exact h.1 f h3
  | endTag n =>
    rw [stepTok]
    by_cases h2 : (st.stack.any fun f => f.name = n) = true
    · rw [if_pos h2]
      exact closeUpto_StP Q n st.stack none st.rtop h.1
        (fun m hm => Option.noConfusion hm) h.2
    · rw [if_neg h2]
      exact h

theorem finalizeGo_ElemP (Q : List Char → List Attr → Prop) :
    ∀ (fs : List Frame) (pending : Option Node) (rtop : List Node),
      (∀ f ∈ fs, Q f.name f.attrs ∧ f.name ∉ voidNames ∧
        ∀ e ∈ elemsOfList f.racc, ElemP Q e) →
      (∀ m, pending = some m → ∀ e ∈ elemsOfNode m, ElemP Q e) →
      (∀ e ∈ elemsOfList rtop, ElemP Q e) →
      ∀ e ∈ elemsOfList (finalizeGo fs pending rtop), ElemP Q e := by
  intro fs
  induction fs with
  | nil =>
    intro pending rtop hf hp hr e he
    rw [finalizeGo] at he
    exact consOpt_ElemP Q pending rtop hp hr e ((elemsOfList_reverse _ e).mp he)
  | cons f fs2 ih =>
    intro pending rtop hf hp hr e he
    rw [finalizeGo] at he
    have hfh := hf f (List.mem_cons_self _ _)
    have hnode := frame_elem_ElemP Q f pending hfh hp
    refine ih (some (Node.elem f.name f.attrs (consOpt pending f.racc).reverse))
      rtop (fun f2 hf2 => hf f2 (List.mem_cons_of_mem _ hf2)) ?_ hr e he
    intro m hm
    injection hm with h3
    rw [← h3]
    exact hnode

theorem foldl_StP (Q : List Char → List Attr → Prop) :
    ∀ (ts : List Tok) (st : PState), StP Q st →
      (∀ t ∈ ts, ∀ n attrs sc, t = Tok.startTag n attrs sc → Q n attrs) →
      StP Q (ts.foldl stepTok st) := by
  intro ts
  induction ts with
  | nil => exact fun st h _ => h
  | cons t rest ih =>
    intro st h ht
    rw [List.foldl_cons]
    exact ih (stepTok st t)
      (stepTok_StP Q st t h (ht t (List.mem_cons_self _ _)))
      (fun u hu => ht u (List.mem_cons_of_mem _ hu))

/-- Element provenance for the tree builder: every element of the built
forest has its name and attributes from a start tag of the stream, and
void-named elements are childless. -/
theorem treeify_ElemP (ts : List Tok) :
    ∀ e ∈ elemsOfList (treeify ts),
      ElemP (fun n attrs => ∃ sc, Tok.startTag n attrs sc ∈ ts) e := by
  rw [treeify, finalize]
  have h := foldl_StP (fun n attrs => ∃ sc, Tok.startTag n attrs sc ∈ ts) ts ⟨[], []⟩
    ⟨fun f hf => absurd hf (List.not_mem_nil f),
     fun e he => absurd he (by rw [elemsOfList] at he ⊢; exact List.not_mem_nil e)⟩
    (fun t ht n attrs sc h2 => ⟨sc, by rw [← h2]; exact ht⟩)
  exact finalizeGo_ElemP _ _ none _ h.1 (fun m hm => Option.noConfusion hm) h.2

theorem trimTrailGo_mem (ts : List Tok) (u : Tok) (hu : u ∈ trimTrailGo ts) :
    u ∈ ts ∨ ∃ a, u = Tok.text a := by
  induction ts with
  | nil => exact absurd hu (List.not_mem_nil u)
  | cons t rest ih =>
    cases rest with
    | nil =>
      cases t with
      | text s =>
        rw [show trimTrailGo [Tok.text s] =
          (if ((dropWsL s.reverse).reverse).isEmpty then []
           else [Tok.text ((dropWsL s.reverse).reverse)]) from rfl] at hu
        by_cases hc : ((dropWsL s.reverse).reverse).isEmpty = true
        · rw [if_pos hc] at hu
          exact absurd hu (List.not_mem_nil u)
        · rw [if_neg hc] at hu
          exact Or.inr ⟨_, List.mem_singleton.mp hu⟩
      | comment a => exact Or.inl hu
      | startTag n attrs sc => exact Or.inl hu
      | endTag n => exact Or.inl hu
    | cons t2 rest2 =>
      rw [trimTrailGo_cons2] at hu
      rcases List.mem_cons.mp hu with h2 | h2
      · exact Or.inl (by rw [h2]; exact List.mem_cons_self _ _)
      · rcases ih h2 with h3 | h3
        · exact Or.inl (List.mem_cons_of_mem _ h3)
        · exact Or.inr h3

theorem trimLead_mem (ts : List Tok) (u : Tok) (hu : u ∈ trimLead ts) :
    u ∈ ts ∨ ∃ a, u = Tok.text a := by
  cases ts with
  | nil => exact Or.inl hu
  | cons t rest =>
    cases t with
    | text s =>
      rw [show trimLead (Tok.text s :: rest) =
        (if (dropWsL s).isEmpty then rest else Tok.text (dropWsL s) :: rest)
        from rfl] at hu
      by_cases hc : (dropWsL s).isEmpty = true
      · rw [if_pos hc] at hu
        exact Or.inl (List.mem_cons_of_mem _ hu)
      · rw [if_neg hc] at hu
        rcases List.mem_cons.mp hu with h2 | h2
        · exact Or.inr ⟨_, h2⟩
        · exact Or.inl (List.mem_cons_of_mem _ h2)
    | comment a => exact Or.inl hu
    | startTag n attrs sc => exact Or.inl hu
    | endTag n => exact Or.inl hu

theorem collapseTok_mem (ts : List Tok) (u : Tok) (hu : u ∈ collapseTok ts) :
    u ∈ ts := by
  cases ts with
  | nil => exact hu
  | cons t rest =>
    rw [show collapseTok (t :: rest) =
      (if wsText t then t :: collapseGo rest else collapseGo (t :: rest))
      from rfl] at hu
    by_cases h : wsText t = true
    · rw [if_pos h] at hu
      rcases List.mem_cons.mp hu with h2 | h2
      · rw [h2]
        exact List.mem_cons_self _ _
      · exact List.mem_cons_of_mem _ (collapseGo_mem rest u h2)
    · rw [if_neg h] at hu
      exact collapseGo_mem _ u hu

theorem map_renameEnd_startTag (p q : List Char) (X : List Tok) (n : List Char)
    (attrs : List Attr) (sc : Bool)
    (hu : Tok.startTag n attrs sc ∈ X.map (renameEnd p q)) :
    Tok.startTag n attrs sc ∈ X := by
  rcases List.mem_map.mp hu with ⟨v, hv, hvu⟩
  cases v with
  | text a => exact Tok.noConfusion hvu
  | comment a => exact Tok.noConfusion hvu
  | startTag n0 attrs0 sc0 =>
    rw [show renameEnd p q (Tok.startTag n0 attrs0 sc0) =
      Tok.startTag n0 attrs0 sc0 from rfl] at hvu
    rw [hvu] at hv
    exact hv
  | endTag n0 =>
    rw [show renameEnd p q (Tok.endTag n0) =
      (if n0 = p then Tok.endTag q else Tok.endTag n0) from rfl] at hvu
    by_cases h2 : n0 = p
    · rw [if_pos h2] at hvu
      exact Tok.noConfusion hvu
    · rw [if_neg h2] at hvu
      exact Tok.noConfusion hvu

theorem map_renameStart_startTag (p q : List Char) (X : List Tok) (n : List Char)
    (attrs : List Attr) (sc : Bool)
    (hu : Tok.startTag n attrs sc ∈ X.map (renameStart p q)) :
    ∃ n0, Tok.startTag n0 attrs sc ∈ X ∧ (n = n0 ∨ attrs = []) := by
  rcases List.mem_map.mp hu with ⟨v, hv, hvu⟩
  cases v with
  | text a => exact Tok.noConfusion hvu
  | comment a => exact Tok.noConfusion hvu
  | endTag n0 => exact Tok.noConfusion hvu
  | startTag n0 attrs0 sc0 =>
    rw [show renameStart p q (Tok.startTag n0 attrs0 sc0) =
      (if n0 = p ∧ attrs0 = [] ∧ sc0 = false then Tok.startTag q attrs0 sc0
       else Tok.startTag n0 attrs0 sc0) from rfl] at hvu
    by_cases h2 : n0 = p ∧ attrs0 = [] ∧ sc0 = false
    · rw [if_pos h2] at hvu
      injection hvu with hn ha hs
      refine ⟨n0, ?_, Or.inr (by rw [← ha]; exact h2.2.1)⟩
      rw [ha, hs] at hv
      exact hv
    · rw [if_neg h2] at hvu
      injection hvu with hn ha hs
      refine ⟨n0, ?_, Or.inl hn.symm⟩
      rw [ha, hs] at hv
      exact hv

theorem map_cleanTok_startTag (c0 : Char) (X : List Tok) (n : List Char)
    (attrs : List Attr) (sc : Bool)
    (hu : Tok.startTag n attrs sc ∈ X.map (cleanTok c0)) :
    ∃ attrs0, Tok.startTag n attrs0 sc ∈ X ∧
      attrs.map Prod.fst = attrs0.map Prod.fst := by
  rcases List.mem_map.mp hu with ⟨v, hv, hvu⟩
  cases v with
  | text a => exact Tok.noConfusion hvu
  | comment a => exact Tok.noConfusion hvu
  | endTag n0 => exact Tok.noConfusion hvu
  | startTag n0 attrs0 sc0 =>
    rw [show cleanTok c0 (Tok.startTag n0 attrs0 sc0) =
      Tok.startTag n0 (attrs0.map (fun a => (a.1, filterOut c0 a.2))) sc0
      from rfl] at hvu
    injection hvu with hn ha hs
    refine ⟨attrs0, ?_, ?_⟩
    · rw [hn, hs] at hv
      exact hv
    · rw [← ha, List.map_map]
      rfl

/-- Start tags of the post-pass stream come from start tags of the input
stream: the self-closing flag and the attribute names survive, and the name
changes only on attribute-less tags. -/
theorem postTok_startTag (ts : List Tok) (n : List Char) (attrs : List Attr)
    (sc : Bool) (hu : Tok.startTag n attrs sc ∈ postTok ts) :
    ∃ n0 attrs0, Tok.startTag n0 attrs0 sc ∈ ts ∧
      attrs.map Prod.fst = attrs0.map Prod.fst ∧ (n = n0 ∨ attrs = []) := by
  rw [postTok_eq] at hu
  have h1 : Tok.startTag n attrs sc ∈ collapseTok (postInner ts) := by
    rcases trimLead_mem _ _ hu with h | ⟨a, ha⟩
    · rcases trimTrailGo_mem _ _ h with h2 | ⟨a, ha⟩
      · exact h2
      · exact Tok.noConfusion ha
    · exact Tok.noConfusion ha
  have h2 : Tok.startTag n attrs sc ∈ postInner ts := collapseTok_mem _ _ h1
  rw [postInner] at h2
  rcases map_renameStart_startTag _ _ _ _ _ _ h2 with ⟨n1, h3, hc1⟩
  rcases map_renameStart_startTag _ _ _ _ _ _ h3 with ⟨n2, h4, hc2⟩
  have h5 := map_renameEnd_startTag _ _ _ _ _ _ h4
  have h6 := map_renameEnd_startTag _ _ _ _ _ _ h5
  have h7 := (dropEmptyTexts_mem _ _ h6).1
  rw [cleanToks0] at h7
  rcases map_cleanTok_startTag _ _ _ _ _ h7 with ⟨attrs1, h8, he1⟩
  rcases map_cleanTok_startTag _ _ _ _ _ h8 with ⟨attrs0, h9, he2⟩
  rcases mergeTexts_mem _ _ h9 with h10 | ⟨a, b, _, hab⟩
  · refine ⟨n2, attrs0, h10, by rw [he1, he2], ?_⟩
    rcases hc1 with hA | hA
    · rcases hc2 with hB | hB
      · exact Or.inl (hA.trans hB)
      · exact Or.inr hB
    · exact Or.inr hA
  · exact Tok.noConfusion hab

mutual

/-- Every element of a forest is an element node. -/
theorem elemsOfNode_shape (nd e : Node) (he : e ∈ elemsOfNode nd) :
    ∃ n attrs ch, e = Node.elem n attrs ch := by
  cases nd with
  | text s => exact absurd he (by rw [elemsOfNode]; exact List.not_mem_nil e)
  | comment s => exact absurd he (by rw [elemsOfNode]; exact List.not_mem_nil e)
  | elem n attrs ch =>
    rw [elemsOfNode] at he
    rcases List.mem_cons.mp he with h2 | h2
    · exact ⟨n, attrs, ch, h2⟩
    · exact elemsOfList_shape ch e h2

theorem elemsOfList_shape (l : List Node) (e : Node) (he : e ∈ elemsOfList l) :
    ∃ n attrs ch, e = Node.elem n attrs ch := by
  cases l with
  | nil => exact absurd he (by rw [elemsOfList]; exact List.not_mem_nil e)
  | cons nd rest =>
    rw [elemsOfList] at he
    rcases List.mem_append.mp he with h2 | h2
    · exact elemsOfNode_shape nd e h2
    · exact elemsOfList_shape rest e h2

end

mutual

/-- A start tag of a serialized node names an element of the node. -/
theorem nodeToks_startTag (nd : Node) (n : List Char) (attrs : List Attr)
    (sc : Bool) (hu : Tok.startTag n attrs sc ∈ nodeToks nd) :
    ∃ ch, Node.elem n attrs ch ∈ elemsOfNode nd := by
  cases nd with
  | text s =>
    have h2 := List.mem_singleton.mp (by rw [nodeToks] at hu; exact hu)
    exact Tok.noConfusion h2
  | comment s =>
    have h2 := List.mem_singleton.mp (by rw [nodeToks] at hu; exact hu)
    exact Tok.noConfusion h2
  | elem n0 attrs0 ch0 =>
    rw [nodeToks] at hu
    by_cases h2 : n0 ∈ voidNames
    · rw [if_pos h2] at hu
      have h3 := List.mem_singleton.mp hu
      injection h3 with hn ha hs
      refine ⟨ch0, ?_⟩
      rw [hn, ha, elemsOfNode]
      exact List.mem_cons_self _ _
    · rw [if_neg h2] at hu
      rcases List.mem_cons.mp hu with h3 | h3
      · injection h3 with hn ha hs
        refine ⟨ch0, ?_⟩
        rw [hn, ha, elemsOfNode]
        exact List.mem_cons_self _ _
      · rcases List.mem_append.mp h3 with h4 | h4
        · rcases nodesToks_startTag ch0 n attrs sc h4 with ⟨ch, hch⟩
          refine ⟨ch, ?_⟩
          rw [elemsOfNode]
          exact List.mem_cons_of_mem _ hch
        · have h5 := List.mem_singleton.mp h4
          exact Tok.noConfusion h5

/-- A start tag of a serialized forest names an element of the forest. -/
theorem nodesToks_startTag (ns : List Node) (n : List Char) (attrs : List Attr)
    (sc : Bool) (hu : Tok.startTag n attrs sc ∈ nodesToks ns) :
    ∃ ch, Node.elem n attrs ch ∈ elemsOfList ns := by
  cases ns with
  | nil => exact absurd hu (List.not_mem_nil _)
  | cons nd rest =>
    rw [nodesToks] at hu
    rcases List.mem_append.mp hu with h2 | h2
    · rcases nodeToks_startTag nd n attrs sc h2 with ⟨ch, hch⟩
      refine ⟨ch, ?_⟩
      rw [elemsOfList]
      exact List.mem_append.mpr (Or.inl hch)
    · rcases nodesToks_startTag rest n attrs sc h2 with ⟨ch, hch⟩
      refine ⟨ch, ?_⟩
      rw [elemsOfList]
      exact List.mem_append.mpr (Or.inr hch)

end

/-- Every non-`meta` element of the parse of the minimized output carries
only allowed attributes. -/
theorem minimized_attrs_allowed (html : List Char) :
    ∀ e ∈ elemsOfList (parseHtml (minimizeHtml html)),
      nodeName e ≠ "meta".data → ∀ a ∈ nodeAttrs e, a.1 ∈ allowedAttrs := by
  intro e he hne a ha
  rw [parseHtml_minimizeHtml] at he
  obtain ⟨n, attrs, ch, hch⟩ := elemsOfList_shape _ e he
  have hprov := treeify_ElemP _ e he n attrs ch hch
  obtain ⟨⟨sc, hst⟩, hvoid⟩ := hprov
  have hattrs : nodeAttrs e = attrs := by rw [hch]; rfl
  have hname : nodeName e = n := by rw [hch]; rfl
  rw [hattrs] at ha
  rw [hname] at hne
  obtain ⟨n0, attrs0, hst0, hnames, hcase⟩ := postTok_startTag _ _ _ _ hst
  rcases hcase with hc | hc
  · obtain ⟨ch0, hel⟩ := nodesToks_startTag _ _ _ _ hst0
    rcases attrPassList_ok _ (Node.elem n0 attrs0 ch0)
      (by rw [minimizeNodes] at hel; exact hel) with hmeta | hok
    · exact absurd (by rw [hc]; exact hmeta : n = "meta".data) hne
    · have h2 : a.1 ∈ attrs0.map Prod.fst := by
        rw [← hnames]
        exact List.mem_map.mpr ⟨a, ha, rfl⟩
      rcases List.mem_map.mp h2 with ⟨b, hb, hba⟩
      rw [← hba]
      exact hok.1 b hb
  · rw [hc] at ha
    exact absurd ha (List.not_mem_nil a)

/-- Claim C7 (confirmed): for every input HTML, every non-`meta` element
that remains in the minimized output string carries only attributes in
`{src, href, title}`. -/
theorem attrs_stripped (html : List Char) :
    ∀ e ∈ elemsOfList (parseHtml (minimizeHtml html)),
      nodeName e ≠ "meta".data → ∀ a ∈ nodeAttrs e, a.1 ∈ allowedAttrs :=
  minimized_attrs_allowed html

/-- Claim C7, witness: a paragraph with `class` and `title` retains only
`title` in the minimized output. -/
theorem attrs_stripped_witness :
    Node.elem "p".data [("title".data, "t".data)] [Node.text "a".data]
        ∈ elemsOfList (parseHtml (minimizeHtml
          "<p class=\"x\" title=\"t\">a</p>".data)) ∧
    ("title".data, "t".data).1 ∈ allowedAttrs :=
  ⟨List.mem_cons_self _ _,
   attrs_stripped "<p class=\"x\" title=\"t\">a</p>".data
     (Node.elem "p".data [("title".data, "t".data)] [Node.text "a".data])
     (List.mem_cons_self _ _) (by decide) ("title".data, "t".data)
     (List.mem_cons_self _ _)⟩

theorem lookupAttr_none (attrs : List Attr) (n : List Char)
    (hn : n ∉ allowedAttrs) (h : ∀ a ∈ attrs, a.1 ∈ allowedAttrs) :
    lookupAttr attrs n = none := by
  rw [lookupAttr]
  rw [List.find?_eq_none.mpr]
  · rfl
  · intro a ha
    intro hc
    rw [beq_iff_eq] at hc
    exact hn (hc ▸ h a ha)

theorem condMatches_false (attrs : List Attr) (cond : SCond)
    (hcond : disallowedCond cond = true) (h : ∀ a ∈ attrs, a.1 ∈ allowedAttrs) :
    condMatches attrs cond = false := by
  have hna : condName cond ∉ allowedAttrs := by
    rw [disallowedCond, Bool.not_eq_true'] at hcond
    intro hmem
    have h2 : allowedAttrs.contains (condName cond) = true := List.elem_iff.mpr hmem
    rw [hcond] at h2
    exact Bool.noConfusion h2
  have hl := lookupAttr_none attrs (condName cond) hna h
  cases cond with
  | classIs c =>
    rw [condMatches]
    rw [show condName (SCond.classIs c) = "class".data from rfl] at hl
    rw [hl]
  | idIs i =>
    rw [condMatches]
    rw [show condName (SCond.idIs i) = "id".data from rfl] at hl
    rw [hl]
    rfl
  | attrHas n =>
    rw [condMatches]
    rw [show condName (SCond.attrHas n) = n from rfl] at hl
    rw [hl]
    rfl
  | attrEq n v =>
    rw [condMatches]
    rw [show condName (SCond.attrEq n v) = n from rfl] at hl
    rw [hl]
    rfl

theorem compMatches_false_conds (n : List Char) (attrs : List Attr) (c : Compound)
    (hc : c.conds.any disallowedCond = true)
    (h : ∀ a ∈ attrs, a.1 ∈ allowedAttrs) :
    compMatches n attrs c = false := by
  rw [compMatches]
  rcases List.any_eq_true.mp hc with ⟨cond, hmem, hbad⟩
  have h2 : c.conds.all (condMatches attrs) = false := by
    rcases hall : c.conds.all (condMatches attrs) with _ | _
    · rfl
    · have h3 := List.all_eq_true.mp hall cond hmem
      rw [condMatches_false attrs cond hbad h] at h3
      exact Bool.noConfusion h3
  rw [h2, Bool.and_false]

theorem compMatches_false_elem (n : List Char) (attrs : List Attr) (c : Compound)
    (hc : blockedComp c = true)
    (helem : n = "meta".data ∨ ∀ a ∈ attrs, a.1 ∈ allowedAttrs) :
    compMatches n attrs c = false := by
  rw [blockedComp, Bool.and_eq_true] at hc
  rcases helem with hm | hal
  · rw [compMatches]
    rcases ht : c.tag with _ | t
    · rw [ht] at hc
      exact absurd hc.1 (by decide)
    · rw [ht] at hc
      have hc1 : (!(t == "meta".data)) = true := hc.1
      have h2 : (t == n) = false := by
        rw [beq_eq_false_iff_ne]
        intro he
        rw [Bool.not_eq_true', beq_eq_false_iff_ne] at hc1
        exact hc1 (by rw [he, hm])
      show ((t == n) && c.conds.all (condMatches attrs)) = false
      rw [h2, Bool.false_and]
  · exact compMatches_false_conds n attrs c hc.2 hal

theorem ancMatches_false (anc : List ETag)
    (hanc : ∀ a ∈ anc, ∀ b ∈ a.2, b.1 ∈ allowedAttrs) :
    ∀ outers, outers.any (fun c => c.conds.any disallowedCond) = true →
      ancMatches outers anc = false := by
  induction anc with
  | nil =>
    intro outers hbad
    cases outers with
    | nil => exact absurd hbad (by simp)
    | cons c cs => rfl
  | cons a as ih =>
    intro outers hbad
    cases outers with
    | nil => exact absurd hbad (by simp)
    | cons c cs =>
      rw [ancMatches]
      have hrec : ancMatches (c :: cs) as = false :=
        ih (fun x hx => hanc x (List.mem_cons_of_mem _ hx)) (c :: cs) hbad
      rcases List.any_eq_true.mp hbad with ⟨c0, hc0, hc0bad⟩
      rcases List.mem_cons.mp hc0 with h2 | h2
      · have h3 : compMatches a.1 a.2 c = false :=
          compMatches_false_conds a.1 a.2 c (by rw [← h2]; exact hc0bad)
            (hanc a (List.mem_cons_self _ _))
        rw [h3, Bool.false_and, hrec, Bool.or_false]
      · have h3 : ancMatches cs as = false :=
          ih (fun x hx => hanc x (List.mem_cons_of_mem _ hx)) cs
            (List.any_eq_true.mpr ⟨c0, h2, hc0bad⟩)
        rw [h3, Bool.and_false, hrec, Bool.or_false]

theorem chainMatches_false (chain : Chain) (anc : List ETag) (n : List Char)
    (attrs : List Attr) (hb : blockedB chain = true)
    (helem : n = "meta".data ∨ ∀ a ∈ attrs, a.1 ∈ allowedAttrs)
    (hanc : ∀ a ∈ anc, ∀ b ∈ a.2, b.1 ∈ allowedAttrs) :
    chainMatches chain anc n attrs = false := by
  rw [blockedB] at hb
  rw [chainMatches]
  rcases h : chain.reverse with _ | ⟨inner, outers⟩
  · rfl
  · rw [h] at hb
    rw [show blockedRev (inner :: outers) =
      (blockedComp inner || outers.any (fun c => c.conds.any disallowedCond))
      from rfl] at hb
    show (compMatches n attrs inner && ancMatches outers anc) = false
    rcases Bool.or_eq_true_iff.mp hb with h2 | h2
    · rw [compMatches_false_elem n attrs inner h2 helem, Bool.false_and]
    · rw [ancMatches_false anc hanc outers h2, Bool.and_false]

mutual

/-- Blocked selector chains match nothing in a minimized subtree. -/
theorem selectNode_blocked (sels : List Chain) (hsels : sels.all blockedB = true)
    (nd : Node)
    (hnd : ∀ e ∈ elemsOfNode nd,
      (nodeName e = "meta".data → nodeChildren e = []) ∧
      (nodeName e ≠ "meta".data → ∀ a ∈ nodeAttrs e, a.1 ∈ allowedAttrs))
    (anc : List ETag) (hanc : ∀ a ∈ anc, ∀ b ∈ a.2, b.1 ∈ allowedAttrs) :
    selectNode sels anc nd = [] := by
  cases nd with
  | text s => rfl
  | comment s => rfl
  | elem n attrs ch =>
    rw [selectNode]
    have hself := hnd (Node.elem n attrs ch)
      (by rw [elemsOfNode]; exact List.mem_cons_self _ _)
    have helem : n = "meta".data ∨ ∀ a ∈ attrs, a.1 ∈ allowedAttrs := by
      by_cases hm : n = "meta".data
      · exact Or.inl hm
      · exact Or.inr (hself.2 hm)
    have hany : (sels.any fun c => chainMatches c anc n attrs) = false := by
      rcases hcase : sels.any fun c => chainMatches c anc n attrs with _ | _
      · rfl
      · rcases List.any_eq_true.mp hcase with ⟨chain, hmem, hmatch⟩
        rw [chainMatches_false chain anc n attrs
          (List.all_eq_true.mp hsels chain hmem) helem hanc] at hmatch
        exact Bool.noConfusion hmatch
    rw [hany]
    rw [if_neg (by intro hc; exact Bool.noConfusion hc)]
    rw [List.nil_append]
    by_cases hm : n = "meta".data
    · have hch : ch = [] := hself.1 hm
      rw [hch]
      rfl
    · exact selectList_blocked sels hsels ch
        (fun e he => hnd e (by rw [elemsOfNode]; exact List.mem_cons_of_mem _ he))
        ((n, attrs) :: anc)
        (fun a ha => by
          rcases List.mem_cons.mp ha with h2 | h2
          · rw [h2]
            exact hself.2 hm
          · exact hanc a h2)

/-- Blocked selector chains match nothing in a minimized forest. -/
theorem selectList_blocked (sels : List Chain) (hsels : sels.all blockedB = true)
    (ns : List Node)
    (hns : ∀ e ∈ elemsOfList ns,
      (nodeName e = "meta".data → nodeChildren e = []) ∧
      (nodeName e ≠ "meta".data → ∀ a ∈ nodeAttrs e, a.1 ∈ allowedAttrs))
    (anc : List ETag) (hanc : ∀ a ∈ anc, ∀ b ∈ a.2, b.1 ∈ allowedAttrs) :
    selectList sels anc ns = [] := by
  cases ns with
  | nil => rfl
  | cons nd rest =>
    rw [selectList]
    rw [selectNode_blocked sels hsels nd
      (fun e he => hns e (by rw [elemsOfList]; exact List.mem_append.mpr (Or.inl he)))
      anc hanc]
    rw [List.nil_append]
    exact selectList_blocked sels hsels rest
      (fun e he => hns e (by rw [elemsOfList]; exact List.mem_append.mpr (Or.inr he)))
      anc hanc

end

/-- The element facts of a minimized page that block the default
selectors. -/
theorem minimized_elem_facts (html : List Char) :
    ∀ e ∈ elemsOfList (parseHtml (minimizeHtml html)),
      (nodeName e = "meta".data → nodeChildren e = []) ∧
      (nodeName e ≠ "meta".data → ∀ a ∈ nodeAttrs e, a.1 ∈ allowedAttrs) := by
  intro e he
  refine ⟨?_, fun hm => minimized_attrs_allowed html e he hm⟩
  intro hm
  rw [parseHtml_minimizeHtml] at he
  obtain ⟨n, attrs, ch, hch⟩ := elemsOfList_shape _ e he
  have h := (treeify_ElemP _ e he n attrs ch hch).2
  rw [hch] at hm ⊢
  show ch = []
  apply h
  show n ∈ voidNames
  have h2 : n = "meta".data := hm
  rw [h2]
  decide

/-- A selector whose chains are all blocked selects nothing on a minimized
page. -/
theorem selectForest_blocked (sel : List Char)
    (hsel : (parseSelector sel).all blockedB = true) (html : List Char) :
    selectForest sel (parseHtml (minimizeHtml html)) = [] := by
  rw [selectForest]
  exact selectList_blocked _ hsel _ (minimized_elem_facts html) []
    (fun a ha => absurd ha (List.not_mem_nil a))

/-- The specification loop yields nothing when every selector is empty. -/
theorem extractSpecsGo_allnil (forest : List Node) :
    ∀ sels, (∀ sel ∈ sels, selectList (parseSelector sel) [] forest = []) →
      extractSpecsGo forest [] sels = [] := by
  intro sels
  induction sels with
  | nil => exact fun _ => rfl
  | cons sel rest ih =>
    intro h
    rw [extractSpecsGo]
    rw [h sel (List.mem_cons_self _ _)]
    dsimp only
    rw [if_neg (by simp)]
    rw [if_neg (by simp)]
    rw [if_neg (by simp)]
    exact ih (fun s hs => h s (List.mem_cons_of_mem _ hs))

/-- `_extract_specifications` on a minimized page yields nothing. -/
theorem extract_specifications_minimized (html : List Char) :
    extract_specifications (minimizeHtml html) = [] := by
  rw [extract_specifications]
  apply extractSpecsGo_allnil
  intro sel hsel
  have hb : (parseSelector sel).all blockedB = true := by
    simp only [specSelectors, List.mem_cons, List.not_mem_nil, or_false] at hsel
    rcases hsel with h | h | h | h <;> rw [h] <;> decide
  have h2 := selectForest_blocked sel hb html
  rw [selectForest] at h2
  exact h2

/-- The breadcrumb loop falls back to the URL when every selector is
empty. -/
theorem extractCategoryGo_allnil (url m : List Char) :
    ∀ sels, (∀ sel ∈ sels, extract_multiple_texts m sel = []) →
      extractCategoryGo url m sels = categoryFromPath url := by
  intro sels
  induction sels with
  | nil => exact fun _ => rfl
  | cons sel rest ih =>
    intro h
    rw [extractCategoryGo]
    rw [h sel (List.mem_cons_self _ _)]
    exact ih (fun s hs => h s (List.mem_cons_of_mem _ hs))

/-- `_extract_category` on a minimized page always uses the URL
fallback. -/
theorem extract_category_minimized (url html : List Char) :
    extract_category url (minimizeHtml html) = categoryFromPath url := by
  rw [extract_category]
  apply extractCategoryGo_allnil
  intro sel hsel
  have hb : (parseSelector sel).all blockedB = true := by
    simp only [breadcrumbSelectors, List.mem_cons, List.not_mem_nil, or_false] at hsel
    rcases hsel with h | h | h | h <;> rw [h] <;> decide
  rw [extract_multiple_texts, selectForest_blocked sel hb html]
  rfl

/-- Claim C5 (confirmed): with the default selectors, for every URL and
input HTML, extraction from the minimized page yields no images, no
specifications, and a category coming only from the URL path: the
minimizer strips the class, id, itemprop and aria attributes these
selectors need, and the only elements keeping them (`meta`) are childless
void tags. -/
theorem default_selectors_blocked (url html : List Char) :
    (extract_from_html defaultSelectors url html).images = [] ∧
    (extract_from_html defaultSelectors url html).specifications = [] ∧
    (extract_from_html defaultSelectors url html).category =
      (categoryFromPath url).map (fun v => (⟨v⟩ : String)) := by
  refine ⟨?_, ?_, ?_⟩
  · show (extract_multiple_attributes (minimizeHtml html) defaultSelectors.images
      "src".data).map (fun v => (⟨urljoinM url v⟩ : String)) = []
    rw [extract_multiple_attributes,
      selectForest_blocked defaultSelectors.images (by decide) html]
    rfl
  · show extract_specifications (minimizeHtml html) = []
    exact extract_specifications_minimized html
  · show (extract_category url (minimizeHtml html)).map (fun v => (⟨v⟩ : String)) =
      (categoryFromPath url).map (fun v => (⟨v⟩ : String))
    rw [extract_category_minimized url html]

/-- Claim C6, counterexample: an input with no data-URI `src` and no
disallowed-tag content whose second minimization differs from its first:
the `</div>`-to-`</d>` abbreviation is not matched by any start-tag rename
when the `div` carries attributes, so the reparse of the output closes the
`div` elsewhere and restructures the tree. -/
theorem minimize_idempotence_counterexample :
    minimize_html (minimize_html "<div title=\"t\">a</div><p>b</p>") ≠
      minimize_html "<div title=\"t\">a</div><p>b</p>" := by decide

/-- Claim C6 (corrected): the minimizer is not idempotent, even on inputs
with no data-URI `src` attributes and no disallowed-tag content.  A `div`
with attributes keeps its `<div ...>` start tag while its end tag is
abbreviated to `</d>`; reparsing the output then leaves the `div` open and
moves following siblings inside it, so the second pass restructures the
markup (stabilizing only at the third pass).  A second pass is a no-op on
outputs it happens to reproduce, such as attribute-carrying tags other
than `span`/`div`. -/
theorem minimize_idempotence_cases :
    minimize_html "<div title=\"t\">a</div><p>b</p>" =
      "<div title=\"t\">a</d><p>b</p>" ∧
    minimize_html "<div title=\"t\">a</d><p>b</p>" =
      "<div title=\"t\">a<p>b</p></d>" ∧
    minimize_html "<div title=\"t\">a<p>b</p></d>" =
      "<div title=\"t\">a<p>b</p></d>" ∧
    minimize_html (minimize_html "<p title=\"t\">a</p><span>b</span>") =
      minimize_html "<p title=\"t\">a</p><span>b</span>" :=
  ⟨by decide, by decide, by decide, by decide⟩

end AiParser
